import Mathlib

/-!
Verification of the in-memory write path of a LevelDB-style key-value store:
the write batch (db/write_batch.cc), the sharded LRU cache shard
(util/cache.cc) and the arena allocator (util/arena.h).

Bytes are modelled as natural numbers (every real byte is < 256); byte
strings as `List Nat`; machine integers as `Nat` with explicit reductions
modulo `2 ^ 32` / `2 ^ 64` where the source works with `uint32_t` /
`uint64_t` fields.  The C++ `int` counter `found` in `WriteBatch::Iterate`
is modelled two's-complement style: only its value modulo `2 ^ 32` is
compared against the header count.
-/

namespace LevelDB

/-! ### Varint / fixed-width integer coding

`util/coding.cc` is not part of the sources; the definitions below are
modelled from the spec wire format: `varstring := varint32(len) bytes[len]`,
header fields `seq:u64_le` and `count:u32_le` (spec sections 3 and 6).
A varint32 is little-endian base-128 with a continuation bit, at most
5 bytes. -/

/-- Modelled from the spec: `PutVarint32` (util/coding.cc not in src/).
Emits the base-128 little-endian digits of `v`; `fuel` bounds recursion
(5 suffices for values below `2 ^ 32`). -/
def putVarintAux : Nat → Nat → List Nat
  | 0, v => [v % 128]
  | fuel + 1, v => if v < 128 then [v] else (v % 128 + 128) :: putVarintAux fuel (v / 128)

/-- Modelled from the spec: varint32 encoding of a 32-bit value. -/
def putVarint32 (v : Nat) : List Nat := putVarintAux 5 (v % 2 ^ 32)

/-- Modelled from the spec: `GetVarint32` parser state: remaining input,
current shift (multiples of 7, at most 28) and accumulator. -/
def getVarint32Aux : List Nat → Nat → Nat → Option (Nat × List Nat)
  | [], _, _ => none
  | b :: rest, shift, acc =>
    if 28 < shift then none
    else if b < 128 then some ((acc + b * 2 ^ shift) % 2 ^ 32, rest)
    else getVarint32Aux rest (shift + 7) (acc + b % 128 * 2 ^ shift)

/-- Modelled from the spec: varint32 decoding, at most 5 bytes. -/
def getVarint32 (input : List Nat) : Option (Nat × List Nat) := getVarint32Aux input 0 0

/-- Byte of `l` at index `i` (0 when out of range), reduced mod 256. -/
def byteAt (l : List Nat) (i : Nat) : Nat := l.getD i 0 % 256

/-- Modelled from the spec: `EncodeFixed32`, little endian. -/
def encodeFixed32 (v : Nat) : List Nat :=
  [v % 256, v / 2 ^ 8 % 256, v / 2 ^ 16 % 256, v / 2 ^ 24 % 256]

/-- Modelled from the spec: `DecodeFixed32`, little endian. -/
def decodeFixed32 (l : List Nat) : Nat :=
  byteAt l 0 + byteAt l 1 * 2 ^ 8 + byteAt l 2 * 2 ^ 16 + byteAt l 3 * 2 ^ 24

/-- Modelled from the spec: `EncodeFixed64`, little endian. -/
def encodeFixed64 (v : Nat) : List Nat :=
  [v % 256, v / 2 ^ 8 % 256, v / 2 ^ 16 % 256, v / 2 ^ 24 % 256,
   v / 2 ^ 32 % 256, v / 2 ^ 40 % 256, v / 2 ^ 48 % 256, v / 2 ^ 56 % 256]

/-- Modelled from the spec: `DecodeFixed64`, little endian. -/
def decodeFixed64 (l : List Nat) : Nat :=
  byteAt l 0 + byteAt l 1 * 2 ^ 8 + byteAt l 2 * 2 ^ 16 + byteAt l 3 * 2 ^ 24 +
  byteAt l 4 * 2 ^ 32 + byteAt l 5 * 2 ^ 40 + byteAt l 6 * 2 ^ 48 + byteAt l 7 * 2 ^ 56

/-! ### Write batch (db/write_batch.cc) -/

/-- `kTypeValue` (PUT tag, spec: `PUT=1`; db/dbformat.h not in src/). -/
def kTypeValue : Nat := 1

/-- `kTypeDeletion` (DEL tag, spec: `DEL=0`; db/dbformat.h not in src/). -/
def kTypeDeletion : Nat := 0

/-- The 12-byte header: 8-byte sequence number, 4-byte count. -/
def kHeader : Nat := 12

/-- A record operation as dispatched to a `WriteBatch::Handler`. -/
inductive BatchOp
  | putOp (key value : List Nat)
  | delOp (key : List Nat)
  deriving DecidableEq

/-- `WriteBatch::Clear`: reset `rep_` to a bare 12-byte (zero) header. -/
def wbClear : List Nat := List.replicate kHeader 0

/-- `WriteBatchInternal::Count`: decode the fixed32 at offset 8. -/
def wbCount (rep : List Nat) : Nat := decodeFixed32 (rep.drop 8)

/-- `WriteBatchInternal::SetCount`: re-encode the fixed32 at offset 8. -/
def wbSetCount (rep : List Nat) (n : Nat) : List Nat :=
  rep.take 8 ++ encodeFixed32 n ++ rep.drop 12

/-- `WriteBatchInternal::Sequence`: decode the fixed64 at offset 0. -/
def wbSequence (rep : List Nat) : Nat := decodeFixed64 rep

/-- `WriteBatchInternal::SetSequence`: re-encode the fixed64 at offset 0. -/
def wbSetSequence (rep : List Nat) (s : Nat) : List Nat := encodeFixed64 s ++ rep.drop 8

/-- `PutLengthPrefixedSlice`: append `varint32(len)` then the bytes. -/
def putLengthPrefixedSlice (dst value : List Nat) : List Nat :=
  dst ++ putVarint32 value.length ++ value

/-- `GetLengthPrefixedSlice`: parse a varint32 length, then take that many
bytes if available. -/
def getLengthPrefixedSlice (input : List Nat) : Option (List Nat × List Nat) :=
  match getVarint32 input with
  | none => none
  | some (len, rest) => if len ≤ rest.length then some (rest.take len, rest.drop len) else none

/-- `WriteBatch::Put`: increment the count field, append the `kTypeValue`
tag and the two length-prefixed slices. -/
def wbPut (rep key value : List Nat) : List Nat :=
  putLengthPrefixedSlice (putLengthPrefixedSlice (wbSetCount rep (wbCount rep + 1) ++ [kTypeValue]) key) value

/-- `WriteBatch::Delete`: increment the count field, append the
`kTypeDeletion` tag and the length-prefixed key. -/
def wbDelete (rep key : List Nat) : List Nat :=
  putLengthPrefixedSlice (wbSetCount rep (wbCount rep + 1) ++ [kTypeDeletion]) key

/-- `WriteBatchInternal::Append`: add the counts, append the source's
record bytes (header stripped). -/
def wbAppend (dst src : List Nat) : List Nat :=
  wbSetCount dst (wbCount dst + wbCount src) ++ src.drop kHeader

/-- `leveldb::Status`, restricted to the two kinds the write batch uses. -/
inductive Status
  | ok
  | corruption (msg : String)
  deriving DecidableEq

/-- The record loop of `WriteBatch::Iterate`, generic in the handler: a
handler is a state `σ` with a `Put` and a `Delete` transition (the virtual
`WriteBatch::Handler` interface).  Returns the error message (if any), the
`found` counter and the final handler state.  `fuel` bounds the recursion;
each iteration consumes at least the tag byte, so `fuel = input.length`
is always sufficient. -/
def iterateLoop {σ : Type} (hPut : σ → List Nat → List Nat → σ) (hDel : σ → List Nat → σ) :
    Nat → List Nat → Nat → σ → Option String × Nat × σ
  | _, [], found, s => (none, found, s)
  | 0, _ :: _, found, s => (some ("out of fuel"), found, s)
  | fuel + 1, tag :: input, found, s =>
    if tag = kTypeValue then
      match getLengthPrefixedSlice input with
      | some (key, r1) =>
        match getLengthPrefixedSlice r1 with
        | some (value, r2) => iterateLoop hPut hDel fuel r2 (found + 1) (hPut s key value)
        | none => (some ("bad WriteBatch Put"), found + 1, s)
      | none => (some ("bad WriteBatch Put"), found + 1, s)
    else if tag = kTypeDeletion then
      match getLengthPrefixedSlice input with
      | some (key, r1) => iterateLoop hPut hDel fuel r1 (found + 1) (hDel s key)
      | none => (some ("bad WriteBatch Delete"), found + 1, s)
    else (some ("unknown WriteBatch tag"), found + 1, s)

/-- `WriteBatch::Iterate`, generic in the handler: header check, record
loop, then the count check (`found` is a C++ `int`; its bit pattern,
i.e. its value mod `2 ^ 32`, is compared with the count field). -/
def iterateWith {σ : Type} (hPut : σ → List Nat → List Nat → σ) (hDel : σ → List Nat → σ)
    (rep : List Nat) (s0 : σ) : Status × σ :=
  if rep.length < kHeader then (Status.corruption ("malformed WriteBatch (too small)"), s0)
  else
    match iterateLoop hPut hDel rep.length (rep.drop kHeader) 0 s0 with
    | (some msg, _, s) => (Status.corruption msg, s)
    | (none, found, s) =>
      if found % 2 ^ 32 = wbCount rep then (Status.ok, s)
      else (Status.corruption ("WriteBatch has wrong count"), s)

/-- A recording handler: its state is the list of dispatched operations. -/
def recPut (tr : List BatchOp) (k v : List Nat) : List BatchOp := tr ++ [BatchOp.putOp k v]

/-- Delete transition of the recording handler. -/
def recDelete (tr : List BatchOp) (k : List Nat) : List BatchOp := tr ++ [BatchOp.delOp k]

/-- `WriteBatch::Iterate` with a recording handler: returns the status and
the exact sequence of operations dispatched to the handler. -/
def iterate (rep : List Nat) : Status × List BatchOp := iterateWith recPut recDelete rep []

/-- One `MemTable::Add` call as observed by the memtable (the claimed
properties are about the sequence of `Add` calls, so the memtable is
modelled by its `Add`-call trace). -/
structure MemEntry where
  seq : Nat
  vtype : Nat
  ukey : List Nat
  uvalue : List Nat
  deriving DecidableEq

/-- `MemTable::Add` as a trace event. -/
def memAdd (mem : List MemEntry) (seq vtype : Nat) (key value : List Nat) : List MemEntry :=
  mem ++ [⟨seq, vtype, key, value⟩]

/-- `MemTableInserter::Put`: `mem_->Add(sequence_, kTypeValue, key, value);
sequence_++` (the sequence counter is a `uint64_t`, hence mod `2 ^ 64`). -/
def inserterPut (s : Nat × List MemEntry) (k v : List Nat) : Nat × List MemEntry :=
  ((s.1 + 1) % 2 ^ 64, memAdd s.2 s.1 kTypeValue k v)

/-- `MemTableInserter::Delete`: `mem_->Add(sequence_, kTypeDeletion, key,
Slice()); sequence_++`. -/
def inserterDelete (s : Nat × List MemEntry) (k : List Nat) : Nat × List MemEntry :=
  ((s.1 + 1) % 2 ^ 64, memAdd s.2 s.1 kTypeDeletion k [])

/-- `WriteBatchInternal::InsertInto`: run `Iterate` with a
`MemTableInserter` whose sequence counter starts at the batch's header
sequence.  Returns the status and the inserter state (final sequence
counter and memtable trace). -/
def insertInto (rep : List Nat) (mem : List MemEntry) : Status × Nat × List MemEntry :=
  iterateWith inserterPut inserterDelete rep (wbSequence rep, mem)

/-- The memtable trace `InsertInto` produces for a record list, starting
at sequence counter `seq` (a `uint64_t`, incremented mod `2 ^ 64`). -/
def memEntries (seq : Nat) : List BatchOp → List MemEntry
  | [] => []
  | .putOp k v :: rest => ⟨seq, kTypeValue, k, v⟩ :: memEntries ((seq + 1) % 2 ^ 64) rest
  | .delOp k :: rest => ⟨seq, kTypeDeletion, k, []⟩ :: memEntries ((seq + 1) % 2 ^ 64) rest

/-- The memtable trace with mathematically consecutive sequence numbers
`seq, seq + 1, …` (what the spec asserts; coincides with `memEntries`
exactly when the counter does not wrap). -/
def memEntriesAt (seq : Nat) : List BatchOp → List MemEntry
  | [] => []
  | .putOp k v :: rest => ⟨seq, kTypeValue, k, v⟩ :: memEntriesAt (seq + 1) rest
  | .delOp k :: rest => ⟨seq, kTypeDeletion, k, []⟩ :: memEntriesAt (seq + 1) rest

/-- Apply one `WriteBatch::Put` / `WriteBatch::Delete` call. -/
def applyOp (rep : List Nat) : BatchOp → List Nat
  | .putOp k v => wbPut rep k v
  | .delOp k => wbDelete rep k

/-- Apply a sequence of `Put` / `Delete` calls to a batch. -/
def applyOps (rep : List Nat) (ops : List BatchOp) : List Nat := ops.foldl applyOp rep

/-- The encoded bytes of one record (tag plus length-prefixed slices). -/
def encodeVarstring (k : List Nat) : List Nat := putVarint32 k.length ++ k

/-- Record encoding, as produced by `wbPut` / `wbDelete`. -/
def encodeRecord : BatchOp → List Nat
  | .putOp k v => kTypeValue :: (encodeVarstring k ++ encodeVarstring v)
  | .delOp k => kTypeDeletion :: encodeVarstring k

/-- Concatenated record encodings. -/
def encodeRecords (ops : List BatchOp) : List Nat := (ops.map encodeRecord).flatten

/-- Dispatch one operation to a handler. -/
def applyRecord {σ : Type} (hPut : σ → List Nat → List Nat → σ) (hDel : σ → List Nat → σ)
    (s : σ) : BatchOp → σ
  | .putOp k v => hPut s k v
  | .delOp k => hDel s k

/-- Dispatch a list of operations to a handler, in order. -/
def applyRecords {σ : Type} (hPut : σ → List Nat → List Nat → σ) (hDel : σ → List Nat → σ)
    (s : σ) (ops : List BatchOp) : σ := ops.foldl (applyRecord hPut hDel) s

/-- Key and value lengths representable by a varint32 length field. -/
def opOK : BatchOp → Prop
  | .putOp k v => k.length < 2 ^ 32 ∧ v.length < 2 ^ 32
  | .delOp k => k.length < 2 ^ 32

/-- All operations of a list have representable key/value lengths. -/
def opsOK (ops : List BatchOp) : Prop := ∀ op ∈ ops, opOK op

instance decOpOK (op : BatchOp) : Decidable (opOK op) :=
  match op with
  | .putOp k v => inferInstanceAs (Decidable (k.length < 2 ^ 32 ∧ v.length < 2 ^ 32))
  | .delOp k => inferInstanceAs (Decidable (k.length < 2 ^ 32))

instance decOpsOK (ops : List BatchOp) : Decidable (opsOK ops) :=
  inferInstanceAs (Decidable (∀ op ∈ ops, opOK op))

/-- Classify the corruption produced by the first record of `input`
(`none` when `input` is empty or its first record parses). -/
def failMsgOf (input : List Nat) : Option String :=
  match input with
  | [] => none
  | tag :: rest =>
    if tag = kTypeValue then
      match getLengthPrefixedSlice rest with
      | some (_, r1) =>
        match getLengthPrefixedSlice r1 with
        | some _ => none
        | none => some ("bad WriteBatch Put")
      | none => some ("bad WriteBatch Put")
    else if tag = kTypeDeletion then
      match getLengthPrefixedSlice rest with
      | some _ => none
      | none => some ("bad WriteBatch Delete")
    else some ("unknown WriteBatch tag")

/-! ### Declarative batch grammar (spec section 6)

`batch := seq:u64_le count:u32_le record*`,
`record := tag:u8 varstring(key) [varstring(value) if tag=1]`,
`varstring := varint32(len) bytes[len]`.  `VarintBytes` is the set of
byte strings the varint32 code accepts, written generatively. -/

/-- `VarintBytes bytes v`: `bytes` is a base-128 little-endian varint
spelling of the (untruncated) value `v`; continuation bytes have the high
bit set. -/
inductive VarintBytes : List Nat → Nat → Prop
  | one (b : Nat) : b < 128 → VarintBytes [b] b
  | more (b : Nat) (rest : List Nat) (m : Nat) :
      128 ≤ b → b < 256 → VarintBytes rest m → VarintBytes (b :: rest) (b - 128 + 128 * m)

/-- `VarstringBytes key bytes`: `bytes` is a varstring whose length field
reads back (as a `uint32_t`) exactly `key.length`, followed by the key
bytes. -/
def VarstringBytes (key bytes : List Nat) : Prop :=
  ∃ lb v, VarintBytes lb v ∧ lb.length ≤ 5 ∧ v % 2 ^ 32 = key.length ∧ bytes = lb ++ key

/-- `GoodRecords bytes n ops`: `bytes` is a well-formed sequence of `n`
records spelling the operations `ops` (spec grammar `record*`). -/
inductive GoodRecords : List Nat → Nat → List BatchOp → Prop
  | nil : GoodRecords [] 0 []
  | putRec (k ks v vs rest : List Nat) (n : Nat) (ops : List BatchOp) :
      VarstringBytes k ks → VarstringBytes v vs → GoodRecords rest n ops →
      GoodRecords (kTypeValue :: (ks ++ vs ++ rest)) (n + 1) (.putOp k v :: ops)
  | delRec (k ks rest : List Nat) (n : Nat) (ops : List BatchOp) :
      VarstringBytes k ks → GoodRecords rest n ops →
      GoodRecords (kTypeDeletion :: (ks ++ rest)) (n + 1) (.delOp k :: ops)

/-- A fully well-formed batch: at least the 12-byte header, a well-formed
record region, and a record count matching the header count field. -/
def GoodBatch (rep : List Nat) : Prop :=
  kHeader ≤ rep.length ∧ ∃ n ops, GoodRecords (rep.drop kHeader) n ops ∧ n % 2 ^ 32 = wbCount rep

/-- All entries of `l` are bytes (below 256). -/
def ByteSeq (l : List Nat) : Prop := ∀ b ∈ l, b < 256

instance decByteSeq (l : List Nat) : Decidable (ByteSeq l) :=
  inferInstanceAs (Decidable (∀ b ∈ l, b < 256))

/-! ### LRU cache shard (util/cache.cc)

One `LRUCache` shard.  Handles are identified by the order of their
allocation (`next_id`); the struct fields mirror `LRUHandle` (`value`,
`charge`, `key`, `hash`, `refs`, `in_cache`).  The two circular
sentinel-headed lists `lru_` and `in_use_` are modelled as lists of handle
ids ordered oldest first (`lru_.next`, the oldest entry, is the head;
`LRU_Append` inserts just before the sentinel, i.e. at the tail).  The
`HandleTable` is modelled by the contents of its chains, a list of handle
ids: `FindPointer` matches on `(hash, key)` equality, `Insert` replaces a
matching entry in place (or appends), `Remove` unlinks; `Resize` only
repartitions the chains into buckets and does not change the contents, so
it has no observable effect in this model.  `free(e)` together with the
`deleter` callback is modelled by removing the handle from the live map
and appending its id to `freed` (one entry per deleter invocation).
Client-held references (handles returned by `Insert` and `Lookup` and not
yet released) are tracked in `client`; `Release` of a handle the client
does not hold is a precondition violation (`assert(e->refs > 0)`) and is
modelled as a no-op guard in the operation alphabet. -/

/-- `LRUHandle` (util/cache.cc): the fields relevant to the claims. -/
structure LRUHandle where
  value : Nat
  charge : Nat
  key : List Nat
  hash : Nat
  refs : Nat
  in_cache : Bool
  deriving DecidableEq

/-- Find the live handle with id `i` (the heap, as an association list). -/
def hfind : List (Nat × LRUHandle) → Nat → Option LRUHandle
  | [], _ => none
  | (j, h) :: rest, i => if j = i then some h else hfind rest i

/-- Overwrite the fields of the live handle with id `i`. -/
def hset : List (Nat × LRUHandle) → Nat → LRUHandle → List (Nat × LRUHandle)
  | [], _, _ => []
  | (j, h) :: rest, i, h2 => if j = i then (j, h2) :: rest else (j, h) :: hset rest i h2

/-- Remove (free) the live handle with id `i`. -/
def hremove : List (Nat × LRUHandle) → Nat → List (Nat × LRUHandle)
  | [], _ => []
  | (j, h) :: rest, i => if j = i then rest else (j, h) :: hremove rest i

/-- Sum of the charges of the in-cache live handles. -/
def chargeSum : List (Nat × LRUHandle) → Nat
  | [] => 0
  | (_, h) :: rest => (if h.in_cache then h.charge else 0) + chargeSum rest

/-- The state of one `LRUCache` shard. -/
structure CacheState where
  capacity : Nat
  usage : Nat
  lru : List Nat
  in_use : List Nat
  table : List Nat
  handles : List (Nat × LRUHandle)
  client : List Nat
  freed : List Nat
  next_id : Nat
  deriving DecidableEq

/-- A fresh shard with the given capacity (`LRUCache::LRUCache` plus
`SetCapacity`): empty lists, zero usage. -/
def initCache (cap : Nat) : CacheState :=
  ⟨cap, 0, [], [], [], [], [], [], 0⟩

/-- `HandleTable::FindPointer` / `Lookup`: first chain entry whose hash and
key both match. -/
def tableFind (hs : List (Nat × LRUHandle)) : List Nat → List Nat → Nat → Option Nat
  | [], _, _ => none
  | i :: rest, key, hash =>
    match hfind hs i with
    | some h => if h.hash = hash ∧ h.key = key then some i else tableFind hs rest key hash
    | none => tableFind hs rest key hash

/-- `HandleTable::Insert`: replace the matching entry in place and return
it, or append at the end of the chain. -/
def tableInsert (hs : List (Nat × LRUHandle)) (tl : List Nat) (i : Nat) (key : List Nat)
    (hash : Nat) : List Nat × Option Nat :=
  match tl with
  | [] => ([i], none)
  | j :: rest =>
    match hfind hs j with
    | some h =>
      if h.hash = hash ∧ h.key = key then (i :: rest, some j)
      else
        let r := tableInsert hs rest i key hash
        (j :: r.1, r.2)
    | none =>
      let r := tableInsert hs rest i key hash
      (j :: r.1, r.2)

/-- `HandleTable::Remove`: unlink and return the matching entry. -/
def tableRemove (hs : List (Nat × LRUHandle)) (tl : List Nat) (key : List Nat) (hash : Nat) :
    List Nat × Option Nat :=
  match tl with
  | [] => ([], none)
  | j :: rest =>
    match hfind hs j with
    | some h =>
      if h.hash = hash ∧ h.key = key then (rest, some j)
      else
        let r := tableRemove hs rest key hash
        (j :: r.1, r.2)
    | none =>
      let r := tableRemove hs rest key hash
      (j :: r.1, r.2)

/-- `LRUCache::LRU_Remove`: unlink `e` from the circular list it is on
(a handle is on at most one of the two lists; unlinking from the list it
is not on is a no-op). -/
def lruRemove (s : CacheState) (i : Nat) : CacheState :=
  { s with lru := s.lru.erase i, in_use := s.in_use.erase i }

/-- `LRUCache::Ref`: if the handle is on `lru_` (refs 1, in cache), move
it to `in_use_`; then increment `refs`. -/
def cacheRef (s : CacheState) (i : Nat) : CacheState :=
  match hfind s.handles i with
  | none => s
  | some h =>
    let s1 := if h.refs = 1 ∧ h.in_cache then
        let s0 := lruRemove s i
        { s0 with in_use := s0.in_use ++ [i] }
      else s
    { s1 with handles := hset s1.handles i { h with refs := h.refs + 1 } }

/-- `LRUCache::Unref`: decrement `refs`; on zero invoke the deleter and
free the handle; on a transition to `refs = 1` while in cache, move the
handle from `in_use_` to `lru_`. -/
def cacheUnref (s : CacheState) (i : Nat) : CacheState :=
  match hfind s.handles i with
  | none => s
  | some h =>
    if h.refs - 1 = 0 then
      { s with handles := hremove s.handles i, freed := s.freed ++ [i] }
    else if h.in_cache ∧ h.refs - 1 = 1 then
      let s0 := lruRemove s i
      { s0 with lru := s0.lru ++ [i],
                handles := hset s0.handles i { h with refs := h.refs - 1 } }
    else
      { s with handles := hset s.handles i { h with refs := h.refs - 1 } }

/-- `LRUCache::FinishErase`: if `e` is not null (it has already been
removed from the hash table), unlink it from its list, clear `in_cache`,
subtract its charge from `usage` and `Unref` it. -/
def finishErase (s : CacheState) : Option Nat → CacheState
  | none => s
  | some i =>
    match hfind s.handles i with
    | none => s
    | some h =>
      let s1 := lruRemove s i
      let s2 := { s1 with handles := hset s1.handles i { h with in_cache := false },
                          usage := s1.usage - h.charge }
      cacheUnref s2 i

/-- The eviction loop at the end of `LRUCache::Insert` (and the body of
`Prune`): while `usage_ > capacity_` and `lru_` is non-empty, remove the
oldest entry (`lru_.next`, the head) from the hash table and finish-erase
it.  `fuel` bounds the recursion; under the shard invariant every
iteration shortens `lru`, so `fuel = s.lru.length` is sufficient. -/
def evictLoop (s : CacheState) : Nat → CacheState
  | 0 => s
  | fuel + 1 =>
    if s.capacity < s.usage ∧ s.lru ≠ [] then
      match s.lru with
      | [] => s
      | old :: _ =>
        match hfind s.handles old with
        | none => s
        | some h =>
          let r := tableRemove s.handles s.table h.key h.hash
          evictLoop (finishErase { s with table := r.1 } r.2) fuel
    else s

/-- `LRUCache::Insert`: allocate a handle with `refs = 1` (the returned
reference, tracked in `client`); if `capacity_ > 0`, take the cache
reference (`refs = 2`, `in_cache = true`), append to `in_use_`, add the
charge to `usage_`, insert into the hash table and finish-erase the
displaced entry; then run the eviction loop.  Returns the new state and
the id of the returned handle. -/
def cacheInsert (s : CacheState) (key : List Nat) (hash value charge : Nat) :
    CacheState × Nat :=
  let i := s.next_id
  let e : LRUHandle := ⟨value, charge, key, hash, 1, false⟩
  let s1 := { s with handles := s.handles ++ [(i, e)], next_id := i + 1,
                     client := s.client ++ [i] }
  let s2 :=
    if 0 < s1.capacity then
      let s1a := { s1 with handles := hset s1.handles i { e with refs := 2, in_cache := true },
                           in_use := s1.in_use ++ [i],
                           usage := s1.usage + charge }
      let r := tableInsert s1a.handles s1a.table i key hash
      finishErase { s1a with table := r.1 } r.2
    else s1
  (evictLoop s2 s2.lru.length, i)

/-- `LRUCache::Lookup`: hash-table lookup; on a hit, `Ref` the handle and
hand it to the client. -/
def cacheLookup (s : CacheState) (key : List Nat) (hash : Nat) : CacheState :=
  match tableFind s.handles s.table key hash with
  | none => s
  | some i => { cacheRef s i with client := s.client ++ [i] }

/-- `LRUCache::Release`: `Unref` a handle the client holds (releasing a
handle the client does not hold violates the `refs > 0` precondition and
is excluded from the operation alphabet by the guard). -/
def cacheRelease (s : CacheState) (i : Nat) : CacheState :=
  if i ∈ s.client then
    { cacheUnref s i with client := s.client.erase i }
  else s

/-- `LRUCache::Erase`: hash-table remove followed by finish-erase. -/
def cacheErase (s : CacheState) (key : List Nat) (hash : Nat) : CacheState :=
  let r := tableRemove s.handles s.table key hash
  finishErase { s with table := r.1 } r.2

/-- The loop body of `LRUCache::Prune`: while `lru_` is non-empty, remove
the oldest entry from the hash table and finish-erase it. -/
def pruneLoop (s : CacheState) : Nat → CacheState
  | 0 => s
  | fuel + 1 =>
    match s.lru with
    | [] => s
    | old :: _ =>
      match hfind s.handles old with
      | none => s
      | some h =>
        let r := tableRemove s.handles s.table h.key h.hash
        pruneLoop (finishErase { s with table := r.1 } r.2) fuel

/-- `LRUCache::Prune`. -/
def cachePrune (s : CacheState) : CacheState := pruneLoop s s.lru.length

/-- The operation alphabet of one shard. -/
inductive CacheOp
  | insert (key : List Nat) (hash value charge : Nat)
  | lookup (key : List Nat) (hash : Nat)
  | release (i : Nat)
  | erase (key : List Nat) (hash : Nat)
  | prune

/-- One shard operation. -/
def cacheStep (s : CacheState) : CacheOp → CacheState
  | .insert key hash value charge => (cacheInsert s key hash value charge).1
  | .lookup key hash => cacheLookup s key hash
  | .release i => cacheRelease s i
  | .erase key hash => cacheErase s key hash
  | .prune => cachePrune s

/-- Run a sequence of shard operations from a fresh shard. -/
def cacheRun (cap : Nat) (ops : List CacheOp) : CacheState :=
  ops.foldl cacheStep (initCache cap)

/-- The `(key, hash)` pair of a live handle id. -/
def keyhash (hs : List (Nat × LRUHandle)) (i : Nat) : Option (List Nat × Nat) :=
  (hfind hs i).map fun h => (h.key, h.hash)

/-- The shard invariant (the comments at the top of util/cache.cc and the
assertions in its methods):
list/heap uniqueness; every `lru_` entry is live, in cache, `refs = 1`;
every `in_use_` entry is live, in cache, `refs ≥ 2`; the lists are
disjoint; the table holds exactly the in-cache handles, with distinct
`(key, hash)` pairs; `refs` equals the number of client references plus
the cache reference; live handles have `refs ≥ 1`; in-cache handles are
on the list their `refs` dictates; client references point to live
handles; ids are below `next_id`; an allocated id is freed exactly when
it is no longer live; `usage_` is the summed charge of in-cache
handles. -/
structure CacheWF (s : CacheState) : Prop where
  lru_nd : s.lru.Nodup
  use_nd : s.in_use.Nodup
  tbl_nd : s.table.Nodup
  dom_nd : (s.handles.map Prod.fst).Nodup
  freed_nd : s.freed.Nodup
  lru_ok : ∀ i ∈ s.lru, ∃ h, hfind s.handles i = some h ∧ h.in_cache = true ∧ h.refs = 1
  use_ok : ∀ i ∈ s.in_use, ∃ h, hfind s.handles i = some h ∧ h.in_cache = true ∧ 2 ≤ h.refs
  disj : ∀ i ∈ s.lru, i ∉ s.in_use
  tbl_ok : ∀ i ∈ s.table, ∃ h, hfind s.handles i = some h ∧ h.in_cache = true
  cache_tbl : ∀ p ∈ s.handles, p.2.in_cache = true → p.1 ∈ s.table
  tbl_uniq : s.table.Pairwise fun i j => keyhash s.handles i ≠ keyhash s.handles j
  refs_eq : ∀ p ∈ s.handles, p.2.refs = s.client.count p.1 + (if p.2.in_cache then 1 else 0)
  refs_pos : ∀ p ∈ s.handles, 1 ≤ p.2.refs
  listed : ∀ p ∈ s.handles, p.2.in_cache = true →
    (p.2.refs = 1 → p.1 ∈ s.lru) ∧ (2 ≤ p.2.refs → p.1 ∈ s.in_use)
  client_live : ∀ i ∈ s.client, ∃ h, hfind s.handles i = some h
  id_bound : ∀ p ∈ s.handles, p.1 < s.next_id
  freed_bound : ∀ i ∈ s.freed, i < s.next_id
  freed_iff : ∀ i < s.next_id, (i ∈ s.freed ↔ hfind s.handles i = none)
  usage_eq : s.usage = chargeSum s.handles

/-- The intermediate well-formedness that holds right before a
`FinishErase(e)` call: the shard is well-formed except that the live,
in-cache handle `o` has already been unlinked from the hash table (it is
the entry `FinishErase` is about to detach from its list and uncache). -/
structure PreWF (t : CacheState) (o : Nat) : Prop where
  lru_nd : t.lru.Nodup
  use_nd : t.in_use.Nodup
  tbl_nd : t.table.Nodup
  dom_nd : (t.handles.map Prod.fst).Nodup
  freed_nd : t.freed.Nodup
  lru_ok : ∀ i ∈ t.lru, ∃ h, hfind t.handles i = some h ∧ h.in_cache = true ∧ h.refs = 1
  use_ok : ∀ i ∈ t.in_use, ∃ h, hfind t.handles i = some h ∧ h.in_cache = true ∧ 2 ≤ h.refs
  disj : ∀ i ∈ t.lru, i ∉ t.in_use
  tbl_ok : ∀ i ∈ t.table, ∃ h, hfind t.handles i = some h ∧ h.in_cache = true
  cache_tbl : ∀ p ∈ t.handles, p.2.in_cache = true → p.1 ∈ t.table ∨ p.1 = o
  tbl_uniq : t.table.Pairwise fun i j => keyhash t.handles i ≠ keyhash t.handles j
  refs_eq : ∀ p ∈ t.handles, p.2.refs = t.client.count p.1 + (if p.2.in_cache then 1 else 0)
  refs_pos : ∀ p ∈ t.handles, 1 ≤ p.2.refs
  listed : ∀ p ∈ t.handles, p.2.in_cache = true →
    (p.2.refs = 1 → p.1 ∈ t.lru) ∧ (2 ≤ p.2.refs → p.1 ∈ t.in_use)
  client_live : ∀ i ∈ t.client, ∃ h, hfind t.handles i = some h
  id_bound : ∀ p ∈ t.handles, p.1 < t.next_id
  freed_bound : ∀ i ∈ t.freed, i < t.next_id
  freed_iff : ∀ i < t.next_id, (i ∈ t.freed ↔ hfind t.handles i = none)
  usage_eq : t.usage = chargeSum t.handles
  o_tbl : o ∉ t.table
  o_live : ∃ h, hfind t.handles o = some h ∧ h.in_cache = true

/-! ### Arena allocator (util/arena.h)

`Arena::Allocate`'s fast path is in util/arena.h; `AllocateFallback` and
`AllocateNewBlock` live in util/arena.cc, which is not among the sources,
and are modelled from the spec (section 4.A).  A pointer is modelled as a
pair (index of the block in allocation order, offset inside the block). -/

/-- The arena state: current allocation pointer, remaining bytes in the
current block, sizes of the allocated blocks (in allocation order) and
the published memory usage. -/
structure Arena where
  alloc_ptr : Nat × Nat
  alloc_bytes_remaining : Nat
  blocks : List Nat
  memory_usage : Nat
  deriving DecidableEq

/-- `kBlockSize = 4096`. -/
def kBlockSize : Nat := 4096

/-- A fresh arena: null pointer, nothing remaining, no blocks. -/
def initArena : Arena := ⟨(0, 0), 0, [], 0⟩

/-- Modelled from the spec: `Arena::AllocateNewBlock` (util/arena.cc not
in src/) — record a block of `block_bytes` bytes and publish the usage
increase (block bytes plus one block pointer of bookkeeping). -/
def allocateNewBlock (a : Arena) (block_bytes : Nat) : Arena × Nat :=
  ({ a with blocks := a.blocks ++ [block_bytes],
            memory_usage := a.memory_usage + block_bytes + 8 },
   a.blocks.length)

/-- Modelled from the spec: `Arena::AllocateFallback` (util/arena.cc not
in src/) — objects more than a quarter block get a dedicated block of
exactly their size, without disturbing the current block's remaining
space; otherwise a fresh 4096-byte block replaces the current block
(wasting its remainder) and serves the request. -/
def allocateFallback (a : Arena) (bytes : Nat) : Arena × (Nat × Nat) :=
  if kBlockSize / 4 < bytes then
    let r := allocateNewBlock a bytes
    (r.1, (r.2, 0))
  else
    let r := allocateNewBlock a kBlockSize
    ({ r.1 with alloc_ptr := (r.2, bytes), alloc_bytes_remaining := kBlockSize - bytes },
     (r.2, 0))

/-- `Arena::Allocate` (util/arena.h): serve from the current block when
the request fits in the remaining bytes, advancing the pointer; fall back
otherwise.  Requires `bytes > 0` (assertion in the source). -/
def allocate (a : Arena) (bytes : Nat) : Arena × (Nat × Nat) :=
  if bytes ≤ a.alloc_bytes_remaining then
    ({ a with alloc_ptr := (a.alloc_ptr.1, a.alloc_ptr.2 + bytes),
              alloc_bytes_remaining := a.alloc_bytes_remaining - bytes },
     a.alloc_ptr)
  else allocateFallback a bytes

/-! ## Theorems -/

/-! ### Fixed-width coding -/

theorem encodeFixed32_congr {a b : Nat} (h : a % 2 ^ 32 = b % 2 ^ 32) :
    encodeFixed32 a = encodeFixed32 b := by
  have h32 : (2 : Nat) ^ 32 = 4294967296 := by norm_num
  rw [h32] at h
  simp only [encodeFixed32, List.cons.injEq, and_true]
  norm_num
  omega

theorem encodeFixed32_mod_add (a b : Nat) :
    encodeFixed32 (a % 2 ^ 32 + b) = encodeFixed32 (a + b) := by
  refine encodeFixed32_congr ?_
  conv_lhs => rw [Nat.add_mod, Nat.mod_mod_of_dvd _ dvd_rfl, ← Nat.add_mod]

theorem decodeFixed32_encode (v : Nat) (tail : List Nat) :
    decodeFixed32 (encodeFixed32 v ++ tail) = v % 2 ^ 32 := by
  simp only [decodeFixed32, encodeFixed32, byteAt, List.cons_append, List.getD_cons_zero,
    List.getD_cons_succ]
  norm_num
  omega

theorem decodeFixed64_encode (v : Nat) (tail : List Nat) :
    decodeFixed64 (encodeFixed64 v ++ tail) = v % 2 ^ 64 := by
  simp only [decodeFixed64, encodeFixed64, byteAt, List.cons_append, List.getD_cons_zero,
    List.getD_cons_succ]
  norm_num
  omega

theorem decodeFixed32_lt (l : List Nat) : decodeFixed32 l < 2 ^ 32 := by
  have h0 : byteAt l 0 < 256 := Nat.mod_lt _ (by norm_num)
  have h1 : byteAt l 1 < 256 := Nat.mod_lt _ (by norm_num)
  have h2 : byteAt l 2 < 256 := Nat.mod_lt _ (by norm_num)
  have h3 : byteAt l 3 < 256 := Nat.mod_lt _ (by norm_num)
  simp only [decodeFixed32]
  norm_num
  omega

theorem decodeFixed64_lt (l : List Nat) : decodeFixed64 l < 2 ^ 64 := by
  have h0 : byteAt l 0 < 256 := Nat.mod_lt _ (by norm_num)
  have h1 : byteAt l 1 < 256 := Nat.mod_lt _ (by norm_num)
  have h2 : byteAt l 2 < 256 := Nat.mod_lt _ (by norm_num)
  have h3 : byteAt l 3 < 256 := Nat.mod_lt _ (by norm_num)
  have h4 : byteAt l 4 < 256 := Nat.mod_lt _ (by norm_num)
  have h5 : byteAt l 5 < 256 := Nat.mod_lt _ (by norm_num)
  have h6 : byteAt l 6 < 256 := Nat.mod_lt _ (by norm_num)
  have h7 : byteAt l 7 < 256 := Nat.mod_lt _ (by norm_num)
  simp only [decodeFixed64]
  norm_num
  omega

/-! ### Varint coding -/

theorem varintBytes_putVarintAux (fuel v : Nat) (h : v < 128 ^ (fuel + 1)) :
    VarintBytes (putVarintAux fuel v) v := by
  induction fuel generalizing v with
  | zero =>
    simp only [putVarintAux]
    have : v % 128 = v := Nat.mod_eq_of_lt (by simpa using h)
    rw [this]
    exact .one v (by simpa using h)
  | succ fuel ih =>
    simp only [putVarintAux]
    by_cases hv : v < 128
    · simp only [hv, if_true]
      exact .one v hv
    · simp only [hv, if_false]
      have hrec := ih (v / 128) (Nat.div_lt_of_lt_mul (by rw [← pow_succ']; exact h))
      have := VarintBytes.more (v % 128 + 128) (putVarintAux fuel (v / 128)) (v / 128)
        (by omega) (by omega) hrec
      have heq : v % 128 + 128 - 128 + 128 * (v / 128) = v := by omega
      rwa [heq] at this

theorem putVarintAux_length (k fuel v : Nat) (hv : v < 128 ^ (k + 1)) (hf : k ≤ fuel) :
    (putVarintAux fuel v).length ≤ k + 1 := by
  induction k generalizing fuel v with
  | zero =>
    have h128 : v < 128 := by simpa using hv
    cases fuel with
    | zero => simp [putVarintAux]
    | succ fuel => simp [putVarintAux, h128]
  | succ k ih =>
    cases fuel with
    | zero => omega
    | succ fuel =>
      simp only [putVarintAux]
      by_cases h128 : v < 128
      · simp [h128]
      · simp only [h128, if_false, List.length_cons]
        have hd : v / 128 < 128 ^ (k + 1) := Nat.div_lt_of_lt_mul (by rw [← pow_succ']; exact hv)
        have := ih fuel (v / 128) hd (by omega)
        omega

theorem varintBytes_putVarint32 (v : Nat) (h : v < 2 ^ 32) :
    VarintBytes (putVarint32 v) v := by
  have hm : v % 2 ^ 32 = v := Nat.mod_eq_of_lt h
  unfold putVarint32
  rw [hm]
  refine varintBytes_putVarintAux 5 v (lt_of_lt_of_le h (by norm_num))

theorem putVarint32_length (v : Nat) (h : v < 2 ^ 32) : (putVarint32 v).length ≤ 5 := by
  have hm : v % 2 ^ 32 = v := Nat.mod_eq_of_lt h
  unfold putVarint32
  rw [hm]
  refine putVarintAux_length 4 5 v (lt_of_lt_of_le h (by norm_num)) (by norm_num)

theorem getVarint32Aux_varintBytes {lb : List Nat} {v : Nat} (hv : VarintBytes lb v)
    (rest : List Nat) (shift acc : Nat) (hs : shift + 7 * (lb.length - 1) ≤ 28) :
    getVarint32Aux (lb ++ rest) shift acc = some ((acc + v * 2 ^ shift) % 2 ^ 32, rest) := by
  induction hv generalizing shift acc with
  | one b hb =>
    simp only [List.cons_append, List.nil_append, getVarint32Aux]
    simp only [List.length_cons, List.length_nil] at hs
    have h28 : ¬ 28 < shift := by omega
    simp [h28, hb]
  | more b lb2 m hb1 hb2 hm ih =>
    simp only [List.cons_append, getVarint32Aux]
    simp only [List.length_cons] at hs
    have hlen : 1 ≤ lb2.length := by
      cases hm <;> simp
    have h28 : ¬ 28 < shift := by omega
    have hb : ¬ b < 128 := by omega
    simp only [h28, if_false, hb, List.append_eq]
    rw [ih (shift + 7) (acc + b % 128 * 2 ^ shift) (by omega)]
    congr 2
    have hb128 : b % 128 = b - 128 := by omega
    have : (2 : Nat) ^ (shift + 7) = 2 ^ shift * 128 := by
      rw [pow_add]; norm_num
    rw [hb128, this]
    ring_nf

theorem getVarint32_putVarint32 (v : Nat) (h : v < 2 ^ 32) (rest : List Nat) :
    getVarint32 (putVarint32 v ++ rest) = some (v, rest) := by
  have hvb := varintBytes_putVarint32 v h
  have hlen := putVarint32_length v h
  have h2 := getVarint32Aux_varintBytes hvb rest 0 0 (by omega)
  rw [getVarint32, h2]
  have hv1 : 0 + v * 2 ^ 0 = v := by omega
  rw [hv1, Nat.mod_eq_of_lt h]

theorem getVarint32Aux_length {l rest : List Nat} {shift acc n : Nat}
    (h : getVarint32Aux l shift acc = some (n, rest)) : rest.length < l.length := by
  induction l generalizing shift acc with
  | nil => simp [getVarint32Aux] at h
  | cons b l2 ih =>
    simp only [getVarint32Aux] at h
    by_cases h28 : 28 < shift
    · simp [h28] at h
    · simp only [h28, if_false] at h
      by_cases hb : b < 128
      · simp only [hb, if_true, Option.some.injEq, Prod.mk.injEq] at h
        simp [← h.2]
      · simp only [hb, if_false] at h
        have := ih h
        simp only [List.length_cons]
        omega

theorem getVarint32Aux_sound {l rest : List Nat} {shift acc n : Nat}
    (h : getVarint32Aux l shift acc = some (n, rest)) (hb : ∀ b ∈ l, b < 256) :
    ∃ lb v, l = lb ++ rest ∧ VarintBytes lb v ∧ shift + 7 * (lb.length - 1) ≤ 28 ∧
      n = (acc + v * 2 ^ shift) % 2 ^ 32 := by
  induction l generalizing shift acc with
  | nil => simp [getVarint32Aux] at h
  | cons b l2 ih =>
    simp only [getVarint32Aux] at h
    by_cases h28 : 28 < shift
    · simp [h28] at h
    · simp only [h28, if_false] at h
      by_cases hlt : b < 128
      · simp only [hlt, if_true, Option.some.injEq, Prod.mk.injEq] at h
        refine ⟨[b], b, by simp [h.2], .one b hlt, by simpa using h28, h.1.symm⟩
      · simp only [hlt, if_false] at h
        obtain ⟨lb2, v2, heq, hvb, hsh, hn⟩ := ih h (fun x hx => hb x (by simp [hx]))
        have hb256 : b < 256 := hb b (by simp)
        refine ⟨b :: lb2, b - 128 + 128 * v2, by simp [heq], .more b lb2 v2 (by omega) hb256 hvb,
          ?_, ?_⟩
        · have : 1 ≤ lb2.length := by cases hvb <;> simp
          simp only [List.length_cons]
          omega
        · rw [hn]
          congr 1
          have hb128 : b % 128 = b - 128 := by omega
          have hp : (2 : Nat) ^ (shift + 7) = 2 ^ shift * 128 := by rw [pow_add]; norm_num
          rw [hb128, hp]
          ring_nf

/-! ### Length-prefixed slices -/

theorem glps_varstringBytes {k vs : List Nat} (h : VarstringBytes k vs) (rest : List Nat) :
    getLengthPrefixedSlice (vs ++ rest) = some (k, rest) := by
  obtain ⟨lb, v, hvb, hlen, hv, rfl⟩ := h
  have := getVarint32Aux_varintBytes hvb (k ++ rest) 0 0 (by omega)
  have hg : getVarint32 (lb ++ (k ++ rest)) = some (k.length, k ++ rest) := by
    rw [getVarint32, this]
    congr 2
    rw [← hv]
    congr 1
    omega
  simp only [getLengthPrefixedSlice, List.append_assoc, hg]
  rw [if_pos (by simp)]
  simp

theorem glps_encodeVarstring (k : List Nat) (h : k.length < 2 ^ 32) (rest : List Nat) :
    getLengthPrefixedSlice (encodeVarstring k ++ rest) = some (k, rest) := by
  refine glps_varstringBytes ⟨putVarint32 k.length, k.length, varintBytes_putVarint32 _ h,
    putVarint32_length _ h, Nat.mod_eq_of_lt h, rfl⟩ rest

theorem glps_sound {input k rest : List Nat}
    (h : getLengthPrefixedSlice input = some (k, rest)) (hb : ∀ b ∈ input, b < 256) :
    ∃ vs, input = vs ++ rest ∧ VarstringBytes k vs := by
  simp only [getLengthPrefixedSlice] at h
  split at h
  · exact absurd h (by simp)
  · rename_i len rv hg
    split at h
    · rename_i hle
      simp only [Option.some.injEq, Prod.mk.injEq] at h
      obtain ⟨lb, v, heq, hvb, hsh, hn⟩ := getVarint32Aux_sound hg hb
      have hlb1 : 1 ≤ lb.length := by cases hvb <;> simp
      have hklen : k.length = len := by
        rw [← h.1, List.length_take]
        omega
      simp only [pow_zero, mul_one, Nat.zero_add] at hn
      refine ⟨lb ++ k, ?_, lb, v, hvb, by omega, ?_⟩
      · rw [heq, List.append_assoc]
        congr 1
        rw [← h.1, ← h.2, List.take_append_drop]
      · rw [hklen, hn]
        exact ⟨rfl, rfl⟩
    · exact absurd h (by simp)

theorem glps_length {input k rest : List Nat}
    (h : getLengthPrefixedSlice input = some (k, rest)) : rest.length < input.length := by
  simp only [getLengthPrefixedSlice] at h
  split at h
  · exact absurd h (by simp)
  · rename_i len rv hg
    split at h
    · simp only [Option.some.injEq, Prod.mk.injEq] at h
      have h1 : rv.length < input.length := getVarint32Aux_length hg
      have h2 : rest.length ≤ rv.length := by
        rw [← h.2]
        simp
      omega
    · exact absurd h (by simp)

theorem glps_mem {input k rest : List Nat}
    (h : getLengthPrefixedSlice input = some (k, rest)) :
    (∀ b ∈ k, b ∈ input) ∧ (∀ b ∈ rest, b ∈ input) := by
  have haux : ∀ (l : List Nat) (shift acc n : Nat) (rv : List Nat),
      getVarint32Aux l shift acc = some (n, rv) → ∀ b ∈ rv, b ∈ l := by
    intro l
    induction l with
    | nil => intro shift acc n rv h2; simp [getVarint32Aux] at h2
    | cons c l2 ih =>
      intro shift acc n rv h2 b hb
      simp only [getVarint32Aux] at h2
      by_cases h28 : 28 < shift
      · simp [h28] at h2
      · simp only [h28, if_false] at h2
        by_cases hc : c < 128
        · simp only [hc, if_true, Option.some.injEq, Prod.mk.injEq] at h2
          rw [← h2.2] at hb
          simp [hb]
        · simp only [hc, if_false] at h2
          exact List.mem_cons_of_mem _ (ih _ _ _ _ h2 b hb)
  simp only [getLengthPrefixedSlice] at h
  split at h
  · exact absurd h (by simp)
  · rename_i len rv hg
    split at h
    · simp only [Option.some.injEq, Prod.mk.injEq] at h
      have hrv := haux input 0 0 len rv hg
      constructor
      · intro b hb
        rw [← h.1] at hb
        exact hrv b (List.mem_of_mem_take hb)
      · intro b hb
        rw [← h.2] at hb
        exact hrv b (List.mem_of_mem_drop hb)
    · exact absurd h (by simp)

/-! ### The record loop -/

theorem iterateLoop_fuel {σ : Type} (hP : σ → List Nat → List Nat → σ) (hD : σ → List Nat → σ) :
    ∀ fuel fuel2 (input : List Nat) (found : Nat) (s : σ), input.length ≤ fuel →
      input.length ≤ fuel2 →
      iterateLoop hP hD fuel input found s = iterateLoop hP hD fuel2 input found s := by
  intro fuel
  induction fuel with
  | zero =>
    intro fuel2 input found s h1 _
    have : input = [] := List.eq_nil_of_length_eq_zero (Nat.le_zero.mp h1)
    subst this
    cases fuel2 <;> simp [iterateLoop]
  | succ fuel ih =>
    intro fuel2 input found s h1 h2
    cases input with
    | nil => cases fuel2 <;> simp [iterateLoop]
    | cons tag input2 =>
      cases fuel2 with
      | zero => simp at h2
      | succ fuel2 =>
        simp only [List.length_cons, Nat.succ_le_succ_iff] at h1 h2
        by_cases ht : tag = kTypeValue
        · rcases hk : getLengthPrefixedSlice input2 with _ | ⟨key, r1⟩
          · simp only [iterateLoop, ht, if_true, hk]
          · have hl1 := glps_length hk
            rcases hk2 : getLengthPrefixedSlice r1 with _ | ⟨value, r2⟩
            · simp only [iterateLoop, ht, if_true, hk, hk2]
            · have hl2 := glps_length hk2
              simp only [iterateLoop, ht, if_true, hk, hk2]
              exact ih fuel2 r2 (found + 1) (hP s key value) (by omega) (by omega)
        · by_cases ht2 : tag = kTypeDeletion
          · rcases hk : getLengthPrefixedSlice input2 with _ | ⟨key, r1⟩
            · simp only [iterateLoop, ht, if_false, ht2, if_true, hk]
            · have hl1 := glps_length hk
              simp only [iterateLoop, ht, if_false, ht2, if_true, hk]
              exact ih fuel2 r1 (found + 1) (hD s key) (by omega) (by omega)
          · simp only [iterateLoop, ht, if_false, ht2]

theorem iterateLoop_goodRecords {σ : Type} (hP : σ → List Nat → List Nat → σ)
    (hD : σ → List Nat → σ) {input : List Nat} {n : Nat} {ops : List BatchOp}
    (hg : GoodRecords input n ops) :
    ∀ (tail : List Nat) (fuel found : Nat) (s : σ), (input ++ tail).length ≤ fuel →
      iterateLoop hP hD fuel (input ++ tail) found s =
        iterateLoop hP hD tail.length tail (found + n) (applyRecords hP hD s ops) := by
  induction hg with
  | nil =>
    intro tail fuel found s h
    simp only [List.nil_append] at h ⊢
    simpa [applyRecords] using iterateLoop_fuel hP hD fuel tail.length tail found s h le_rfl
  | putRec k ks v vs rest n ops hk hv hrest ih =>
    intro tail fuel found s h
    simp only [List.cons_append, List.length_cons, List.length_append] at h
    cases fuel with
    | zero => omega
    | succ fuel =>
      have e1 : (ks ++ vs ++ rest) ++ tail = ks ++ (vs ++ (rest ++ tail)) := by
        simp [List.append_assoc]
      simp only [List.cons_append, iterateLoop, List.append_eq, eq_self_iff_true, if_true, e1,
        glps_varstringBytes hk, glps_varstringBytes hv]
      rw [ih tail fuel (found + 1) (hP s k v) (by simp only [List.length_append]; omega)]
      have e2 : found + 1 + n = found + (n + 1) := by omega
      rw [e2]
      rfl
  | delRec k ks rest n ops hk hrest ih =>
    intro tail fuel found s h
    simp only [List.cons_append, List.length_cons, List.length_append] at h
    cases fuel with
    | zero => omega
    | succ fuel =>
      have hne : ¬ (kTypeDeletion = kTypeValue) := by decide
      have e1 : (ks ++ rest) ++ tail = ks ++ (rest ++ tail) := by simp [List.append_assoc]
      simp only [List.cons_append, iterateLoop, List.append_eq, hne, if_false,
        eq_self_iff_true, if_true, e1, glps_varstringBytes hk]
      rw [ih tail fuel (found + 1) (hD s k) (by simp only [List.length_append]; omega)]
      have e2 : found + 1 + n = found + (n + 1) := by omega
      rw [e2]
      rfl

theorem iterateLoop_sound {σ : Type} (hP : σ → List Nat → List Nat → σ)
    (hD : σ → List Nat → σ) :
    ∀ (fuel : Nat) (input : List Nat) (found : Nat) (s : σ) (out : Nat × σ),
      input.length ≤ fuel → (∀ b ∈ input, b < 256) →
      iterateLoop hP hD fuel input found s = (none, out) →
      ∃ n ops, GoodRecords input n ops ∧ out = (found + n, applyRecords hP hD s ops) := by
  intro fuel
  induction fuel with
  | zero =>
    intro input found s out h1 _ he
    have : input = [] := List.eq_nil_of_length_eq_zero (Nat.le_zero.mp h1)
    subst this
    simp only [iterateLoop, Prod.mk.injEq, true_and] at he
    exact ⟨0, [], .nil, by simp [applyRecords, ← he]⟩
  | succ fuel ih =>
    intro input found s out h1 hb he
    cases input with
    | nil =>
      simp only [iterateLoop, Prod.mk.injEq, true_and] at he
      exact ⟨0, [], .nil, by simp [applyRecords, ← he]⟩
    | cons tag input2 =>
      simp only [List.length_cons, Nat.succ_le_succ_iff] at h1
      have hb2 : ∀ b ∈ input2, b < 256 := fun b hx => hb b (List.mem_cons_of_mem _ hx)
      simp only [iterateLoop] at he
      by_cases ht : tag = kTypeValue
      · simp only [ht, if_true] at he
        cases hk : getLengthPrefixedSlice input2 with
        | none => simp only [hk] at he; simp at he
        | some p =>
          obtain ⟨key, r1⟩ := p
          simp only [hk] at he
          cases hk2 : getLengthPrefixedSlice r1 with
          | none => simp only [hk2] at he; simp at he
          | some p2 =>
            obtain ⟨value, r2⟩ := p2
            simp only [hk2] at he
            have hl1 := glps_length hk
            have hl2 := glps_length hk2
            have hm1 := glps_mem hk
            have hbr1 : ∀ b ∈ r1, b < 256 := fun b hx => hb2 b (hm1.2 b hx)
            have hbr2 : ∀ b ∈ r2, b < 256 := fun b hx => hbr1 b ((glps_mem hk2).2 b hx)
            obtain ⟨n, ops, hgr, hout⟩ :=
              ih r2 (found + 1) (hP s key value) out (by omega) hbr2 he
            obtain ⟨vs1, he1, hvs1⟩ := glps_sound hk hb2
            obtain ⟨vs2, he2, hvs2⟩ := glps_sound hk2 hbr1
            refine ⟨n + 1, .putOp key value :: ops, ?_, ?_⟩
            · have : tag :: input2 = kTypeValue :: (vs1 ++ vs2 ++ r2) := by
                rw [ht, he1, he2]
                simp [List.append_assoc]
              rw [this]
              exact .putRec key vs1 value vs2 r2 n ops hvs1 hvs2 hgr
            · rw [hout]
              have : found + 1 + n = found + (n + 1) := by omega
              rw [this]
              rfl
      · simp only [ht, if_false] at he
        by_cases ht2 : tag = kTypeDeletion
        · simp only [ht2, if_true] at he
          cases hk : getLengthPrefixedSlice input2 with
          | none => simp only [hk] at he; simp at he
          | some p =>
            obtain ⟨key, r1⟩ := p
            simp only [hk] at he
            have hl1 := glps_length hk
            have hbr1 : ∀ b ∈ r1, b < 256 := fun b hx => hb2 b ((glps_mem hk).2 b hx)
            obtain ⟨n, ops, hgr, hout⟩ := ih r1 (found + 1) (hD s key) out (by omega) hbr1 he
            obtain ⟨vs1, he1, hvs1⟩ := glps_sound hk hb2
            refine ⟨n + 1, .delOp key :: ops, ?_, ?_⟩
            · have : tag :: input2 = kTypeDeletion :: (vs1 ++ r1) := by rw [ht2, he1]
              rw [this]
              exact .delRec key vs1 r1 n ops hvs1 hgr
            · rw [hout]
              have : found + 1 + n = found + (n + 1) := by omega
              rw [this]
              rfl
        · simp only [ht2, if_false] at he
          simp at he

theorem iterateLoop_fail {σ : Type} (hP : σ → List Nat → List Nat → σ) (hD : σ → List Nat → σ)
    {input : List Nat} {m : String} (h : failMsgOf input = some m) (fuel found : Nat) (s : σ)
    (hf : 1 ≤ fuel) :
    iterateLoop hP hD fuel input found s = (some m, found + 1, s) := by
  cases input with
  | nil => simp [failMsgOf] at h
  | cons tag rest =>
    cases fuel with
    | zero => omega
    | succ fuel =>
      by_cases ht : tag = kTypeValue
      · rcases hk : getLengthPrefixedSlice rest with _ | ⟨key, r1⟩
        · simp only [failMsgOf, ht, if_true, hk, Option.some.injEq] at h
          simp only [iterateLoop, ht, if_true, hk, h]
        · rcases hk2 : getLengthPrefixedSlice r1 with _ | ⟨value, r2⟩
          · simp only [failMsgOf, ht, if_true, hk, hk2, Option.some.injEq] at h
            simp only [iterateLoop, ht, if_true, hk, hk2, h]
          · simp only [failMsgOf, ht, if_true, hk, hk2] at h
            simp at h
      · have hne : ¬ (kTypeDeletion = kTypeValue) := by decide
        by_cases ht2 : tag = kTypeDeletion
        · rcases hk : getLengthPrefixedSlice rest with _ | ⟨key, r1⟩
          · simp only [failMsgOf, ht2, hne, if_false, eq_self_iff_true, if_true, hk,
              Option.some.injEq] at h
            simp only [iterateLoop, ht2, hne, if_false, eq_self_iff_true, if_true, hk, h]
          · simp only [failMsgOf, ht2, hne, if_false, eq_self_iff_true, if_true, hk] at h
            simp at h
        · simp only [failMsgOf, ht, if_false, ht2, Option.some.injEq] at h
          simp only [iterateLoop, ht, if_false, ht2, h]

/-! ### Handler folds -/

theorem applyRecords_rec (tr : List BatchOp) (ops : List BatchOp) :
    applyRecords recPut recDelete tr ops = tr ++ ops := by
  induction ops generalizing tr with
  | nil => simp [applyRecords]
  | cons op ops ih =>
    cases op with
    | putOp k v =>
      show applyRecords recPut recDelete (recPut tr k v) ops = tr ++ (BatchOp.putOp k v :: ops)
      rw [ih]
      simp [recPut]
    | delOp k =>
      show applyRecords recPut recDelete (recDelete tr k) ops = tr ++ (BatchOp.delOp k :: ops)
      rw [ih]
      simp [recDelete]

theorem applyRecords_inserter (ops : List BatchOp) :
    ∀ (seq : Nat), seq < 2 ^ 64 → ∀ (mem : List MemEntry),
      applyRecords inserterPut inserterDelete (seq, mem) ops =
        ((seq + ops.length) % 2 ^ 64, mem ++ memEntries seq ops) := by
  induction ops with
  | nil =>
    intro seq hseq mem
    have hm : seq % 2 ^ 64 = seq := Nat.mod_eq_of_lt hseq
    simp only [applyRecords, List.foldl_nil, List.length_nil, Nat.add_zero, memEntries,
      List.append_nil, hm]
  | cons op ops ih =>
    intro seq hseq mem
    have hlt : (seq + 1) % 2 ^ 64 < 2 ^ 64 := Nat.mod_lt _ (by norm_num)
    cases op with
    | putOp k v =>
      have step : applyRecords inserterPut inserterDelete (seq, mem) (.putOp k v :: ops) =
          applyRecords inserterPut inserterDelete
            ((seq + 1) % 2 ^ 64, mem ++ [⟨seq, kTypeValue, k, v⟩]) ops := rfl
      rw [step, ih _ hlt _]
      have harith : ((seq + 1) % 2 ^ 64 + ops.length) % 2 ^ 64 =
          (seq + (ops.length + 1)) % 2 ^ 64 := by
        rw [Nat.mod_add_mod]
        congr 1
        omega
      simp only [memEntries, List.length_cons, harith, List.append_assoc,
        List.singleton_append]
    | delOp k =>
      have step : applyRecords inserterPut inserterDelete (seq, mem) (.delOp k :: ops) =
          applyRecords inserterPut inserterDelete
            ((seq + 1) % 2 ^ 64, mem ++ [⟨seq, kTypeDeletion, k, []⟩]) ops := rfl
      rw [step, ih _ hlt _]
      have harith : ((seq + 1) % 2 ^ 64 + ops.length) % 2 ^ 64 =
          (seq + (ops.length + 1)) % 2 ^ 64 := by
        rw [Nat.mod_add_mod]
        congr 1
        omega
      simp only [memEntries, List.length_cons, harith, List.append_assoc,
        List.singleton_append]

theorem memEntries_linear (ops : List BatchOp) :
    ∀ seq : Nat, seq + ops.length ≤ 2 ^ 64 → memEntries seq ops = memEntriesAt seq ops := by
  induction ops with
  | nil => intro seq _; rfl
  | cons op ops ih =>
    intro seq hs
    simp only [List.length_cons] at hs
    have hrec : memEntries ((seq + 1) % 2 ^ 64) ops = memEntriesAt (seq + 1) ops := by
      cases ops with
      | nil => cases op <;> rfl
      | cons op2 ops2 =>
        have : (seq + 1) % 2 ^ 64 = seq + 1 := by
          refine Nat.mod_eq_of_lt ?_
          simp only [List.length_cons] at hs
          omega
        rw [this]
        refine ih (seq + 1) (by simp only [List.length_cons] at hs ⊢; omega)
    cases op <;> simp only [memEntries, memEntriesAt] <;> rw [hrec]

/-! ### Batch structure -/

theorem seg_take8 (h8 rest : List Nat) (hlen : h8.length = 8) : (h8 ++ rest).take 8 = h8 := by
  rw [← hlen, List.take_left]

theorem seg_drop8 (h8 rest : List Nat) (hlen : h8.length = 8) : (h8 ++ rest).drop 8 = rest := by
  rw [← hlen, List.drop_left]

theorem seg_drop12 (h8 c body : List Nat) (hlen : h8.length = 8) (hc : c.length = 4) :
    (h8 ++ c ++ body).drop 12 = body := by
  rw [List.append_assoc, ← List.append_assoc h8 c body]
  have : (h8 ++ c).length = 12 := by simp [hlen, hc]
  rw [← this, List.drop_left]

theorem encodeFixed32_length (v : Nat) : (encodeFixed32 v).length = 4 := by
  simp [encodeFixed32]

theorem encodeFixed64_length (v : Nat) : (encodeFixed64 v).length = 8 := by
  simp [encodeFixed64]

theorem wbCount_enc (h8 : List Nat) (c : Nat) (body : List Nat) (hlen : h8.length = 8) :
    wbCount (h8 ++ encodeFixed32 c ++ body) = c % 2 ^ 32 := by
  rw [wbCount, List.append_assoc, seg_drop8 _ _ hlen, decodeFixed32_encode]

theorem wbSetCount_enc (h8 : List Nat) (c : Nat) (body : List Nat) (n : Nat)
    (hlen : h8.length = 8) :
    wbSetCount (h8 ++ encodeFixed32 c ++ body) n = h8 ++ encodeFixed32 n ++ body := by
  have e : List.take 8 (h8 ++ encodeFixed32 c ++ body) = h8 := by
    rw [List.append_assoc]
    exact seg_take8 _ _ hlen
  rw [wbSetCount, seg_drop12 _ _ _ hlen (encodeFixed32_length c), e]

theorem encodeRecords_cons (op : BatchOp) (ops : List BatchOp) :
    encodeRecords (op :: ops) = encodeRecord op ++ encodeRecords ops := by
  simp [encodeRecords]

theorem applyOp_seg (h8 : List Nat) (c : Nat) (body : List Nat) (op : BatchOp)
    (hlen : h8.length = 8) :
    applyOp (h8 ++ encodeFixed32 c ++ body) op =
      h8 ++ encodeFixed32 (c + 1) ++ (body ++ encodeRecord op) := by
  cases op with
  | putOp k v =>
    simp only [applyOp, wbPut, putLengthPrefixedSlice, wbCount_enc _ _ _ hlen,
      wbSetCount_enc _ _ _ _ hlen, encodeFixed32_mod_add, encodeRecord, encodeVarstring]
    simp [List.append_assoc]
  | delOp k =>
    simp only [applyOp, wbDelete, putLengthPrefixedSlice, wbCount_enc _ _ _ hlen,
      wbSetCount_enc _ _ _ _ hlen, encodeFixed32_mod_add, encodeRecord, encodeVarstring]
    simp [List.append_assoc]

theorem applyOps_seg (ops : List BatchOp) :
    ∀ (h8 : List Nat) (c : Nat) (body : List Nat), h8.length = 8 →
      applyOps (h8 ++ encodeFixed32 c ++ body) ops =
        h8 ++ encodeFixed32 (c + ops.length) ++ (body ++ encodeRecords ops) := by
  induction ops with
  | nil =>
    intro h8 c body _
    simp [applyOps, encodeRecords]
  | cons op ops ih =>
    intro h8 c body hlen
    have step : applyOps (h8 ++ encodeFixed32 c ++ body) (op :: ops) =
        applyOps (applyOp (h8 ++ encodeFixed32 c ++ body) op) ops := rfl
    rw [step, applyOp_seg _ _ _ _ hlen, ih _ _ _ hlen]
    have e1 : c + 1 + ops.length = c + (ops.length + 1) := by omega
    rw [e1, encodeRecords_cons, List.length_cons]
    simp [List.append_assoc]

theorem encodeRecords_good (ops : List BatchOp) (h : opsOK ops) :
    GoodRecords (encodeRecords ops) ops.length ops := by
  induction ops with
  | nil => exact .nil
  | cons op ops ih =>
    have hop := h op (by simp)
    have hops2 : opsOK ops := fun o ho => h o (by simp [ho])
    cases op with
    | putOp k v =>
      have h1 : VarstringBytes k (encodeVarstring k) :=
        ⟨putVarint32 k.length, k.length, varintBytes_putVarint32 _ hop.1,
          putVarint32_length _ hop.1, Nat.mod_eq_of_lt hop.1, rfl⟩
      have h2 : VarstringBytes v (encodeVarstring v) :=
        ⟨putVarint32 v.length, v.length, varintBytes_putVarint32 _ hop.2,
          putVarint32_length _ hop.2, Nat.mod_eq_of_lt hop.2, rfl⟩
      have hg := GoodRecords.putRec k _ v _ (encodeRecords ops) ops.length ops h1 h2 (ih hops2)
      rw [encodeRecords_cons]
      simp only [encodeRecord, List.cons_append, List.length_cons, List.append_assoc]
      simpa [List.append_assoc] using hg
    | delOp k =>
      have h1 : VarstringBytes k (encodeVarstring k) :=
        ⟨putVarint32 k.length, k.length, varintBytes_putVarint32 _ hop,
          putVarint32_length _ hop, Nat.mod_eq_of_lt hop, rfl⟩
      have hg := GoodRecords.delRec k _ (encodeRecords ops) ops.length ops h1 (ih hops2)
      rw [encodeRecords_cons]
      simp only [encodeRecord, List.cons_append, List.length_cons, List.append_assoc]
      simpa [List.append_assoc] using hg

theorem iterateWith_records {σ : Type} (hP : σ → List Nat → List Nat → σ)
    (hD : σ → List Nat → σ) (h8 : List Nat) (c : Nat) {body : List Nat} {n : Nat}
    {ops : List BatchOp} (s0 : σ) (hlen : h8.length = 8) (hgood : GoodRecords body n ops) :
    iterateWith hP hD (h8 ++ encodeFixed32 c ++ body) s0 =
      (if n % 2 ^ 32 = c % 2 ^ 32 then Status.ok
        else Status.corruption ("WriteBatch has wrong count"), applyRecords hP hD s0 ops) := by
  have hrep : (h8 ++ encodeFixed32 c ++ body).length = 12 + body.length := by
    simp [hlen, encodeFixed32_length]
    omega
  have hns : ¬ (h8 ++ encodeFixed32 c ++ body).length < kHeader := by
    rw [hrep, kHeader]
    omega
  have hdrop : (h8 ++ encodeFixed32 c ++ body).drop kHeader = body :=
    seg_drop12 _ _ _ hlen (encodeFixed32_length c)
  have hloop := iterateLoop_goodRecords hP hD hgood [] (h8 ++ encodeFixed32 c ++ body).length
    0 s0 (by simp [hrep]; omega)
  rw [iterateWith, if_neg hns, hdrop]
  rw [List.append_nil] at hloop
  rw [hloop]
  simp only [iterateLoop, List.length_nil, Nat.zero_add]
  rw [wbCount_enc _ _ _ hlen]
  split <;> rfl

/-! ### Claim C1: round trip -/

/-- C1.  Round-trip: for every finite sequence of `Put(key, value)` /
`Delete(key)` calls applied to a freshly cleared `WriteBatch` (with
key/value lengths representable in the varint32 length field, i.e. below
`2 ^ 32`), a subsequent `Iterate` returns OK and dispatches exactly the
same sequence of operations, in order, with the same key and value
bytes. -/
theorem wb_roundtrip (ops : List BatchOp) (h : opsOK ops) :
    iterate (applyOps wbClear ops) = (Status.ok, ops) := by
  have hclear : wbClear = List.replicate 8 0 ++ encodeFixed32 0 ++ [] := by decide
  have happ := applyOps_seg ops (List.replicate 8 0) 0 [] (by simp)
  rw [iterate, hclear, happ, List.nil_append]
  have hgood := encodeRecords_good ops h
  rw [iterateWith_records recPut recDelete _ _ [] (by simp) hgood]
  rw [if_pos (by rw [Nat.zero_add]), applyRecords_rec, List.nil_append]

/-- Witness for C1 at a concrete operation sequence. -/
theorem wb_roundtrip_witness :
    opsOK [BatchOp.putOp [97] [98], BatchOp.delOp [99]] ∧
      iterate (applyOps wbClear [BatchOp.putOp [97] [98], BatchOp.delOp [99]]) =
        (Status.ok, [BatchOp.putOp [97] [98], BatchOp.delOp [99]]) :=
  ⟨by decide, wb_roundtrip _ (by decide)⟩

/-! ### Claim C2: replay sequencing -/

/-- C2 (amended).  Replaying a batch built from `ops` with header sequence
`S` into a memtable appends `Add` calls in batch order with consecutive
sequence numbers mod `2 ^ 64`: `S, (S+1) % 2^64, …`; `kTypeValue` with the
record's value for Put records, `kTypeDeletion` with an empty value for
Delete records.  When `S + count ≤ 2 ^ 64` (no `uint64_t` wrap-around)
the sequences are exactly `S, S + 1, …, S + count − 1`. -/
theorem wb_insertInto_seq (ops : List BatchOp) (S : Nat) (mem : List MemEntry)
    (hops : opsOK ops) (hS : S < 2 ^ 64) :
    insertInto (wbSetSequence (applyOps wbClear ops) S) mem =
      (Status.ok, (S + ops.length) % 2 ^ 64, mem ++ memEntries S ops) ∧
    (S + ops.length ≤ 2 ^ 64 → memEntries S ops = memEntriesAt S ops) := by
  refine ⟨?_, memEntries_linear ops S⟩
  have hclear : wbClear = List.replicate 8 0 ++ encodeFixed32 0 ++ [] := by decide
  have happ := applyOps_seg ops (List.replicate 8 0) 0 [] (by simp)
  have hseq : wbSetSequence (applyOps wbClear ops) S =
      encodeFixed64 S ++ (encodeFixed32 (0 + ops.length) ++ ([] ++ encodeRecords ops)) := by
    rw [hclear, happ, wbSetSequence, List.append_assoc]
    rw [seg_drop8 _ _ (by simp)]
  rw [hseq, List.nil_append, ← List.append_assoc]
  have hgood := encodeRecords_good ops hops
  rw [insertInto]
  have hwseq : wbSequence (encodeFixed64 S ++ encodeFixed32 (0 + ops.length) ++
      encodeRecords ops) = S := by
    rw [wbSequence, List.append_assoc, decodeFixed64_encode, Nat.mod_eq_of_lt hS]
  rw [hwseq]
  rw [iterateWith_records inserterPut inserterDelete _ _ (S, mem) (encodeFixed64_length S) hgood]
  rw [if_pos (by rw [Nat.zero_add]), applyRecords_inserter ops S hS mem]

/-- Witness for the amended C2 at a concrete batch. -/
theorem wb_insertInto_seq_witness :
    opsOK [BatchOp.putOp [107] [118], BatchOp.delOp [107]] ∧ 10 < 2 ^ 64 ∧
      (insertInto (wbSetSequence
          (applyOps wbClear [BatchOp.putOp [107] [118], BatchOp.delOp [107]]) 10) [] =
        (Status.ok, (10 + 2) % 2 ^ 64,
          [] ++ memEntries 10 [BatchOp.putOp [107] [118], BatchOp.delOp [107]]) ∧
      (10 + 2 ≤ 2 ^ 64 →
        memEntries 10 [BatchOp.putOp [107] [118], BatchOp.delOp [107]] =
          memEntriesAt 10 [BatchOp.putOp [107] [118], BatchOp.delOp [107]])) :=
  ⟨by decide, by decide, wb_insertInto_seq _ 10 [] (by decide) (by decide)⟩

/-- Counterexample to C2 as frozen: with header sequence `S = 2 ^ 64 − 1`
and two Delete records, the second `Add` call is made with sequence 0 (the
`uint64_t` counter wraps), not `S + 1 = 2 ^ 64` as the claim's strictly
consecutive numbering demands. -/
theorem wb_insertInto_seq_cex :
    (insertInto (wbSetSequence
        (applyOps wbClear [BatchOp.delOp [], BatchOp.delOp []]) (2 ^ 64 - 1)) []).2.2 ≠
      [⟨2 ^ 64 - 1, kTypeDeletion, [], []⟩, ⟨2 ^ 64, kTypeDeletion, [], []⟩] := by decide

/-! ### Iterate on arbitrary batches -/

theorem iterateWith_fail {σ : Type} (hP : σ → List Nat → List Nat → σ) (hD : σ → List Nat → σ)
    (rep : List Nat) (ops : List BatchOp) (rest : List Nat) (m : String) (s0 : σ)
    (hlen : kHeader ≤ rep.length) (hdrop : rep.drop kHeader = encodeRecords ops ++ rest)
    (hops : opsOK ops) (hfail : failMsgOf rest = some m) :
    iterateWith hP hD rep s0 = (Status.corruption m, applyRecords hP hD s0 ops) := by
  rw [iterateWith, if_neg (by omega), hdrop]
  have hgood := encodeRecords_good ops hops
  have hfuel : (encodeRecords ops ++ rest).length ≤ rep.length := by
    rw [← hdrop, List.length_drop]
    omega
  rw [iterateLoop_goodRecords hP hD hgood rest rep.length 0 s0 hfuel]
  have hrest1 : 1 ≤ rest.length := by
    cases rest with
    | nil => simp [failMsgOf] at hfail
    | cons a r => simp
  rw [iterateLoop_fail hP hD hfail rest.length (0 + ops.length) (applyRecords hP hD s0 ops)
    hrest1]

theorem iterateWith_wrongCount {σ : Type} (hP : σ → List Nat → List Nat → σ)
    (hD : σ → List Nat → σ) (rep : List Nat) {n : Nat} {ops : List BatchOp} (s0 : σ)
    (hlen : kHeader ≤ rep.length) (hgood : GoodRecords (rep.drop kHeader) n ops)
    (hcount : n % 2 ^ 32 ≠ wbCount rep) :
    iterateWith hP hD rep s0 =
      (Status.corruption ("WriteBatch has wrong count"), applyRecords hP hD s0 ops) := by
  rw [iterateWith, if_neg (by omega)]
  have hloop := iterateLoop_goodRecords hP hD hgood [] rep.length 0 s0
    (by rw [List.append_nil, List.length_drop]; omega)
  rw [List.append_nil] at hloop
  rw [hloop]
  simp only [iterateLoop, List.length_nil]
  rw [if_neg (by rw [Nat.zero_add]; exact hcount)]

theorem iterateWith_ok {σ : Type} (hP : σ → List Nat → List Nat → σ)
    (hD : σ → List Nat → σ) (rep : List Nat) {n : Nat} {ops : List BatchOp} (s0 : σ)
    (hlen : kHeader ≤ rep.length) (hgood : GoodRecords (rep.drop kHeader) n ops)
    (hcount : n % 2 ^ 32 = wbCount rep) :
    iterateWith hP hD rep s0 = (Status.ok, applyRecords hP hD s0 ops) := by
  rw [iterateWith, if_neg (by omega)]
  have hloop := iterateLoop_goodRecords hP hD hgood [] rep.length 0 s0
    (by rw [List.append_nil, List.length_drop]; omega)
  rw [List.append_nil] at hloop
  rw [hloop]
  simp only [iterateLoop, List.length_nil]
  rw [if_pos (by rw [Nat.zero_add]; exact hcount)]

theorem iterateWith_ok_sound {σ : Type} (hP : σ → List Nat → List Nat → σ)
    (hD : σ → List Nat → σ) (rep : List Nat) (s0 : σ) (hb : ByteSeq rep)
    (hok : (iterateWith hP hD rep s0).1 = Status.ok) : GoodBatch rep := by
  by_cases hlen : rep.length < kHeader
  · rw [iterateWith, if_pos hlen] at hok
    exact absurd hok (by simp)
  · rcases hres : iterateLoop hP hD rep.length (rep.drop kHeader) 0 s0 with ⟨err, found, s⟩
    rw [iterateWith, if_neg hlen] at hok
    rw [hres] at hok
    cases err with
    | some m => simp at hok
    | none =>
      by_cases hcnt : found % 2 ^ 32 = wbCount rep
      · have hbd : ∀ b ∈ rep.drop kHeader, b < 256 := fun b hx =>
          hb b (List.mem_of_mem_drop hx)
        obtain ⟨n, ops, hgr, hout⟩ := iterateLoop_sound hP hD rep.length (rep.drop kHeader)
          0 s0 (found, s) (by rw [List.length_drop]; omega) hbd hres
        refine ⟨by omega, n, ops, hgr, ?_⟩
        have hfound : found = n := by
          have := congrArg Prod.fst hout
          simpa using this
        rw [← hfound]
        exact hcnt
      · dsimp only at hok
        rw [if_neg hcnt] at hok
        simp at hok

theorem goodRecords_append {a : List Nat} {n1 : Nat} {ops1 : List BatchOp}
    (h1 : GoodRecords a n1 ops1) :
    ∀ {b : List Nat} {n2 : Nat} {ops2 : List BatchOp}, GoodRecords b n2 ops2 →
      GoodRecords (a ++ b) (n1 + n2) (ops1 ++ ops2) := by
  induction h1 with
  | nil =>
    intro b n2 ops2 h2
    simpa using h2
  | putRec k ks v vs rest n ops hk hv hrest ih =>
    intro b n2 ops2 h2
    have hg := GoodRecords.putRec k ks v vs (rest ++ b) (n + n2) (ops ++ ops2) hk hv (ih h2)
    have e : (ks ++ vs ++ rest) ++ b = ks ++ vs ++ (rest ++ b) := by
      simp [List.append_assoc]
    have e2 : n + 1 + n2 = n + n2 + 1 := by omega
    simp only [List.cons_append]
    rw [e, e2]
    exact hg
  | delRec k ks rest n ops hk hrest ih =>
    intro b n2 ops2 h2
    have hg := GoodRecords.delRec k ks (rest ++ b) (n + n2) (ops ++ ops2) hk (ih h2)
    have e : (ks ++ rest) ++ b = ks ++ (rest ++ b) := by
      simp [List.append_assoc]
    have e2 : n + 1 + n2 = n + n2 + 1 := by omega
    simp only [List.cons_append]
    rw [e, e2]
    exact hg

/-! ### Claim C3: error taxonomy -/

/-- C3.  `Iterate` error taxonomy: (i) on byte-valid buffers, OK is
returned exactly on buffers that parse fully with a record count matching
the header count field; (ii) buffers shorter than the 12-byte header give
`malformed WriteBatch (too small)`; (iii) a fully parsing record region
whose record count differs from the count field gives
`WriteBatch has wrong count`; (iv) when the record region is a
well-formed prefix followed by a malformed record, the message is
determined by the malformed record's kind: `bad WriteBatch Put` for a
truncated `kTypeValue` record, `bad WriteBatch Delete` for a truncated
`kTypeDeletion` record, `unknown WriteBatch tag` for any other tag
(`failMsgOf` is that case analysis). -/
theorem wb_error_taxonomy (rep : List Nat) :
    (ByteSeq rep → ((iterate rep).1 = Status.ok ↔ GoodBatch rep)) ∧
    (rep.length < kHeader →
      (iterate rep).1 = Status.corruption ("malformed WriteBatch (too small)")) ∧
    (∀ (n : Nat) (ops : List BatchOp), kHeader ≤ rep.length →
      GoodRecords (rep.drop kHeader) n ops → n % 2 ^ 32 ≠ wbCount rep →
      (iterate rep).1 = Status.corruption ("WriteBatch has wrong count")) ∧
    (∀ (ops : List BatchOp) (rest : List Nat) (m : String), kHeader ≤ rep.length →
      rep.drop kHeader = encodeRecords ops ++ rest → opsOK ops → failMsgOf rest = some m →
      (iterate rep).1 = Status.corruption m) := by
  refine ⟨?_, ?_, ?_, ?_⟩
  · intro hb
    constructor
    · intro hok
      exact iterateWith_ok_sound recPut recDelete rep [] hb hok
    · rintro ⟨hlen, n, ops, hgr, hcnt⟩
      rw [iterate, iterateWith_ok recPut recDelete rep [] hlen hgr hcnt]
  · intro hsmall
    rw [iterate, iterateWith, if_pos hsmall]
  · intro n ops hlen hgr hcnt
    rw [iterate, iterateWith_wrongCount recPut recDelete rep [] hlen hgr hcnt]
  · intro ops rest m hlen hdrop hops hfail
    rw [iterate, iterateWith_fail recPut recDelete rep ops rest m [] hlen hdrop hops hfail]

/-- Witness for C3 exercising all five corruption messages and the OK
case on concrete buffers. -/
theorem wb_error_taxonomy_witness :
    (iterate (applyOps wbClear [BatchOp.putOp [97] [98]])).1 = Status.ok ∧
    (iterate [0, 1, 2]).1 = Status.corruption ("malformed WriteBatch (too small)") ∧
    (iterate (wbSetCount (applyOps wbClear [BatchOp.putOp [97] [49]]) 2)).1 =
      Status.corruption ("WriteBatch has wrong count") ∧
    (iterate (wbClear ++ [1, 5, 97])).1 = Status.corruption ("bad WriteBatch Put") ∧
    (iterate (wbClear ++ [0, 5])).1 = Status.corruption ("bad WriteBatch Delete") ∧
    (iterate (wbClear ++ [7])).1 = Status.corruption ("unknown WriteBatch tag") := by
  have hA : GoodBatch (applyOps wbClear [BatchOp.putOp [97] [98]]) := by
    refine ⟨by decide, 1, [BatchOp.putOp [97] [98]], ?_, by decide⟩
    have e : (applyOps wbClear [BatchOp.putOp [97] [98]]).drop kHeader =
        encodeRecords [BatchOp.putOp [97] [98]] := by decide
    rw [e]
    exact encodeRecords_good _ (by decide)
  have hC : GoodRecords ((wbSetCount (applyOps wbClear [BatchOp.putOp [97] [49]]) 2).drop
      kHeader) 1 [BatchOp.putOp [97] [49]] := by
    have e : (wbSetCount (applyOps wbClear [BatchOp.putOp [97] [49]]) 2).drop kHeader =
        encodeRecords [BatchOp.putOp [97] [49]] := by decide
    rw [e]
    exact encodeRecords_good _ (by decide)
  refine ⟨((wb_error_taxonomy _).1 (by decide)).2 hA,
    (wb_error_taxonomy _).2.1 (by decide),
    (wb_error_taxonomy _).2.2.1 1 [BatchOp.putOp [97] [49]] (by decide) hC (by decide),
    (wb_error_taxonomy _).2.2.2 [] [1, 5, 97] _ (by decide) (by decide) (by decide) (by decide),
    (wb_error_taxonomy _).2.2.2 [] [0, 5] _ (by decide) (by decide) (by decide) (by decide),
    (wb_error_taxonomy _).2.2.2 [] [7] _ (by decide) (by decide) (by decide) (by decide)⟩

/-! ### Claim C4: append homomorphism -/

/-- C4 (amended).  For batches whose record regions parse fully (in
particular any batch built by the `Put`/`Delete`/`Append` API),
`WriteBatchInternal::Append` sets the destination's count field to the sum
of the two counts (as a `uint32_t`, i.e. mod `2 ^ 32`) and a subsequent
`Iterate` dispatches the concatenation of the two batches' dispatch
sequences. -/
theorem wb_append_hom (b1 b2 : List Nat) {n1 n2 : Nat} {ops1 ops2 : List BatchOp}
    (h1 : kHeader ≤ b1.length) (h2 : kHeader ≤ b2.length)
    (hg1 : GoodRecords (b1.drop kHeader) n1 ops1)
    (hg2 : GoodRecords (b2.drop kHeader) n2 ops2) :
    wbCount (wbAppend b1 b2) = (wbCount b1 + wbCount b2) % 2 ^ 32 ∧
    (iterate (wbAppend b1 b2)).2 = (iterate b1).2 ++ (iterate b2).2 := by
  have htake : (b1.take 8).length = 8 := by
    have h1n : 12 ≤ b1.length := h1
    rw [List.length_take]
    omega
  have heq : wbAppend b1 b2 =
      b1.take 8 ++ encodeFixed32 (wbCount b1 + wbCount b2) ++
        (b1.drop kHeader ++ b2.drop kHeader) := by
    rw [wbAppend, wbSetCount]
    simp [kHeader, List.append_assoc]
  have hgood := goodRecords_append hg1 hg2
  have hdrop : (wbAppend b1 b2).drop kHeader = b1.drop kHeader ++ b2.drop kHeader := by
    rw [heq]
    exact seg_drop12 _ _ _ htake (encodeFixed32_length _)
  have hlen : kHeader ≤ (wbAppend b1 b2).length := by
    rw [heq]
    unfold kHeader
    simp only [List.length_append, htake, encodeFixed32_length]
    omega
  constructor
  · rw [heq, wbCount_enc _ _ _ htake]
  · have htr1 : (iterate b1).2 = ops1 := by
      rw [iterate]
      by_cases hc : n1 % 2 ^ 32 = wbCount b1
      · rw [iterateWith_ok recPut recDelete b1 [] h1 hg1 hc, applyRecords_rec, List.nil_append]
      · rw [iterateWith_wrongCount recPut recDelete b1 [] h1 hg1 hc, applyRecords_rec,
          List.nil_append]
    have htr2 : (iterate b2).2 = ops2 := by
      rw [iterate]
      by_cases hc : n2 % 2 ^ 32 = wbCount b2
      · rw [iterateWith_ok recPut recDelete b2 [] h2 hg2 hc, applyRecords_rec, List.nil_append]
      · rw [iterateWith_wrongCount recPut recDelete b2 [] h2 hg2 hc, applyRecords_rec,
          List.nil_append]
    have hgood2 : GoodRecords ((wbAppend b1 b2).drop kHeader) (n1 + n2) (ops1 ++ ops2) := by
      rw [hdrop]
      exact hgood
    have htr : (iterate (wbAppend b1 b2)).2 = ops1 ++ ops2 := by
      rw [iterate]
      by_cases hc : (n1 + n2) % 2 ^ 32 = wbCount (wbAppend b1 b2)
      · rw [iterateWith_ok recPut recDelete _ [] hlen hgood2 hc, applyRecords_rec,
          List.nil_append]
      · rw [iterateWith_wrongCount recPut recDelete _ [] hlen hgood2 hc, applyRecords_rec,
          List.nil_append]
    rw [htr, htr1, htr2]

/-- Witness for the amended C4: appending a one-record batch to itself. -/
theorem wb_append_hom_witness :
    wbCount (wbAppend (applyOps wbClear [BatchOp.putOp [97] [98]])
        (applyOps wbClear [BatchOp.putOp [97] [98]])) =
      (wbCount (applyOps wbClear [BatchOp.putOp [97] [98]]) +
        wbCount (applyOps wbClear [BatchOp.putOp [97] [98]])) % 2 ^ 32 ∧
    (iterate (wbAppend (applyOps wbClear [BatchOp.putOp [97] [98]])
        (applyOps wbClear [BatchOp.putOp [97] [98]]))).2 =
      (iterate (applyOps wbClear [BatchOp.putOp [97] [98]])).2 ++
        (iterate (applyOps wbClear [BatchOp.putOp [97] [98]])).2 := by
  have hg : GoodRecords ((applyOps wbClear [BatchOp.putOp [97] [98]]).drop kHeader) 1
      [BatchOp.putOp [97] [98]] := by
    have e : (applyOps wbClear [BatchOp.putOp [97] [98]]).drop kHeader =
        encodeRecords [BatchOp.putOp [97] [98]] := by decide
    rw [e]
    exact encodeRecords_good _ (by decide)
  exact wb_append_hom _ _ (by decide) (by decide) hg hg

/-- Counterexample to C4 as frozen ("for all write batches"): when the
destination batch's record region is corrupt (an unknown tag byte),
iterating the appended batch aborts inside the destination's region and
never dispatches the source's operations, so the dispatch sequence is not
the concatenation of the two original dispatch sequences. -/
theorem wb_append_hom_cex :
    ¬ ((iterate (wbAppend (wbClear ++ [7]) (applyOps wbClear [BatchOp.putOp [97] [98]]))).2 =
      (iterate (wbClear ++ [7])).2 ++
        (iterate (applyOps wbClear [BatchOp.putOp [97] [98]])).2) := by decide

/-! ### Claim C5: corruption atomicity -/

/-- C5 (amended).  When `Iterate` returns a corruption error the replay is
aborted at the failure point, but the handler has already observed the
operations of every fully parsed record before it: for a well-formed
prefix followed by a malformed record the dispatched sequence is exactly
the prefix's operations, and for a count mismatch (detected only after
the loop) the dispatched sequence is the entire record region's
operations.  Invisibility of partial application is the caller's
responsibility (discarding the memtable), not guaranteed by `Iterate`. -/
theorem wb_corruption_reveals (rep : List Nat) :
    (∀ (ops : List BatchOp) (rest : List Nat) (m : String), kHeader ≤ rep.length →
      rep.drop kHeader = encodeRecords ops ++ rest → opsOK ops → failMsgOf rest = some m →
      iterate rep = (Status.corruption m, ops)) ∧
    (∀ (n : Nat) (ops : List BatchOp), kHeader ≤ rep.length →
      GoodRecords (rep.drop kHeader) n ops → n % 2 ^ 32 ≠ wbCount rep →
      iterate rep = (Status.corruption ("WriteBatch has wrong count"), ops)) := by
  constructor
  · intro ops rest m hlen hdrop hops hfail
    rw [iterate, iterateWith_fail recPut recDelete rep ops rest m [] hlen hdrop hops hfail,
      applyRecords_rec, List.nil_append]
  · intro n ops hlen hgr hcnt
    rw [iterate, iterateWith_wrongCount recPut recDelete rep [] hlen hgr hcnt,
      applyRecords_rec, List.nil_append]

/-- Witness for the amended C5: a batch with one good Put record followed
by an unknown tag dispatches exactly the Put, then aborts. -/
theorem wb_corruption_reveals_witness :
    iterate (applyOps wbClear [BatchOp.putOp [97] [98]] ++ [7]) =
      (Status.corruption ("unknown WriteBatch tag"), [BatchOp.putOp [97] [98]]) :=
  (wb_corruption_reveals _).1 [BatchOp.putOp [97] [98]] [7] _ (by decide) (by decide)
    (by decide) (by decide)

/-- Counterexample to C5 as frozen: a batch whose header count field is 2
but which holds one Put record makes `Iterate` return a corruption status
while the handler has already observed the Put — the consumer does see
effects of the batch's records. -/
theorem wb_corruption_reveals_cex :
    (iterate (wbSetCount (applyOps wbClear [BatchOp.putOp [97] [49]]) 2)).1 =
      Status.corruption ("WriteBatch has wrong count") ∧
    (iterate (wbSetCount (applyOps wbClear [BatchOp.putOp [97] [49]]) 2)).2 ≠ [] := by decide

/-! ### Claim C9: arena allocation -/

/-- C9.  `Arena::Allocate(n)` with `n > 0`: (i) if `n` fits in the current
block's remaining bytes the request is served from the current block and
the pointer advances by `n`; (ii) otherwise if `n > 4096 / 4` a dedicated
block of exactly `n` bytes is allocated and returned without disturbing
the current block's remaining space; (iii) otherwise a fresh 4096-byte
block replaces the current block (discarding its leftover) and serves the
request.  On a fresh arena, allocating 5000 then 100 bytes yields a
dedicated 5000-byte block, then a fresh 4096-byte block serving the 100
bytes, with `memory_usage ≥ 9096`. -/
theorem arena_allocate (a : Arena) (n : Nat) (_hn : 0 < n) :
    (n ≤ a.alloc_bytes_remaining →
      allocate a n = ({ a with
        alloc_ptr := (a.alloc_ptr.1, a.alloc_ptr.2 + n),
        alloc_bytes_remaining := a.alloc_bytes_remaining - n }, a.alloc_ptr)) ∧
    (a.alloc_bytes_remaining < n → kBlockSize / 4 < n →
      allocate a n = ({ a with
        blocks := a.blocks ++ [n],
        memory_usage := a.memory_usage + n + 8 }, (a.blocks.length, 0))) ∧
    (a.alloc_bytes_remaining < n → n ≤ kBlockSize / 4 →
      allocate a n = ({ a with
        blocks := a.blocks ++ [kBlockSize],
        memory_usage := a.memory_usage + kBlockSize + 8,
        alloc_ptr := (a.blocks.length, n),
        alloc_bytes_remaining := kBlockSize - n }, (a.blocks.length, 0))) ∧
    ((allocate (allocate initArena 5000).1 100).1.blocks = [5000, kBlockSize] ∧
      9096 ≤ (allocate (allocate initArena 5000).1 100).1.memory_usage) := by
  refine ⟨?_, ?_, ?_, by decide, by decide⟩
  · intro hfit
    rw [allocate, if_pos hfit]
  · intro hmiss hbig
    rw [allocate, if_neg (by omega), allocateFallback, if_pos hbig, allocateNewBlock]
  · intro hmiss hsmall
    rw [allocate, if_neg (by omega), allocateFallback, if_neg (by omega), allocateNewBlock]

/-- Witness for C9: the first small allocation on a fresh arena goes
through the fresh-block path. -/
theorem arena_allocate_witness :
    0 < 1 ∧ (0 : Nat) < 1 ∧ 1 ≤ kBlockSize / 4 ∧
      allocate initArena 1 = (⟨(0, 1), 4095, [4096], 4104⟩, (0, 0)) :=
  ⟨by decide, by decide, by decide,
    (arena_allocate initArena 1 (by decide)).2.2.1 (by decide) (by decide)⟩

/-! ### Handle heap lemmas -/

theorem hfind_mem {l : List (Nat × LRUHandle)} {i : Nat} {h : LRUHandle}
    (hf : hfind l i = some h) : (i, h) ∈ l := by
  induction l with
  | nil => simp [hfind] at hf
  | cons p rest ih =>
    obtain ⟨j, h2⟩ := p
    simp only [hfind] at hf
    by_cases hji : j = i
    · simp only [hji, if_true, Option.some.injEq] at hf
      subst hji hf
      simp
    · simp only [hji, if_false] at hf
      exact List.mem_cons_of_mem _ (ih hf)

theorem hfind_of_mem {l : List (Nat × LRUHandle)} {i : Nat} {h : LRUHandle}
    (hnd : (l.map Prod.fst).Nodup) (hm : (i, h) ∈ l) : hfind l i = some h := by
  induction l with
  | nil => simp at hm
  | cons p rest ih =>
    obtain ⟨j, h2⟩ := p
    simp only [List.map_cons, List.nodup_cons] at hnd
    rcases List.mem_cons.mp hm with heq | hm2
    · obtain ⟨he1, he2⟩ := Prod.mk.injEq .. ▸ heq
      simp only [Prod.mk.injEq] at heq
      simp [hfind, heq.1, heq.2]
    · have hji : j ≠ i := by
        intro hcon
        subst hcon
        exact hnd.1 (List.mem_map_of_mem Prod.fst hm2)
      simp only [hfind, hji, if_false]
      exact ih hnd.2 hm2

theorem hfind_eq_none {l : List (Nat × LRUHandle)} {i : Nat} :
    hfind l i = none ↔ i ∉ l.map Prod.fst := by
  induction l with
  | nil => simp [hfind]
  | cons p rest ih =>
    obtain ⟨j, h2⟩ := p
    simp only [hfind, List.map_cons, List.mem_cons]
    by_cases hji : j = i
    · simp [hji]
    · simp only [hji, if_false, ih]
      constructor
      · intro hn
        rintro (hc | hc)
        · exact hji hc.symm
        · exact hn hc
      · intro hn
        exact fun hc => hn (Or.inr hc)

theorem hfind_hset_self {l : List (Nat × LRUHandle)} {i : Nat} {h0 : LRUHandle}
    (hf : hfind l i = some h0) (h : LRUHandle) : hfind (hset l i h) i = some h := by
  induction l with
  | nil => simp [hfind] at hf
  | cons p rest ih =>
    obtain ⟨j, h2⟩ := p
    simp only [hfind] at hf
    by_cases hji : j = i
    · simp [hset, hji, hfind]
    · simp only [hji, if_false] at hf
      simp only [hset, hji, if_false, hfind]
      exact ih hf

theorem hfind_hset_ne {l : List (Nat × LRUHandle)} {i j : Nat} (hne : j ≠ i)
    (h : LRUHandle) : hfind (hset l i h) j = hfind l j := by
  induction l with
  | nil => simp [hset]
  | cons p rest ih =>
    obtain ⟨j2, h2⟩ := p
    by_cases hji : j2 = i
    · subst hji
      simp only [hset, if_true, hfind]
      have : ¬ j2 = j := fun hc => hne hc.symm
      simp [this]
    · simp only [hset, hji, if_false, hfind]
      by_cases hjj : j2 = j
      · simp [hjj]
      · simp only [hjj, if_false]
        exact ih

theorem hfind_hremove_ne {l : List (Nat × LRUHandle)} {i j : Nat} (hne : j ≠ i) :
    hfind (hremove l i) j = hfind l j := by
  induction l with
  | nil => simp [hremove]
  | cons p rest ih =>
    obtain ⟨j2, h2⟩ := p
    by_cases hji : j2 = i
    · subst hji
      simp only [hremove, if_true, hfind]
      have : ¬ j2 = j := fun hc => hne hc.symm
      simp [this]
    · simp only [hremove, hji, if_false, hfind]
      by_cases hjj : j2 = j
      · simp [hjj]
      · simp only [hjj, if_false]
        exact ih

theorem map_fst_hset (l : List (Nat × LRUHandle)) (i : Nat) (h : LRUHandle) :
    (hset l i h).map Prod.fst = l.map Prod.fst := by
  induction l with
  | nil => simp [hset]
  | cons p rest ih =>
    obtain ⟨j, h2⟩ := p
    by_cases hji : j = i
    · simp [hset, hji]
    · simp only [hset, hji, if_false, List.map_cons, ih]

theorem hremove_sublist (l : List (Nat × LRUHandle)) (i : Nat) : List.Sublist (hremove l i) l := by
  induction l with
  | nil => simp [hremove]
  | cons p rest ih =>
    obtain ⟨j, h2⟩ := p
    by_cases hji : j = i
    · simp only [hremove, hji, if_true]
      exact List.sublist_cons_self _ _
    · simp only [hremove, hji, if_false]
      exact ih.cons₂ _

theorem hfind_hremove_self {l : List (Nat × LRUHandle)} {i : Nat}
    (hnd : (l.map Prod.fst).Nodup) : hfind (hremove l i) i = none := by
  induction l with
  | nil => simp [hremove, hfind]
  | cons p rest ih =>
    obtain ⟨j, h2⟩ := p
    simp only [List.map_cons, List.nodup_cons] at hnd
    by_cases hji : j = i
    · subst hji
      simp only [hremove, if_true]
      rw [hfind_eq_none]
      exact hnd.1
    · simp only [hremove, hji, if_false, hfind, hji]
      exact ih hnd.2

theorem mem_hremove {l : List (Nat × LRUHandle)} {i : Nat} {p : Nat × LRUHandle}
    (hnd : (l.map Prod.fst).Nodup) : p ∈ hremove l i ↔ p ∈ l ∧ p.1 ≠ i := by
  induction l with
  | nil => simp [hremove]
  | cons q rest ih =>
    obtain ⟨j, h2⟩ := q
    simp only [List.map_cons, List.nodup_cons] at hnd
    by_cases hji : j = i
    · subst hji
      simp only [hremove, if_true, List.mem_cons]
      constructor
      · intro hm
        refine ⟨Or.inr hm, ?_⟩
        intro hc
        exact hnd.1 (hc ▸ List.mem_map_of_mem Prod.fst hm)
      · rintro ⟨hm | hm, hne⟩
        · subst hm
          simp at hne
        · exact hm
    · simp only [hremove, hji, if_false, List.mem_cons, ih hnd.2]
      constructor
      · rintro (heq | ⟨hm, hne⟩)
        · subst heq
          exact ⟨Or.inl rfl, fun hc => hji hc⟩
        · exact ⟨Or.inr hm, hne⟩
      · rintro ⟨hm | hm, hne⟩
        · exact Or.inl hm
        · exact Or.inr ⟨hm, hne⟩

theorem mem_hset {l : List (Nat × LRUHandle)} {i : Nat} {h : LRUHandle}
    {p : Nat × LRUHandle} (hnd : (l.map Prod.fst).Nodup) (hi : i ∈ l.map Prod.fst) :
    p ∈ hset l i h ↔ (p ∈ l ∧ p.1 ≠ i) ∨ p = (i, h) := by
  induction l with
  | nil => simp at hi
  | cons q rest ih =>
    obtain ⟨j, h2⟩ := q
    simp only [List.map_cons, List.nodup_cons] at hnd
    by_cases hji : j = i
    · subst hji
      simp only [hset, if_true, List.mem_cons]
      constructor
      · rintro (heq | hm)
        · exact Or.inr heq
        · refine Or.inl ⟨Or.inr hm, ?_⟩
          intro hc
          exact hnd.1 (hc ▸ List.mem_map_of_mem Prod.fst hm)
      · rintro (⟨hm | hm, hne⟩ | heq)
        · subst hm
          simp at hne
        · exact Or.inr hm
        · exact Or.inl heq
    · simp only [List.map_cons, List.mem_cons] at hi
      rcases hi with hc | hi2
      · exact absurd hc.symm hji
      · simp only [hset, hji, if_false, List.mem_cons, ih hnd.2 hi2]
        constructor
        · rintro (heq | (⟨hm, hne⟩ | heq))
          · refine Or.inl ⟨Or.inl heq, ?_⟩
            subst heq
            simpa using hji
          · exact Or.inl ⟨Or.inr hm, hne⟩
          · exact Or.inr heq
        · rintro (⟨hm | hm, hne⟩ | heq)
          · exact Or.inl hm
          · exact Or.inr (Or.inl ⟨hm, hne⟩)
          · exact Or.inr (Or.inr heq)

theorem chargeSum_append (l1 l2 : List (Nat × LRUHandle)) :
    chargeSum (l1 ++ l2) = chargeSum l1 + chargeSum l2 := by
  induction l1 with
  | nil => simp [chargeSum]
  | cons p rest ih =>
    obtain ⟨j, h⟩ := p
    simp only [List.cons_append, chargeSum, List.append_eq, ih]
    omega

theorem chargeSum_hset {l : List (Nat × LRUHandle)} {i : Nat} {h0 : LRUHandle}
    (hf : hfind l i = some h0) (h : LRUHandle) :
    chargeSum (hset l i h) + (if h0.in_cache then h0.charge else 0) =
      chargeSum l + (if h.in_cache then h.charge else 0) := by
  induction l with
  | nil => simp [hfind] at hf
  | cons p rest ih =>
    obtain ⟨j, h2⟩ := p
    simp only [hfind] at hf
    by_cases hji : j = i
    · simp only [hji, if_true, Option.some.injEq] at hf
      subst hf
      simp only [hset, hji, if_true, chargeSum]
      omega
    · simp only [hji, if_false] at hf
      simp only [hset, hji, if_false, chargeSum]
      have := ih hf
      omega

theorem chargeSum_hremove {l : List (Nat × LRUHandle)} {i : Nat} {h0 : LRUHandle}
    (hf : hfind l i = some h0) :
    chargeSum (hremove l i) + (if h0.in_cache then h0.charge else 0) = chargeSum l := by
  induction l with
  | nil => simp [hfind] at hf
  | cons p rest ih =>
    obtain ⟨j, h2⟩ := p
    simp only [hfind] at hf
    by_cases hji : j = i
    · simp only [hji, if_true, Option.some.injEq] at hf
      subst hf
      simp only [hremove, hji, if_true, chargeSum]
      omega
    · simp only [hji, if_false] at hf
      simp only [hremove, hji, if_false, chargeSum]
      have := ih hf
      omega

theorem chargeSum_snoc (l : List (Nat × LRUHandle)) (i : Nat) (h : LRUHandle) :
    chargeSum (l ++ [(i, h)]) = chargeSum l + (if h.in_cache then h.charge else 0) := by
  rw [chargeSum_append]
  simp [chargeSum]

/-! ### Hash table chain lemmas -/

theorem tableFind_some_spec {hs : List (Nat × LRUHandle)} {tl : List Nat} {key : List Nat}
    {hash i : Nat} (h : tableFind hs tl key hash = some i) :
    i ∈ tl ∧ ∃ hh, hfind hs i = some hh ∧ hh.hash = hash ∧ hh.key = key := by
  induction tl with
  | nil => simp [tableFind] at h
  | cons j rest ih =>
    simp only [tableFind] at h
    rcases hf : hfind hs j with _ | hh
    · simp only [hf] at h
      obtain ⟨hm, spec⟩ := ih h
      exact ⟨List.mem_cons_of_mem _ hm, spec⟩
    · simp only [hf] at h
      by_cases hmatch : hh.hash = hash ∧ hh.key = key
      · rw [if_pos hmatch] at h
        simp only [Option.some.injEq] at h
        subst h
        exact ⟨by simp, hh, hf, hmatch⟩
      · rw [if_neg hmatch] at h
        obtain ⟨hm, spec⟩ := ih h
        exact ⟨List.mem_cons_of_mem _ hm, spec⟩

theorem tableFind_none_spec {hs : List (Nat × LRUHandle)} {tl : List Nat} {key : List Nat}
    {hash : Nat} (h : tableFind hs tl key hash = none) :
    ∀ i ∈ tl, ∀ hh, hfind hs i = some hh → ¬ (hh.hash = hash ∧ hh.key = key) := by
  induction tl with
  | nil => simp
  | cons j rest ih =>
    simp only [tableFind] at h
    intro i hi hh hf
    rcases hfj : hfind hs j with _ | hhj
    · simp only [hfj] at h
      rcases List.mem_cons.mp hi with heq | hm
      · subst heq
        rw [hf] at hfj
        cases hfj
      · exact ih h i hm hh hf
    · simp only [hfj] at h
      by_cases hmatch : hhj.hash = hash ∧ hhj.key = key
      · rw [if_pos hmatch] at h
        cases h
      · rw [if_neg hmatch] at h
        rcases List.mem_cons.mp hi with heq | hm
        · subst heq
          rw [hf] at hfj
          injection hfj with he
          subst he
          exact hmatch
        · exact ih h i hm hh hf

theorem tableRemove_snd (hs : List (Nat × LRUHandle)) (tl : List Nat) (key : List Nat)
    (hash : Nat) : (tableRemove hs tl key hash).2 = tableFind hs tl key hash := by
  induction tl with
  | nil => simp [tableRemove, tableFind]
  | cons j rest ih =>
    simp only [tableRemove, tableFind]
    rcases hf : hfind hs j with _ | hh
    · simpa using ih
    · by_cases hmatch : hh.hash = hash ∧ hh.key = key
      · simp [hmatch]
      · simpa [hmatch] using ih

theorem tableRemove_none {hs : List (Nat × LRUHandle)} {tl : List Nat} {key : List Nat}
    {hash : Nat} (h : tableFind hs tl key hash = none) :
    (tableRemove hs tl key hash).1 = tl := by
  induction tl with
  | nil => simp [tableRemove]
  | cons j rest ih =>
    simp only [tableFind] at h
    simp only [tableRemove]
    rcases hf : hfind hs j with _ | hh
    · simp only [hf] at h
      simp [ih h]
    · simp only [hf] at h
      by_cases hmatch : hh.hash = hash ∧ hh.key = key
      · rw [if_pos hmatch] at h
        cases h
      · rw [if_neg hmatch] at h
        simp [hmatch, ih h]

theorem tableRemove_some {hs : List (Nat × LRUHandle)} {tl : List Nat} {key : List Nat}
    {hash i : Nat} (h : tableFind hs tl key hash = some i) (hnd : tl.Nodup) :
    (tableRemove hs tl key hash).1 = tl.erase i := by
  induction tl with
  | nil => simp [tableFind] at h
  | cons j rest ih =>
    simp only [tableFind] at h
    simp only [tableRemove]
    simp only [List.nodup_cons] at hnd
    rcases hf : hfind hs j with _ | hh
    · simp only [hf] at h
      have hmem := (tableFind_some_spec h).1
      have hji : j ≠ i := fun hc => hnd.1 (hc ▸ hmem)
      rw [List.erase_cons_tail (by simpa using hji)]
      simp [hf, ih h hnd.2]
    · simp only [hf] at h
      by_cases hmatch : hh.hash = hash ∧ hh.key = key
      · rw [if_pos hmatch] at h
        simp only [Option.some.injEq] at h
        subst h
        simp [hf, hmatch, List.erase_cons_head]
      · rw [if_neg hmatch] at h
        have hmem := (tableFind_some_spec h).1
        have hji : j ≠ i := fun hc => hnd.1 (hc ▸ hmem)
        rw [List.erase_cons_tail (by simpa using hji)]
        simp [hf, hmatch, ih h hnd.2]

theorem tableInsert_snd (hs : List (Nat × LRUHandle)) (tl : List Nat) (i : Nat)
    (key : List Nat) (hash : Nat) :
    (tableInsert hs tl i key hash).2 = tableFind hs tl key hash := by
  induction tl with
  | nil => simp [tableInsert, tableFind]
  | cons j rest ih =>
    simp only [tableInsert, tableFind]
    rcases hf : hfind hs j with _ | hh
    · simpa using ih
    · by_cases hmatch : hh.hash = hash ∧ hh.key = key
      · simp [hmatch]
      · simpa [hmatch] using ih

theorem tableInsert_none {hs : List (Nat × LRUHandle)} {tl : List Nat} {i : Nat}
    {key : List Nat} {hash : Nat} (h : tableFind hs tl key hash = none) :
    (tableInsert hs tl i key hash).1 = tl ++ [i] := by
  induction tl with
  | nil => simp [tableInsert]
  | cons j rest ih =>
    simp only [tableFind] at h
    simp only [tableInsert]
    rcases hf : hfind hs j with _ | hh
    · simp only [hf] at h
      simp [ih h]
    · simp only [hf] at h
      by_cases hmatch : hh.hash = hash ∧ hh.key = key
      · rw [if_pos hmatch] at h
        cases h
      · rw [if_neg hmatch] at h
        simp [hmatch, ih h]

theorem tableInsert_some {hs : List (Nat × LRUHandle)} {tl : List Nat} {i : Nat}
    {key : List Nat} {hash j : Nat} (h : tableFind hs tl key hash = some j)
    (hnd : tl.Nodup) :
    (tableInsert hs tl i key hash).1 = tl.map fun x => if x = j then i else x := by
  induction tl with
  | nil => simp [tableFind] at h
  | cons j2 rest ih =>
    simp only [tableFind] at h
    simp only [tableInsert, List.map_cons]
    simp only [List.nodup_cons] at hnd
    rcases hf : hfind hs j2 with _ | hh
    · simp only [hf] at h
      have hmem := (tableFind_some_spec h).1
      have hji : j2 ≠ j := fun hc => hnd.1 (hc ▸ hmem)
      simp [hf, hji, ih h hnd.2]
    · simp only [hf] at h
      by_cases hmatch : hh.hash = hash ∧ hh.key = key
      · rw [if_pos hmatch] at h
        simp only [Option.some.injEq] at h
        subst h
        simp only [hf, hmatch, and_self, if_true, if_pos rfl]
        have : rest.map (fun x => if x = j2 then i else x) = rest := by
          refine List.map_congr_left ?_ |>.trans rest.map_id
          intro x hx
          have : x ≠ j2 := fun hc => hnd.1 (hc ▸ hx)
          simp [this]
        rw [this]
      · rw [if_neg hmatch] at h
        have hmem := (tableFind_some_spec h).1
        have hji : j2 ≠ j := fun hc => hnd.1 (hc ▸ hmem)
        simp [hf, hmatch, hji, ih h hnd.2]

/-! ### `FinishErase` characterization -/

theorem hremove_hset (l : List (Nat × LRUHandle)) (i : Nat) (h : LRUHandle) :
    hremove (hset l i h) i = hremove l i := by
  induction l with
  | nil => simp [hset, hremove]
  | cons p rest ih =>
    obtain ⟨j, h2⟩ := p
    by_cases hji : j = i
    · simp [hset, hremove, hji]
    · simp only [hset, hremove, hji, if_false, ih]

theorem hset_hset (l : List (Nat × LRUHandle)) (i : Nat) (a b : LRUHandle) :
    hset (hset l i a) i b = hset l i b := by
  induction l with
  | nil => simp [hset]
  | cons p rest ih =>
    obtain ⟨j, h2⟩ := p
    by_cases hji : j = i
    · simp [hset, hji]
    · simp only [hset, hji, if_false, ih]

theorem finishErase_spec (s : CacheState) (i : Nat) (h : LRUHandle)
    (hf : hfind s.handles i = some h) :
    finishErase s (some i) =
      if h.refs - 1 = 0 then
        { s with lru := s.lru.erase i, in_use := s.in_use.erase i,
                 handles := hremove s.handles i,
                 usage := s.usage - h.charge, freed := s.freed ++ [i] }
      else
        { s with lru := s.lru.erase i, in_use := s.in_use.erase i,
                 handles := hset s.handles i { h with in_cache := false, refs := h.refs - 1 },
                 usage := s.usage - h.charge } := by
  simp only [finishErase, hf, lruRemove]
  have hf2 : hfind (hset s.handles i { h with in_cache := false }) i =
      some { h with in_cache := false } := hfind_hset_self hf _
  simp only [cacheUnref, hf2]
  by_cases hz : h.refs - 1 = 0
  · simp [hz, hremove_hset]
  · simp [hz, hset_hset, lruRemove]

theorem finishErase_none (s : CacheState) : finishErase s none = s := rfl

theorem finishErase_table (s : CacheState) (o : Option Nat) :
    (finishErase s o).table = s.table := by
  cases o with
  | none => rfl
  | some i =>
    simp only [finishErase]
    rcases hf : hfind s.handles i with _ | h
    · rfl
    · simp only [cacheUnref]
      rcases hf2 : hfind (hset (lruRemove s i).handles i { h with in_cache := false }) i
        with _ | h2
      · rfl
      · by_cases hz : h2.refs - 1 = 0
        · simp [hz, lruRemove]
        · by_cases hm : h2.in_cache = true ∧ h2.refs - 1 = 1
          · simp [hz, hm, lruRemove]
          · simp only [hz, if_false]
            rcases hmm : h2.in_cache with _ | _ <;> by_cases hr : h2.refs - 1 = 1 <;>
              simp [hz, hmm, hr, lruRemove]

theorem hfind_some_fst_mem {l : List (Nat × LRUHandle)} {i : Nat} {h : LRUHandle}
    (hf : hfind l i = some h) : i ∈ l.map Prod.fst :=
  List.mem_map_of_mem Prod.fst (hfind_mem hf)

theorem hfind_hremove_none {l : List (Nat × LRUHandle)} {j : Nat} (i : Nat)
    (hn : hfind l j = none) : hfind (hremove l i) j = none := by
  rw [hfind_eq_none] at hn ⊢
  intro hc
  exact hn (((hremove_sublist l i).map Prod.fst).mem hc)

/-! ### Invariant preservation: finish-erase after a table removal -/

theorem wf_finishErase_pending (t : CacheState) (o : Nat) (pw : PreWF t o) :
    CacheWF (finishErase t (some o)) := by
  obtain ⟨h, hf, hc⟩ := pw.o_live
  have hmem := hfind_mem hf
  have hrefs1 : 1 ≤ h.refs := pw.refs_pos _ hmem
  have hcount : h.refs = t.client.count o + 1 := by
    have := pw.refs_eq _ hmem
    simpa [hc] using this
  have hbound : o < t.next_id := pw.id_bound _ hmem
  have hnotfreed : o ∉ t.freed := by
    intro hcon
    have := (pw.freed_iff o hbound).mp hcon
    rw [hf] at this
    cases this
  have hodom : o ∈ t.handles.map Prod.fst := hfind_some_fst_mem hf
  rw [finishErase_spec t o h hf]
  by_cases hz : h.refs - 1 = 0
  · -- the cache reference was the last one: the handle is freed.
    have hrefs : h.refs = 1 := by omega
    have hclient0 : t.client.count o = 0 := by omega
    have hnotclient : o ∉ t.client := by
      rw [← List.count_eq_zero]
      exact hclient0
    have hinlru : o ∈ t.lru := (pw.listed _ hmem hc).1 hrefs
    rw [if_pos hz]
    refine ⟨pw.lru_nd.erase o, pw.use_nd.erase o, pw.tbl_nd,
      pw.dom_nd.sublist ((hremove_sublist t.handles o).map Prod.fst),
      ?_, ?_, ?_, ?_, ?_, ?_, ?_, ?_, ?_, ?_, ?_, ?_, ?_, ?_, ?_⟩
    · rw [List.nodup_append]
      exact ⟨pw.freed_nd, by simp, by simpa using hnotfreed⟩
    · intro j hj
      obtain ⟨hne, hjl⟩ := (pw.lru_nd.mem_erase_iff).mp hj
      obtain ⟨h2, hf2, hic2, hr2⟩ := pw.lru_ok j hjl
      exact ⟨h2, by rw [hfind_hremove_ne hne]; exact hf2, hic2, hr2⟩
    · intro j hj
      obtain ⟨hne, hjl⟩ := (pw.use_nd.mem_erase_iff).mp hj
      obtain ⟨h2, hf2, hic2, hr2⟩ := pw.use_ok j hjl
      exact ⟨h2, by rw [hfind_hremove_ne hne]; exact hf2, hic2, hr2⟩
    · intro j hj hcon
      exact pw.disj j (List.mem_of_mem_erase hj) (List.mem_of_mem_erase hcon)
    · intro j hj
      have hne : j ≠ o := fun hcon => pw.o_tbl (hcon ▸ hj)
      obtain ⟨h2, hf2, hic2⟩ := pw.tbl_ok j hj
      exact ⟨h2, by rw [hfind_hremove_ne hne]; exact hf2, hic2⟩
    · intro p hp hpc
      rw [mem_hremove pw.dom_nd] at hp
      rcases pw.cache_tbl p hp.1 hpc with htl | ho
      · exact htl
      · exact absurd ho hp.2
    · refine pw.tbl_uniq.imp_of_mem ?_
      intro a b ha hb hne
      have hane : a ≠ o := fun hcon => pw.o_tbl (hcon ▸ ha)
      have hbne : b ≠ o := fun hcon => pw.o_tbl (hcon ▸ hb)
      simpa [keyhash, hfind_hremove_ne hane, hfind_hremove_ne hbne] using hne
    · intro p hp
      rw [mem_hremove pw.dom_nd] at hp
      exact pw.refs_eq p hp.1
    · intro p hp
      rw [mem_hremove pw.dom_nd] at hp
      exact pw.refs_pos p hp.1
    · intro p hp hpc
      rw [mem_hremove pw.dom_nd] at hp
      have hl := pw.listed p hp.1 hpc
      constructor
      · intro hr1
        exact (pw.lru_nd.mem_erase_iff).mpr ⟨hp.2, hl.1 hr1⟩
      · intro hr2
        exact (pw.use_nd.mem_erase_iff).mpr ⟨hp.2, hl.2 hr2⟩
    · intro j hj
      have hjne : j ≠ o := fun hcon => hnotclient (hcon ▸ hj)
      obtain ⟨h2, hf2⟩ := pw.client_live j hj
      exact ⟨h2, by rw [hfind_hremove_ne hjne]; exact hf2⟩
    · intro p hp
      rw [mem_hremove pw.dom_nd] at hp
      exact pw.id_bound p hp.1
    · intro j hj
      rcases List.mem_append.mp hj with hjf | hji
      · exact pw.freed_bound j hjf
      · simp only [List.mem_singleton] at hji
        exact hji ▸ hbound
    · intro j hj
      constructor
      · intro hjf
        rcases List.mem_append.mp hjf with hjf2 | hji
        · exact hfind_hremove_none o ((pw.freed_iff j hj).mp hjf2)
        · simp only [List.mem_singleton] at hji
          subst hji
          exact hfind_hremove_self pw.dom_nd
      · intro hnone
        by_cases hji : j = o
        · subst hji
          simp
        · rw [hfind_hremove_ne hji] at hnone
          exact List.mem_append.mpr (Or.inl ((pw.freed_iff j hj).mpr hnone))
    · have hcs := chargeSum_hremove hf
      rw [hc] at hcs
      simp only [if_true] at hcs
      have := pw.usage_eq
      simp only
      omega
  · -- still referenced by clients: stays live, off both lists, uncached.
    have hrefs2 : 2 ≤ h.refs := by omega
    have hinuse : o ∈ t.in_use := (pw.listed _ hmem hc).2 hrefs2
    rw [if_neg hz]
    refine ⟨pw.lru_nd.erase o, pw.use_nd.erase o, pw.tbl_nd,
      ?_, pw.freed_nd, ?_, ?_, ?_, ?_, ?_, ?_, ?_, ?_, ?_, ?_, ?_, ?_, ?_, ?_⟩
    · rw [map_fst_hset]
      exact pw.dom_nd
    · intro j hj
      obtain ⟨hne, hjl⟩ := (pw.lru_nd.mem_erase_iff).mp hj
      obtain ⟨h2, hf2, hic2, hr2⟩ := pw.lru_ok j hjl
      exact ⟨h2, by rw [hfind_hset_ne hne]; exact hf2, hic2, hr2⟩
    · intro j hj
      obtain ⟨hne, hjl⟩ := (pw.use_nd.mem_erase_iff).mp hj
      obtain ⟨h2, hf2, hic2, hr2⟩ := pw.use_ok j hjl
      exact ⟨h2, by rw [hfind_hset_ne hne]; exact hf2, hic2, hr2⟩
    · intro j hj hcon
      exact pw.disj j (List.mem_of_mem_erase hj) (List.mem_of_mem_erase hcon)
    · intro j hj
      have hne : j ≠ o := fun hcon => pw.o_tbl (hcon ▸ hj)
      obtain ⟨h2, hf2, hic2⟩ := pw.tbl_ok j hj
      exact ⟨h2, by rw [hfind_hset_ne hne]; exact hf2, hic2⟩
    · intro p hp hpc
      rw [mem_hset pw.dom_nd hodom] at hp
      rcases hp with ⟨hpm, hpne⟩ | hpe
      · rcases pw.cache_tbl p hpm hpc with htl | ho
        · exact htl
        · exact absurd ho hpne
      · subst hpe
        simp at hpc
    · refine pw.tbl_uniq.imp_of_mem ?_
      intro a b ha hb hne
      have hane : a ≠ o := fun hcon => pw.o_tbl (hcon ▸ ha)
      have hbne : b ≠ o := fun hcon => pw.o_tbl (hcon ▸ hb)
      simpa [keyhash, hfind_hset_ne hane, hfind_hset_ne hbne] using hne
    · intro p hp
      rw [mem_hset pw.dom_nd hodom] at hp
      rcases hp with ⟨hpm, _⟩ | hpe
      · exact pw.refs_eq p hpm
      · subst hpe
        simp only [Bool.false_eq_true, if_false]
        omega
    · intro p hp
      rw [mem_hset pw.dom_nd hodom] at hp
      rcases hp with ⟨hpm, _⟩ | hpe
      · exact pw.refs_pos p hpm
      · subst hpe
        simp only
        omega
    · intro p hp hpc
      rw [mem_hset pw.dom_nd hodom] at hp
      rcases hp with ⟨hpm, hpne⟩ | hpe
      · have hl := pw.listed p hpm hpc
        constructor
        · intro hr1
          exact (pw.lru_nd.mem_erase_iff).mpr ⟨hpne, hl.1 hr1⟩
        · intro hr2
          exact (pw.use_nd.mem_erase_iff).mpr ⟨hpne, hl.2 hr2⟩
      · subst hpe
        simp at hpc
    · intro j hj
      by_cases hji : j = o
      · subst hji
        exact ⟨_, hfind_hset_self hf _⟩
      · obtain ⟨h2, hf2⟩ := pw.client_live j hj
        exact ⟨h2, by rw [hfind_hset_ne hji]; exact hf2⟩
    · intro p hp
      rw [mem_hset pw.dom_nd hodom] at hp
      rcases hp with ⟨hpm, _⟩ | hpe
      · exact pw.id_bound p hpm
      · subst hpe
        exact hbound
    · exact pw.freed_bound
    · intro j hj
      by_cases hji : j = o
      · subst hji
        rw [hfind_hset_self hf]
        simp [hnotfreed]
      · rw [hfind_hset_ne hji]
        exact pw.freed_iff j hj
    · have hcs := chargeSum_hset hf { h with in_cache := false, refs := h.refs - 1 }
      rw [hc] at hcs
      simp only [if_true, Bool.false_eq_true, if_false] at hcs
      have := pw.usage_eq
      simp only [Bool.false_eq_true, if_false] at hcs ⊢
      omega

theorem wf_finishErase_erased (s : CacheState) (i : Nat) (hwf : CacheWF s)
    (hi : i ∈ s.table) :
    CacheWF (finishErase { s with table := s.table.erase i } (some i)) := by
  refine wf_finishErase_pending _ i ⟨hwf.lru_nd, hwf.use_nd, hwf.tbl_nd.erase i, hwf.dom_nd,
    hwf.freed_nd, hwf.lru_ok, hwf.use_ok, hwf.disj, ?_, ?_, ?_, hwf.refs_eq, hwf.refs_pos,
    hwf.listed, hwf.client_live, hwf.id_bound, hwf.freed_bound, hwf.freed_iff, hwf.usage_eq,
    ?_, hwf.tbl_ok i hi⟩
  · intro j hj
    exact hwf.tbl_ok j (List.mem_of_mem_erase hj)
  · intro p hp hpc
    by_cases hpi : p.1 = i
    · exact Or.inr hpi
    · exact Or.inl ((hwf.tbl_nd.mem_erase_iff).mpr ⟨hpi, hwf.cache_tbl p hp hpc⟩)
  · exact List.Pairwise.sublist (s.table.erase_sublist i) hwf.tbl_uniq
  · intro hcon
    exact absurd rfl ((hwf.tbl_nd.mem_erase_iff).mp hcon).1

/-! ### Erase, eviction and prune -/

theorem cacheErase_none {s : CacheState} {key : List Nat} {hash : Nat}
    (hn : tableFind s.handles s.table key hash = none) : cacheErase s key hash = s := by
  have h1 := tableRemove_none hn
  have h2 : (tableRemove s.handles s.table key hash).2 = none := by
    rw [tableRemove_snd]
    exact hn
  simp only [cacheErase, h1, h2]
  rfl

theorem cacheErase_some {s : CacheState} {key : List Nat} {hash i : Nat}
    (hfnd : tableFind s.handles s.table key hash = some i) (hnd : s.table.Nodup) :
    cacheErase s key hash = finishErase { s with table := s.table.erase i } (some i) := by
  have h1 := tableRemove_some hfnd hnd
  have h2 : (tableRemove s.handles s.table key hash).2 = some i := by
    rw [tableRemove_snd]
    exact hfnd
  simp only [cacheErase, h1, h2]

theorem wf_cacheErase (s : CacheState) (key : List Nat) (hash : Nat) (hwf : CacheWF s) :
    CacheWF (cacheErase s key hash) := by
  rcases hfnd : tableFind s.handles s.table key hash with _ | i
  · rw [cacheErase_none hfnd]
    exact hwf
  · rw [cacheErase_some hfnd hwf.tbl_nd]
    exact wf_finishErase_erased s i hwf (tableFind_some_spec hfnd).1

theorem tableFind_mem_uniq {hs : List (Nat × LRUHandle)} {tl : List Nat} {i : Nat}
    {h : LRUHandle} (hmem : i ∈ tl) (hf : hfind hs i = some h)
    (huniq : tl.Pairwise fun a b => keyhash hs a ≠ keyhash hs b) :
    tableFind hs tl h.key h.hash = some i := by
  induction tl with
  | nil => simp at hmem
  | cons j rest ih =>
    simp only [tableFind]
    have hpw := List.pairwise_cons.mp huniq
    rcases List.mem_cons.mp hmem with heq | hm
    · subst heq
      simp [hf]
    · rcases hfj : hfind hs j with _ | hj
      · exact ih hm hpw.2
      · by_cases hmatch : hj.hash = h.hash ∧ hj.key = h.key
        · exfalso
          apply hpw.1 i hm
          simp [keyhash, hfj, hf, hmatch.1, hmatch.2]
        · simp only [hmatch, if_false]
          exact ih hm hpw.2

theorem finishErase_some_lru {s : CacheState} {i : Nat} {h : LRUHandle}
    (hf : hfind s.handles i = some h) :
    (finishErase s (some i)).lru = s.lru.erase i := by
  rw [finishErase_spec s i h hf]
  split <;> rfl

theorem wf_evictLoop :
    ∀ (fuel : Nat) (s : CacheState), CacheWF s →
      CacheWF (evictLoop s fuel) ∧
      (s.lru.length ≤ fuel →
        (evictLoop s fuel).usage ≤ (evictLoop s fuel).capacity ∨ (evictLoop s fuel).lru = []) := by
  intro fuel
  induction fuel with
  | zero =>
    intro s hwf
    refine ⟨hwf, ?_⟩
    intro hlen
    right
    simpa [evictLoop] using List.eq_nil_of_length_eq_zero (Nat.le_zero.mp hlen)
  | succ fuel ih =>
    intro s hwf
    by_cases hcond : s.capacity < s.usage ∧ s.lru ≠ []
    · obtain ⟨hcap, hne⟩ := hcond
      rcases hlru : s.lru with _ | ⟨old, rest⟩
      · exact absurd hlru hne
      · obtain ⟨h, hf, hic, hr1⟩ := hwf.lru_ok old (by rw [hlru]; simp)
        have hmemtbl : old ∈ s.table := hwf.cache_tbl _ (hfind_mem hf) hic
        have hfnd : tableFind s.handles s.table h.key h.hash = some old :=
          tableFind_mem_uniq hmemtbl hf hwf.tbl_uniq
        have hrm1 := tableRemove_some hfnd hwf.tbl_nd
        have hrm2 : (tableRemove s.handles s.table h.key h.hash).2 = some old := by
          rw [tableRemove_snd]
          exact hfnd
        have hstep : evictLoop s (fuel + 1) =
            evictLoop (finishErase { s with table := s.table.erase old } (some old)) fuel := by
          simp only [evictLoop, hlru, hf, hrm1, hrm2, List.cons_ne_nil, ne_eq,
            not_false_eq_true, and_true, hcap, if_true]
        rw [hstep]
        have hwf2 := wf_finishErase_erased s old hwf hmemtbl
        have hlen2 : (finishErase { s with table := s.table.erase old } (some old)).lru =
            rest := by
          rw [@finishErase_some_lru { s with table := s.table.erase old } old h hf]
          show s.lru.erase old = rest
          rw [hlru, List.erase_cons_head]
        obtain ⟨hwf3, hpost⟩ := ih _ hwf2
        refine ⟨hwf3, ?_⟩
        intro hlen
        apply hpost
        have hle := congrArg List.length hlen2
        have hll := congrArg List.length hlru
        simp only [List.length_cons] at hll hlen
        omega
    · have hid : evictLoop s (fuel + 1) = s := by
        simp only [evictLoop]
        rw [if_neg hcond]
      rw [hid]
      refine ⟨hwf, fun _ => ?_⟩
      rcases not_and_or.mp hcond with hc | hc
      · left
        omega
      · right
        simpa using hc

theorem wf_pruneLoop :
    ∀ (fuel : Nat) (s : CacheState), CacheWF s → CacheWF (pruneLoop s fuel) := by
  intro fuel
  induction fuel with
  | zero =>
    intro s hwf
    exact hwf
  | succ fuel ih =>
    intro s hwf
    rcases hlru : s.lru with _ | ⟨old, rest⟩
    · simp only [pruneLoop, hlru]
      exact hwf
    · obtain ⟨h, hf, hic, hr1⟩ := hwf.lru_ok old (by rw [hlru]; simp)
      have hmemtbl : old ∈ s.table := hwf.cache_tbl _ (hfind_mem hf) hic
      have hfnd : tableFind s.handles s.table h.key h.hash = some old :=
        tableFind_mem_uniq hmemtbl hf hwf.tbl_uniq
      have hrm1 := tableRemove_some hfnd hwf.tbl_nd
      have hrm2 : (tableRemove s.handles s.table h.key h.hash).2 = some old := by
        rw [tableRemove_snd]
        exact hfnd
      have hstep : pruneLoop s (fuel + 1) =
          pruneLoop (finishErase { s with table := s.table.erase old } (some old)) fuel := by
        simp only [pruneLoop, hlru, hf, hrm1, hrm2]
      rw [hstep]
      exact ih _ (wf_finishErase_erased s old hwf hmemtbl)

theorem wf_cachePrune (s : CacheState) (hwf : CacheWF s) : CacheWF (cachePrune s) :=
  wf_pruneLoop s.lru.length s hwf

/-! ### Lookup, release and insert preserve the invariant -/

theorem hfind_append_of_none {l1 : List (Nat × LRUHandle)} {i : Nat}
    (h : hfind l1 i = none) (l2 : List (Nat × LRUHandle)) :
    hfind (l1 ++ l2) i = hfind l2 i := by
  induction l1 with
  | nil => rfl
  | cons p rest ih =>
    obtain ⟨j, hj⟩ := p
    simp only [hfind, List.cons_append] at h ⊢
    by_cases hji : j = i
    · rw [if_pos hji] at h
      cases h
    · rw [if_neg hji] at h ⊢
      exact ih h

theorem hfind_append_of_some {l1 : List (Nat × LRUHandle)} {i : Nat} {h0 : LRUHandle}
    (h : hfind l1 i = some h0) (l2 : List (Nat × LRUHandle)) :
    hfind (l1 ++ l2) i = some h0 := by
  induction l1 with
  | nil => cases h
  | cons p rest ih =>
    obtain ⟨j, hj⟩ := p
    simp only [hfind, List.cons_append] at h ⊢
    by_cases hji : j = i
    · rw [if_pos hji] at h ⊢
      exact h
    · rw [if_neg hji] at h ⊢
      exact ih h

theorem hfind_snoc_self {l : List (Nat × LRUHandle)} {i : Nat} (h : hfind l i = none)
    (e : LRUHandle) : hfind (l ++ [(i, e)]) i = some e := by
  rw [hfind_append_of_none h]
  simp [hfind]

theorem hfind_snoc_ne (l : List (Nat × LRUHandle)) {i j : Nat} (hne : j ≠ i)
    (e : LRUHandle) : hfind (l ++ [(i, e)]) j = hfind l j := by
  rcases hf : hfind l j with _ | h0
  · rw [hfind_append_of_none hf]
    simp only [hfind, if_neg (Ne.symm hne), hf]
  · exact hfind_append_of_some hf _

theorem hset_append_fresh {l : List (Nat × LRUHandle)} {i : Nat} (h : hfind l i = none)
    (e e2 : LRUHandle) : hset (l ++ [(i, e)]) i e2 = l ++ [(i, e2)] := by
  induction l with
  | nil => simp [hset]
  | cons p rest ih =>
    obtain ⟨j, hj⟩ := p
    simp only [hfind] at h
    by_cases hji : j = i
    · rw [if_pos hji] at h
      cases h
    · rw [if_neg hji] at h
      simp only [List.cons_append, hset, hji, if_false, List.append_eq]
      rw [ih h]

theorem tableFind_congr {hs hs2 : List (Nat × LRUHandle)} {tl : List Nat}
    (hcong : ∀ j ∈ tl, hfind hs2 j = hfind hs j) (key : List Nat) (hash : Nat) :
    tableFind hs2 tl key hash = tableFind hs tl key hash := by
  induction tl with
  | nil => rfl
  | cons j rest ih =>
    have ih2 := ih (fun a ha => hcong a (by simp [ha]))
    simp only [tableFind]
    rw [hcong j (by simp)]
    rcases hfind hs j with _ | h
    · exact ih2
    · by_cases hm : h.hash = hash ∧ h.key = key
      · simp [hm]
      · simp only [hm, if_false]
        exact ih2

theorem tableFind_none_intro {hs : List (Nat × LRUHandle)} {tl : List Nat} {key : List Nat}
    {hash : Nat}
    (h : ∀ i ∈ tl, ∀ hh, hfind hs i = some hh → ¬(hh.hash = hash ∧ hh.key = key)) :
    tableFind hs tl key hash = none := by
  induction tl with
  | nil => rfl
  | cons j rest ih =>
    have ih2 := ih (fun a ha => h a (by simp [ha]))
    simp only [tableFind]
    rcases hf : hfind hs j with _ | hh
    · exact ih2
    · dsimp only
      rw [if_neg (h j (by simp) hh hf)]
      exact ih2

theorem cacheRef_spec (s : CacheState) (i : Nat) (h : LRUHandle)
    (hf : hfind s.handles i = some h) :
    cacheRef s i =
      if h.refs = 1 ∧ h.in_cache = true then
        { s with lru := s.lru.erase i, in_use := s.in_use.erase i ++ [i],
                 handles := hset s.handles i { h with refs := h.refs + 1 } }
      else { s with handles := hset s.handles i { h with refs := h.refs + 1 } } := by
  by_cases hc : h.refs = 1 ∧ h.in_cache = true
  · simp [cacheRef, hf, lruRemove, hc]
  · simp [cacheRef, hf, lruRemove, hc]

theorem cacheUnref_spec (s : CacheState) (i : Nat) (h : LRUHandle)
    (hf : hfind s.handles i = some h) :
    cacheUnref s i =
      if h.refs - 1 = 0 then
        { s with handles := hremove s.handles i, freed := s.freed ++ [i] }
      else if h.in_cache = true ∧ h.refs - 1 = 1 then
        { s with lru := s.lru.erase i ++ [i], in_use := s.in_use.erase i,
                 handles := hset s.handles i { h with refs := h.refs - 1 } }
      else { s with handles := hset s.handles i { h with refs := h.refs - 1 } } := by
  by_cases hz : h.refs - 1 = 0
  · simp [cacheUnref, hf, hz]
  · by_cases hm : h.in_cache = true ∧ h.refs - 1 = 1
    · simp [cacheUnref, hf, hz, hm, lruRemove]
    · simp [cacheUnref, hf, hz, hm, lruRemove]

theorem wf_fresh_none (s : CacheState) (hwf : CacheWF s) :
    hfind s.handles s.next_id = none := by
  rcases hf : hfind s.handles s.next_id with _ | h
  · rfl
  · exact absurd (hwf.id_bound _ (hfind_mem hf)) (lt_irrefl _)

theorem wf_cacheRef_client (s : CacheState) (i : Nat) (h : LRUHandle) (hwf : CacheWF s)
    (hf : hfind s.handles i = some h) (hic : h.in_cache = true) :
    CacheWF { cacheRef s i with client := s.client ++ [i] } := by
  have hmem := hfind_mem hf
  have hitbl : i ∈ s.table := hwf.cache_tbl _ hmem hic
  have hidom : i ∈ s.handles.map Prod.fst := hfind_some_fst_mem hf
  have hre := hwf.refs_eq _ hmem
  simp only [hic, if_true] at hre
  have hbound : i < s.next_id := hwf.id_bound _ hmem
  have hnfreed : i ∉ s.freed := by
    intro hcon
    have hcc := (hwf.freed_iff i hbound).mp hcon
    rw [hf] at hcc
    cases hcc
  have hfs : hfind (hset s.handles i { h with refs := h.refs + 1 }) i =
      some { h with refs := h.refs + 1 } := hfind_hset_self hf _
  have hkh : ∀ j, keyhash (hset s.handles i { h with refs := h.refs + 1 }) j =
      keyhash s.handles j := by
    intro j
    by_cases hji : j = i
    · subst hji
      simp [keyhash, hfs, hf]
    · simp [keyhash, hfind_hset_ne hji]
  rw [cacheRef_spec s i h hf]
  by_cases hr1 : h.refs = 1
  · rw [if_pos ⟨hr1, hic⟩]
    have hinlru : i ∈ s.lru := (hwf.listed _ hmem hic).1 hr1
    have hnuse : i ∉ s.in_use := hwf.disj i hinlru
    have hue : s.in_use.erase i = s.in_use := List.erase_of_not_mem hnuse
    rw [hue]
    refine ⟨hwf.lru_nd.erase i, ?_, hwf.tbl_nd, ?_, hwf.freed_nd, ?_, ?_, ?_, ?_, ?_, ?_,
      ?_, ?_, ?_, ?_, ?_, hwf.freed_bound, ?_, ?_⟩
    · rw [List.nodup_append]
      exact ⟨hwf.use_nd, by simp, by simpa using hnuse⟩
    · show ((hset s.handles i { h with refs := h.refs + 1 }).map Prod.fst).Nodup
      rw [map_fst_hset]
      exact hwf.dom_nd
    · intro j hj
      obtain ⟨hne, hjl⟩ := (hwf.lru_nd.mem_erase_iff).mp hj
      obtain ⟨h2, hf2, hic2, hrr⟩ := hwf.lru_ok j hjl
      exact ⟨h2, by rw [hfind_hset_ne hne]; exact hf2, hic2, hrr⟩
    · intro j hj
      rcases List.mem_append.mp hj with hju | hji
      · have hne : j ≠ i := fun hcon => hnuse (hcon ▸ hju)
        obtain ⟨h2, hf2, hic2, hrr⟩ := hwf.use_ok j hju
        exact ⟨h2, by rw [hfind_hset_ne hne]; exact hf2, hic2, hrr⟩
      · have hji2 : j = i := by simpa using hji
        subst hji2
        exact ⟨_, hfs, hic, by show 2 ≤ h.refs + 1; omega⟩
    · intro j hj hcon
      obtain ⟨hne, hjl⟩ := (hwf.lru_nd.mem_erase_iff).mp hj
      rcases List.mem_append.mp hcon with hju | hji
      · exact hwf.disj j hjl hju
      · exact hne (by simpa using hji)
    · intro j hj
      by_cases hji : j = i
      · subst hji
        exact ⟨_, hfs, hic⟩
      · obtain ⟨h2, hf2, hic2⟩ := hwf.tbl_ok j hj
        exact ⟨h2, by rw [hfind_hset_ne hji]; exact hf2, hic2⟩
    · intro p hp hpc
      rcases (mem_hset hwf.dom_nd hidom).mp hp with ⟨hpo, hpne⟩ | hpe
      · exact hwf.cache_tbl p hpo hpc
      · rw [hpe]
        exact hitbl
    · refine List.Pairwise.imp ?_ hwf.tbl_uniq
      intro a b hab
      rw [hkh, hkh]
      exact hab
    · intro p hp
      rcases (mem_hset hwf.dom_nd hidom).mp hp with ⟨hpo, hpne⟩ | hpe
      · have hcc : (s.client ++ [i]).count p.1 = s.client.count p.1 := by
          simp [List.count_append, List.count_cons, hpne]
        rw [hcc]
        exact hwf.refs_eq p hpo
      · subst hpe
        have hcc : (s.client ++ [i]).count i = s.client.count i + 1 := by
          simp [List.count_append]
        show h.refs + 1 = (s.client ++ [i]).count i + _
        simp only [hic, if_true, hcc]
        omega
    · intro p hp
      rcases (mem_hset hwf.dom_nd hidom).mp hp with ⟨hpo, _⟩ | hpe
      · exact hwf.refs_pos p hpo
      · subst hpe
        show 1 ≤ h.refs + 1
        omega
    · intro p hp hpc
      rcases (mem_hset hwf.dom_nd hidom).mp hp with ⟨hpo, hpne⟩ | hpe
      · have hl := hwf.listed p hpo hpc
        constructor
        · intro hr
          exact (hwf.lru_nd.mem_erase_iff).mpr ⟨hpne, hl.1 hr⟩
        · intro hr
          exact List.mem_append.mpr (Or.inl (hl.2 hr))
      · subst hpe
        constructor
        · intro hr
          exfalso
          have hr0 : h.refs + 1 = 1 := hr
          omega
        · intro _
          exact List.mem_append.mpr (Or.inr (by simp))
    · intro j hj
      by_cases hji : j = i
      · subst hji
        exact ⟨_, hfs⟩
      · have hjc : j ∈ s.client := by
          rcases List.mem_append.mp hj with hcl | hone
          · exact hcl
          · exact absurd (by simpa using hone) hji
        obtain ⟨h2, hf2⟩ := hwf.client_live j hjc
        exact ⟨h2, by rw [hfind_hset_ne hji]; exact hf2⟩
    · intro p hp
      rcases (mem_hset hwf.dom_nd hidom).mp hp with ⟨hpo, _⟩ | hpe
      · exact hwf.id_bound p hpo
      · subst hpe
        exact hbound
    · intro j hjlt
      by_cases hji : j = i
      · subst hji
        constructor
        · intro hcon
          exact absurd hcon hnfreed
        · intro hcon
          rw [hfs] at hcon
          cases hcon
      · show j ∈ s.freed ↔ hfind (hset s.handles i { h with refs := h.refs + 1 }) j = none
        rw [hfind_hset_ne hji]
        exact hwf.freed_iff j hjlt
    · show s.usage = chargeSum (hset s.handles i { h with refs := h.refs + 1 })
      have hcs := chargeSum_hset hf { h with refs := h.refs + 1 }
      have hu := hwf.usage_eq
      simp only [hic, eq_self_iff_true, if_true] at hcs
      simp only [hic]
      omega
  · rw [if_neg (fun hcon => hr1 hcon.1)]
    have hrge : 2 ≤ h.refs := by
      have hp1 := hwf.refs_pos _ hmem
      omega
    have hinuse : i ∈ s.in_use := (hwf.listed _ hmem hic).2 hrge
    have hnlru : i ∉ s.lru := by
      intro hcon
      obtain ⟨h2, hf2, _, hrr⟩ := hwf.lru_ok i hcon
      rw [hf] at hf2
      cases hf2
      exact hr1 hrr
    refine ⟨hwf.lru_nd, hwf.use_nd, hwf.tbl_nd, ?_, hwf.freed_nd, ?_, ?_, hwf.disj, ?_, ?_,
      ?_, ?_, ?_, ?_, ?_, ?_, hwf.freed_bound, ?_, ?_⟩
    · show ((hset s.handles i { h with refs := h.refs + 1 }).map Prod.fst).Nodup
      rw [map_fst_hset]
      exact hwf.dom_nd
    · intro j hj
      have hne : j ≠ i := fun hcon => hnlru (hcon ▸ hj)
      obtain ⟨h2, hf2, hic2, hrr⟩ := hwf.lru_ok j hj
      exact ⟨h2, by rw [hfind_hset_ne hne]; exact hf2, hic2, hrr⟩
    · intro j hj
      by_cases hji : j = i
      · subst hji
        exact ⟨_, hfs, hic, by show 2 ≤ h.refs + 1; omega⟩
      · obtain ⟨h2, hf2, hic2, hrr⟩ := hwf.use_ok j hj
        exact ⟨h2, by rw [hfind_hset_ne hji]; exact hf2, hic2, hrr⟩
    · intro j hj
      by_cases hji : j = i
      · subst hji
        exact ⟨_, hfs, hic⟩
      · obtain ⟨h2, hf2, hic2⟩ := hwf.tbl_ok j hj
        exact ⟨h2, by rw [hfind_hset_ne hji]; exact hf2, hic2⟩
    · intro p hp hpc
      rcases (mem_hset hwf.dom_nd hidom).mp hp with ⟨hpo, hpne⟩ | hpe
      · exact hwf.cache_tbl p hpo hpc
      · rw [hpe]
        exact hitbl
    · refine List.Pairwise.imp ?_ hwf.tbl_uniq
      intro a b hab
      rw [hkh, hkh]
      exact hab
    · intro p hp
      rcases (mem_hset hwf.dom_nd hidom).mp hp with ⟨hpo, hpne⟩ | hpe
      · have hcc : (s.client ++ [i]).count p.1 = s.client.count p.1 := by
          simp [List.count_append, List.count_cons, hpne]
        rw [hcc]
        exact hwf.refs_eq p hpo
      · subst hpe
        have hcc : (s.client ++ [i]).count i = s.client.count i + 1 := by
          simp [List.count_append]
        show h.refs + 1 = (s.client ++ [i]).count i + _
        simp only [hic, if_true, hcc]
        omega
    · intro p hp
      rcases (mem_hset hwf.dom_nd hidom).mp hp with ⟨hpo, _⟩ | hpe
      · exact hwf.refs_pos p hpo
      · subst hpe
        show 1 ≤ h.refs + 1
        omega
    · intro p hp hpc
      rcases (mem_hset hwf.dom_nd hidom).mp hp with ⟨hpo, hpne⟩ | hpe
      · exact hwf.listed p hpo hpc
      · subst hpe
        constructor
        · intro hr
          exfalso
          have hr0 : h.refs + 1 = 1 := hr
          omega
        · intro _
          exact hinuse
    · intro j hj
      by_cases hji : j = i
      · subst hji
        exact ⟨_, hfs⟩
      · have hjc : j ∈ s.client := by
          rcases List.mem_append.mp hj with hcl | hone
          · exact hcl
          · exact absurd (by simpa using hone) hji
        obtain ⟨h2, hf2⟩ := hwf.client_live j hjc
        exact ⟨h2, by rw [hfind_hset_ne hji]; exact hf2⟩
    · intro p hp
      rcases (mem_hset hwf.dom_nd hidom).mp hp with ⟨hpo, _⟩ | hpe
      · exact hwf.id_bound p hpo
      · subst hpe
        exact hbound
    · intro j hjlt
      by_cases hji : j = i
      · subst hji
        constructor
        · intro hcon
          exact absurd hcon hnfreed
        · intro hcon
          rw [hfs] at hcon
          cases hcon
      · show j ∈ s.freed ↔ hfind (hset s.handles i { h with refs := h.refs + 1 }) j = none
        rw [hfind_hset_ne hji]
        exact hwf.freed_iff j hjlt
    · show s.usage = chargeSum (hset s.handles i { h with refs := h.refs + 1 })
      have hcs := chargeSum_hset hf { h with refs := h.refs + 1 }
      have hu := hwf.usage_eq
      simp only [hic, eq_self_iff_true, if_true] at hcs
      simp only [hic]
      omega

theorem wf_cacheLookup (s : CacheState) (key : List Nat) (hash : Nat) (hwf : CacheWF s) :
    CacheWF (cacheLookup s key hash) := by
  rcases hfnd : tableFind s.handles s.table key hash with _ | i
  · simpa [cacheLookup, hfnd] using hwf
  · obtain ⟨hitbl, hh, hfh, _, _⟩ := tableFind_some_spec hfnd
    obtain ⟨h2, hf2, hic2⟩ := hwf.tbl_ok i hitbl
    simp only [cacheLookup, hfnd]
    exact wf_cacheRef_client s i h2 hwf hf2 hic2

theorem wf_cacheRelease (s : CacheState) (i : Nat) (hwf : CacheWF s) :
    CacheWF (cacheRelease s i) := by
  by_cases hcl : i ∈ s.client
  · obtain ⟨h, hf⟩ := hwf.client_live i hcl
    have hmem := hfind_mem hf
    have hidom : i ∈ s.handles.map Prod.fst := hfind_some_fst_mem hf
    have hcnt1 : s.client.count i ≠ 0 := fun hc => (List.count_eq_zero.mp hc) hcl
    have hre := hwf.refs_eq _ hmem
    dsimp only at hre
    have hbound : i < s.next_id := hwf.id_bound _ hmem
    have hnfreed : i ∉ s.freed := by
      intro hcon
      have hcc := (hwf.freed_iff i hbound).mp hcon
      rw [hf] at hcc
      cases hcc
    have hstep : cacheRelease s i = { cacheUnref s i with client := s.client.erase i } := by
      simp [cacheRelease, hcl]
    rw [hstep, cacheUnref_spec s i h hf]
    by_cases hz : h.refs - 1 = 0
    · rw [if_pos hz]
      have hicf : h.in_cache = false := by
        rcases hcb : h.in_cache with _ | _
        · rfl
        · exfalso
          simp only [hcb, eq_self_iff_true, if_true] at hre
          omega
      have hcnt : s.client.count i = 1 := by
        simp only [hicf, Bool.false_eq_true, if_false] at hre
        omega
      have hnlru : i ∉ s.lru := by
        intro hcon
        obtain ⟨h2, hf2, hic2, _⟩ := hwf.lru_ok i hcon
        rw [hf] at hf2
        cases hf2
        rw [hicf] at hic2
        cases hic2
      have hnuse : i ∉ s.in_use := by
        intro hcon
        obtain ⟨h2, hf2, hic2, _⟩ := hwf.use_ok i hcon
        rw [hf] at hf2
        cases hf2
        rw [hicf] at hic2
        cases hic2
      have hntbl : i ∉ s.table := by
        intro hcon
        obtain ⟨h2, hf2, hic2⟩ := hwf.tbl_ok i hcon
        rw [hf] at hf2
        cases hf2
        rw [hicf] at hic2
        cases hic2
      refine ⟨hwf.lru_nd, hwf.use_nd, hwf.tbl_nd,
        hwf.dom_nd.sublist ((hremove_sublist s.handles i).map Prod.fst), ?_, ?_, ?_,
        hwf.disj, ?_, ?_, ?_, ?_, ?_, ?_, ?_, ?_, ?_, ?_, ?_⟩
      · rw [List.nodup_append]
        exact ⟨hwf.freed_nd, by simp, by simpa using hnfreed⟩
      · intro j hj
        have hne : j ≠ i := fun hcon => hnlru (hcon ▸ hj)
        obtain ⟨h2, hf2, hic2, hrr⟩ := hwf.lru_ok j hj
        exact ⟨h2, by rw [hfind_hremove_ne hne]; exact hf2, hic2, hrr⟩
      · intro j hj
        have hne : j ≠ i := fun hcon => hnuse (hcon ▸ hj)
        obtain ⟨h2, hf2, hic2, hrr⟩ := hwf.use_ok j hj
        exact ⟨h2, by rw [hfind_hremove_ne hne]; exact hf2, hic2, hrr⟩
      · intro j hj
        have hne : j ≠ i := fun hcon => hntbl (hcon ▸ hj)
        obtain ⟨h2, hf2, hic2⟩ := hwf.tbl_ok j hj
        exact ⟨h2, by rw [hfind_hremove_ne hne]; exact hf2, hic2⟩
      · intro p hp hpc
        rw [mem_hremove hwf.dom_nd] at hp
        exact hwf.cache_tbl p hp.1 hpc
      · refine hwf.tbl_uniq.imp_of_mem ?_
        intro a b ha hb hne
        have hane : a ≠ i := fun hcon => hntbl (hcon ▸ ha)
        have hbne : b ≠ i := fun hcon => hntbl (hcon ▸ hb)
        simpa [keyhash, hfind_hremove_ne hane, hfind_hremove_ne hbne] using hne
      · intro p hp
        rw [mem_hremove hwf.dom_nd] at hp
        have hcc : (s.client.erase i).count p.1 = s.client.count p.1 :=
          List.count_erase_of_ne hp.2 s.client
        rw [hcc]
        exact hwf.refs_eq p hp.1
      · intro p hp
        rw [mem_hremove hwf.dom_nd] at hp
        exact hwf.refs_pos p hp.1
      · intro p hp hpc
        rw [mem_hremove hwf.dom_nd] at hp
        exact hwf.listed p hp.1 hpc
      · intro j hj
        by_cases hji : j = i
        · exfalso
          have hc0 : (s.client.erase i).count i = 0 := by
            rw [List.count_erase_self, hcnt]
          rw [hji] at hj
          exact (List.count_eq_zero.mp hc0) hj
        · obtain ⟨h2, hf2⟩ := hwf.client_live j (List.mem_of_mem_erase hj)
          exact ⟨h2, by rw [hfind_hremove_ne hji]; exact hf2⟩
      · intro p hp
        rw [mem_hremove hwf.dom_nd] at hp
        exact hwf.id_bound p hp.1
      · intro j hj
        rcases List.mem_append.mp hj with hjf | hji
        · exact hwf.freed_bound j hjf
        · have hji2 : j = i := by simpa using hji
          rw [hji2]
          exact hbound
      · intro j hjlt
        by_cases hji : j = i
        · subst hji
          constructor
          · intro _
            exact hfind_hremove_self hwf.dom_nd
          · intro _
            simp
        · constructor
          · intro hjm
            have hjf : j ∈ s.freed := by
              rcases List.mem_append.mp hjm with hjf | hj1
              · exact hjf
              · exact absurd (by simpa using hj1) hji
            show hfind (hremove s.handles i) j = none
            rw [hfind_hremove_ne hji]
            exact (hwf.freed_iff j hjlt).mp hjf
          · intro hjn
            have hjn2 : hfind (hremove s.handles i) j = none := hjn
            rw [hfind_hremove_ne hji] at hjn2
            exact List.mem_append.mpr (Or.inl ((hwf.freed_iff j hjlt).mpr hjn2))
      · show s.usage = chargeSum (hremove s.handles i)
        have hcs := chargeSum_hremove hf
        simp only [hicf, Bool.false_eq_true, if_false, add_zero] at hcs
        rw [hwf.usage_eq, ← hcs]
    · rw [if_neg hz]
      by_cases hm : h.in_cache = true ∧ h.refs - 1 = 1
      · rw [if_pos hm]
        obtain ⟨hic, hr2e⟩ := hm
        have hre1 : h.refs = s.client.count i + 1 := by
          simpa [hic] using hre
        have hcnt : s.client.count i = 1 := by omega
        have hinuse : i ∈ s.in_use := (hwf.listed _ hmem hic).2 (by show 2 ≤ h.refs; omega)
        have hnlru : i ∉ s.lru := by
          intro hcon
          obtain ⟨h2, hf2, _, hrr⟩ := hwf.lru_ok i hcon
          rw [hf] at hf2
          cases hf2
          omega
        have hle : s.lru.erase i = s.lru := List.erase_of_not_mem hnlru
        rw [hle]
        have hitbl : i ∈ s.table := hwf.cache_tbl _ hmem hic
        have hfs : hfind (hset s.handles i { h with refs := h.refs - 1 }) i =
            some { h with refs := h.refs - 1 } := hfind_hset_self hf _
        have hkh : ∀ j, keyhash (hset s.handles i { h with refs := h.refs - 1 }) j =
            keyhash s.handles j := by
          intro j
          by_cases hji : j = i
          · subst hji
            simp [keyhash, hfs, hf]
          · simp [keyhash, hfind_hset_ne hji]
        refine ⟨?_, hwf.use_nd.erase i, hwf.tbl_nd, ?_, hwf.freed_nd, ?_, ?_, ?_, ?_, ?_,
          ?_, ?_, ?_, ?_, ?_, ?_, hwf.freed_bound, ?_, ?_⟩
        · rw [List.nodup_append]
          exact ⟨hwf.lru_nd, by simp, by simpa using hnlru⟩
        · show ((hset s.handles i { h with refs := h.refs - 1 }).map Prod.fst).Nodup
          rw [map_fst_hset]
          exact hwf.dom_nd
        · intro j hj
          rcases List.mem_append.mp hj with hjl | hji
          · have hne : j ≠ i := fun hcon => hnlru (hcon ▸ hjl)
            obtain ⟨h2, hf2, hic2, hrr⟩ := hwf.lru_ok j hjl
            exact ⟨h2, by rw [hfind_hset_ne hne]; exact hf2, hic2, hrr⟩
          · have hji2 : j = i := by simpa using hji
            subst hji2
            refine ⟨_, hfs, hic, ?_⟩
            show h.refs - 1 = 1
            omega
        · intro j hj
          obtain ⟨hne, hju⟩ := (hwf.use_nd.mem_erase_iff).mp hj
          obtain ⟨h2, hf2, hic2, hrr⟩ := hwf.use_ok j hju
          exact ⟨h2, by rw [hfind_hset_ne hne]; exact hf2, hic2, hrr⟩
        · intro j hj hcon
          rcases List.mem_append.mp hj with hjl | hji
          · exact hwf.disj j hjl (List.mem_of_mem_erase hcon)
          · have hji2 : j = i := by simpa using hji
            subst hji2
            exact ((hwf.use_nd.mem_erase_iff).mp hcon).1 rfl
        · intro j hj
          by_cases hji : j = i
          · subst hji
            exact ⟨_, hfs, hic⟩
          · obtain ⟨h2, hf2, hic2⟩ := hwf.tbl_ok j hj
            exact ⟨h2, by rw [hfind_hset_ne hji]; exact hf2, hic2⟩
        · intro p hp hpc
          rcases (mem_hset hwf.dom_nd hidom).mp hp with ⟨hpo, hpne⟩ | hpe
          · exact hwf.cache_tbl p hpo hpc
          · rw [hpe]
            exact hitbl
        · refine List.Pairwise.imp ?_ hwf.tbl_uniq
          intro a b hab
          rw [hkh, hkh]
          exact hab
        · intro p hp
          rcases (mem_hset hwf.dom_nd hidom).mp hp with ⟨hpo, hpne⟩ | hpe
          · have hcc : (s.client.erase i).count p.1 = s.client.count p.1 :=
              List.count_erase_of_ne hpne s.client
            rw [hcc]
            exact hwf.refs_eq p hpo
          · subst hpe
            have hcc : (s.client.erase i).count i = 0 := by
              rw [List.count_erase_self, hcnt]
            show h.refs - 1 = (s.client.erase i).count i + _
            simp only [hic, if_true, hcc]
            omega
        · intro p hp
          rcases (mem_hset hwf.dom_nd hidom).mp hp with ⟨hpo, _⟩ | hpe
          · exact hwf.refs_pos p hpo
          · subst hpe
            show 1 ≤ h.refs - 1
            omega
        · intro p hp hpc
          rcases (mem_hset hwf.dom_nd hidom).mp hp with ⟨hpo, hpne⟩ | hpe
          · have hl := hwf.listed p hpo hpc
            constructor
            · intro hr
              exact List.mem_append.mpr (Or.inl (hl.1 hr))
            · intro hr
              exact (hwf.use_nd.mem_erase_iff).mpr ⟨hpne, hl.2 hr⟩
          · subst hpe
            constructor
            · intro _
              exact List.mem_append.mpr (Or.inr (by simp))
            · intro hr
              exfalso
              have hr0 : 2 ≤ h.refs - 1 := hr
              omega
        · intro j hj
          by_cases hji : j = i
          · subst hji
            exact ⟨_, hfs⟩
          · obtain ⟨h2, hf2⟩ := hwf.client_live j (List.mem_of_mem_erase hj)
            exact ⟨h2, by rw [hfind_hset_ne hji]; exact hf2⟩
        · intro p hp
          rcases (mem_hset hwf.dom_nd hidom).mp hp with ⟨hpo, _⟩ | hpe
          · exact hwf.id_bound p hpo
          · subst hpe
            exact hbound
        · intro j hjlt
          by_cases hji : j = i
          · subst hji
            constructor
            · intro hcon
              exact absurd hcon hnfreed
            · intro hcon
              rw [hfs] at hcon
              cases hcon
          · show j ∈ s.freed ↔ hfind (hset s.handles i { h with refs := h.refs - 1 }) j = none
            rw [hfind_hset_ne hji]
            exact hwf.freed_iff j hjlt
        · show s.usage = chargeSum (hset s.handles i { h with refs := h.refs - 1 })
          have hcs := chargeSum_hset hf { h with refs := h.refs - 1 }
          have hu := hwf.usage_eq
          simp only [hic, eq_self_iff_true, if_true] at hcs
          simp only [hic]
          omega
      · rw [if_neg hm]
        have hfs : hfind (hset s.handles i { h with refs := h.refs - 1 }) i =
            some { h with refs := h.refs - 1 } := hfind_hset_self hf _
        have hkh : ∀ j, keyhash (hset s.handles i { h with refs := h.refs - 1 }) j =
            keyhash s.handles j := by
          intro j
          by_cases hji : j = i
          · subst hji
            simp [keyhash, hfs, hf]
          · simp [keyhash, hfind_hset_ne hji]
        have hnlru : i ∉ s.lru := by
          intro hcon
          obtain ⟨h2, hf2, hic2, hrr⟩ := hwf.lru_ok i hcon
          rw [hf] at hf2
          cases hf2
          exact hm ⟨hic2, by omega⟩
        refine ⟨hwf.lru_nd, hwf.use_nd, hwf.tbl_nd, ?_, hwf.freed_nd, ?_, ?_, hwf.disj,
          ?_, ?_, ?_, ?_, ?_, ?_, ?_, ?_, hwf.freed_bound, ?_, ?_⟩
        · show ((hset s.handles i { h with refs := h.refs - 1 }).map Prod.fst).Nodup
          rw [map_fst_hset]
          exact hwf.dom_nd
        · intro j hj
          have hne : j ≠ i := fun hcon => hnlru (hcon ▸ hj)
          obtain ⟨h2, hf2, hic2, hrr⟩ := hwf.lru_ok j hj
          exact ⟨h2, by rw [hfind_hset_ne hne]; exact hf2, hic2, hrr⟩
        · intro j hj
          by_cases hji : j = i
          · subst hji
            obtain ⟨h2, hf2, hic2, hrr⟩ := hwf.use_ok j hj
            rw [hf] at hf2
            cases hf2
            refine ⟨_, hfs, hic2, ?_⟩
            show 2 ≤ h.refs - 1
            have hne1 : h.refs - 1 ≠ 1 := fun hcon => hm ⟨hic2, hcon⟩
            omega
          · obtain ⟨h2, hf2, hic2, hrr⟩ := hwf.use_ok j hj
            exact ⟨h2, by rw [hfind_hset_ne hji]; exact hf2, hic2, hrr⟩
        · intro j hj
          by_cases hji : j = i
          · subst hji
            obtain ⟨h2, hf2, hic2⟩ := hwf.tbl_ok j hj
            rw [hf] at hf2
            cases hf2
            exact ⟨_, hfs, hic2⟩
          · obtain ⟨h2, hf2, hic2⟩ := hwf.tbl_ok j hj
            exact ⟨h2, by rw [hfind_hset_ne hji]; exact hf2, hic2⟩
        · intro p hp hpc
          rcases (mem_hset hwf.dom_nd hidom).mp hp with ⟨hpo, hpne⟩ | hpe
          · exact hwf.cache_tbl p hpo hpc
          · subst hpe
            exact hwf.cache_tbl (i, h) hmem hpc
        · refine List.Pairwise.imp ?_ hwf.tbl_uniq
          intro a b hab
          rw [hkh, hkh]
          exact hab
        · intro p hp
          rcases (mem_hset hwf.dom_nd hidom).mp hp with ⟨hpo, hpne⟩ | hpe
          · have hcc : (s.client.erase i).count p.1 = s.client.count p.1 :=
              List.count_erase_of_ne hpne s.client
            rw [hcc]
            exact hwf.refs_eq p hpo
          · subst hpe
            have hcc : (s.client.erase i).count i = s.client.count i - 1 :=
              List.count_erase_self i s.client
            show h.refs - 1 = (s.client.erase i).count i + _
            rcases hcb : h.in_cache with _ | _
            · simp only [hcb, Bool.false_eq_true, if_false] at hre ⊢
              omega
            · simp only [hcb, eq_self_iff_true, if_true] at hre ⊢
              omega
        · intro p hp
          rcases (mem_hset hwf.dom_nd hidom).mp hp with ⟨hpo, _⟩ | hpe
          · exact hwf.refs_pos p hpo
          · subst hpe
            show 1 ≤ h.refs - 1
            omega
        · intro p hp hpc
          rcases (mem_hset hwf.dom_nd hidom).mp hp with ⟨hpo, hpne⟩ | hpe
          · exact hwf.listed p hpo hpc
          · subst hpe
            have hic2 : h.in_cache = true := hpc
            constructor
            · intro hr
              exfalso
              have hr0 : h.refs - 1 = 1 := hr
              exact hm ⟨hic2, hr0⟩
            · intro _
              have hrefsge : 2 ≤ h.refs := by omega
              exact (hwf.listed _ hmem hic2).2 hrefsge
        · intro j hj
          by_cases hji : j = i
          · subst hji
            exact ⟨_, hfs⟩
          · obtain ⟨h2, hf2⟩ := hwf.client_live j (List.mem_of_mem_erase hj)
            exact ⟨h2, by rw [hfind_hset_ne hji]; exact hf2⟩
        · intro p hp
          rcases (mem_hset hwf.dom_nd hidom).mp hp with ⟨hpo, _⟩ | hpe
          · exact hwf.id_bound p hpo
          · subst hpe
            exact hbound
        · intro j hjlt
          by_cases hji : j = i
          · subst hji
            constructor
            · intro hcon
              exact absurd hcon hnfreed
            · intro hcon
              rw [hfs] at hcon
              cases hcon
          · show j ∈ s.freed ↔ hfind (hset s.handles i { h with refs := h.refs - 1 }) j = none
            rw [hfind_hset_ne hji]
            exact hwf.freed_iff j hjlt
        · show s.usage = chargeSum (hset s.handles i { h with refs := h.refs - 1 })
          have hcs := chargeSum_hset hf { h with refs := h.refs - 1 }
          have hu := hwf.usage_eq
          dsimp only at hcs
          omega
  · have hid : cacheRelease s i = s := by
      simp [cacheRelease, hcl]
    rw [hid]
    exact hwf

theorem wf_cacheInsert (s : CacheState) (key : List Nat) (hash value charge : Nat)
    (hwf : CacheWF s) :
    CacheWF (cacheInsert s key hash value charge).1 ∧
      ((cacheInsert s key hash value charge).1.usage ≤
          (cacheInsert s key hash value charge).1.capacity ∨
        (cacheInsert s key hash value charge).1.lru = []) := by
  have hfresh : hfind s.handles s.next_id = none := wf_fresh_none s hwf
  have hndom : s.next_id ∉ s.handles.map Prod.fst := hfind_eq_none.mp hfresh
  have hnlru : s.next_id ∉ s.lru := by
    intro hm
    obtain ⟨h2, hf2, _, _⟩ := hwf.lru_ok _ hm
    rw [hfresh] at hf2
    cases hf2
  have hnuse : s.next_id ∉ s.in_use := by
    intro hm
    obtain ⟨h2, hf2, _, _⟩ := hwf.use_ok _ hm
    rw [hfresh] at hf2
    cases hf2
  have hntbl : s.next_id ∉ s.table := by
    intro hm
    obtain ⟨h2, hf2, _⟩ := hwf.tbl_ok _ hm
    rw [hfresh] at hf2
    cases hf2
  have hncl : s.next_id ∉ s.client := by
    intro hm
    obtain ⟨h2, hf2⟩ := hwf.client_live _ hm
    rw [hfresh] at hf2
    cases hf2
  have hcnt0 : s.client.count s.next_id = 0 := List.count_eq_zero.mpr hncl
  have hnfreed : s.next_id ∉ s.freed := fun hm =>
    absurd (hwf.freed_bound _ hm) (lt_irrefl _)
  have htblne : ∀ j ∈ s.table, j ≠ s.next_id := fun j hj he => hntbl (he ▸ hj)
  by_cases hcap : 0 < s.capacity
  · have hcong : ∀ j ∈ s.table,
        hfind (s.handles ++ [(s.next_id, (⟨value, charge, key, hash, 2, true⟩ : LRUHandle))]) j =
          hfind s.handles j :=
      fun j hj => hfind_snoc_ne _ (htblne j hj) _
    have hset2 :
        hset (s.handles ++ [(s.next_id, (⟨value, charge, key, hash, 1, false⟩ : LRUHandle))])
          s.next_id (⟨value, charge, key, hash, 2, true⟩ : LRUHandle) =
        s.handles ++ [(s.next_id, (⟨value, charge, key, hash, 2, true⟩ : LRUHandle))] :=
      hset_append_fresh hfresh _ _
    have htfc :
        tableFind (s.handles ++ [(s.next_id, (⟨value, charge, key, hash, 2, true⟩ : LRUHandle))])
          s.table key hash = tableFind s.handles s.table key hash :=
      tableFind_congr hcong key hash
    rcases hfnd : tableFind s.handles s.table key hash with _ | j
    · have htins2 :
          (tableInsert (s.handles ++ [(s.next_id, (⟨value, charge, key, hash, 2, true⟩ : LRUHandle))])
            s.table s.next_id key hash).2 = none := by
        rw [tableInsert_snd, htfc]
        exact hfnd
      have htins1 :
          (tableInsert (s.handles ++ [(s.next_id, (⟨value, charge, key, hash, 2, true⟩ : LRUHandle))])
            s.table s.next_id key hash).1 = s.table ++ [s.next_id] :=
        tableInsert_none (by rw [htfc]; exact hfnd)
      have heq : cacheInsert s key hash value charge =
          (evictLoop
            { s with
              handles := s.handles ++ [(s.next_id, (⟨value, charge, key, hash, 2, true⟩ : LRUHandle))],
              next_id := s.next_id + 1,
              client := s.client ++ [s.next_id],
              in_use := s.in_use ++ [s.next_id],
              usage := s.usage + charge,
              table := s.table ++ [s.next_id] } s.lru.length, s.next_id) := by
        simp only [cacheInsert, hcap, if_true, hset2, htins1, htins2, finishErase_none]
      rw [heq]
      have hwf2 : CacheWF
          { s with
            handles := s.handles ++ [(s.next_id, (⟨value, charge, key, hash, 2, true⟩ : LRUHandle))],
            next_id := s.next_id + 1,
            client := s.client ++ [s.next_id],
            in_use := s.in_use ++ [s.next_id],
            usage := s.usage + charge,
            table := s.table ++ [s.next_id] } := by
        refine ⟨hwf.lru_nd, ?_, ?_, ?_, hwf.freed_nd, ?_, ?_, ?_, ?_, ?_, ?_, ?_, ?_, ?_,
          ?_, ?_, ?_, ?_, ?_⟩
        · rw [List.nodup_append]
          exact ⟨hwf.use_nd, by simp, by simpa using hnuse⟩
        · rw [List.nodup_append]
          exact ⟨hwf.tbl_nd, by simp, by simpa using hntbl⟩
        · show ((s.handles ++
            [(s.next_id, (⟨value, charge, key, hash, 2, true⟩ : LRUHandle))]).map Prod.fst).Nodup
          rw [List.map_append, List.nodup_append]
          exact ⟨hwf.dom_nd, by simp, by simpa using hndom⟩
        · intro i0 hi0
          have hne : i0 ≠ s.next_id := fun hc => hnlru (hc ▸ hi0)
          obtain ⟨h2, hf2, hic2, hrr⟩ := hwf.lru_ok i0 hi0
          exact ⟨h2, by rw [hfind_snoc_ne _ hne]; exact hf2, hic2, hrr⟩
        · intro i0 hi0
          rcases List.mem_append.mp hi0 with hiu | hi1
          · have hne : i0 ≠ s.next_id := fun hc => hnuse (hc ▸ hiu)
            obtain ⟨h2, hf2, hic2, hrr⟩ := hwf.use_ok i0 hiu
            exact ⟨h2, by rw [hfind_snoc_ne _ hne]; exact hf2, hic2, hrr⟩
          · have hie : i0 = s.next_id := by simpa using hi1
            subst hie
            exact ⟨_, hfind_snoc_self hfresh _, rfl, le_refl 2⟩
        · intro i0 hi0 hcon
          rcases List.mem_append.mp hcon with hcu | hc1
          · exact hwf.disj i0 hi0 hcu
          · have hie : i0 = s.next_id := by simpa using hc1
            rw [hie] at hi0
            exact hnlru hi0
        · intro i0 hi0
          rcases List.mem_append.mp hi0 with hit | hi1
          · have hne : i0 ≠ s.next_id := htblne i0 hit
            obtain ⟨h2, hf2, hic2⟩ := hwf.tbl_ok i0 hit
            exact ⟨h2, by rw [hfind_snoc_ne _ hne]; exact hf2, hic2⟩
          · have hie : i0 = s.next_id := by simpa using hi1
            subst hie
            exact ⟨_, hfind_snoc_self hfresh _, rfl⟩
        · intro p hp hpc
          rcases List.mem_append.mp hp with hpo | hp1
          · exact List.mem_append.mpr (Or.inl (hwf.cache_tbl p hpo hpc))
          · have hpe : p = (s.next_id, (⟨value, charge, key, hash, 2, true⟩ : LRUHandle)) := by
              simpa using hp1
            rw [hpe]
            exact List.mem_append.mpr (Or.inr (by simp))
        · rw [List.pairwise_append]
          refine ⟨hwf.tbl_uniq.imp_of_mem ?_, by simp, ?_⟩
          · intro a b ha hb hne
            have hka : keyhash (s.handles ++
                [(s.next_id, (⟨value, charge, key, hash, 2, true⟩ : LRUHandle))]) a =
                keyhash s.handles a := by
              simp only [keyhash, hfind_snoc_ne s.handles (htblne a ha)]
            have hkb : keyhash (s.handles ++
                [(s.next_id, (⟨value, charge, key, hash, 2, true⟩ : LRUHandle))]) b =
                keyhash s.handles b := by
              simp only [keyhash, hfind_snoc_ne s.handles (htblne b hb)]
            rw [hka, hkb]
            exact hne
          · intro a ha b hb
            have hbe : b = s.next_id := by simpa using hb
            subst hbe
            have hka : keyhash (s.handles ++
                [(s.next_id, (⟨value, charge, key, hash, 2, true⟩ : LRUHandle))]) a =
                keyhash s.handles a := by
              simp only [keyhash, hfind_snoc_ne s.handles (htblne a ha)]
            rw [hka]
            obtain ⟨h2, hf2, _⟩ := hwf.tbl_ok a ha
            have hnm := tableFind_none_spec hfnd a ha h2 hf2
            simp only [keyhash, hfind_snoc_self hfresh, hf2, Option.map_some']
            intro hcon
            have hpair := Option.some.inj hcon
            have hkeq : h2.key = key := congrArg Prod.fst hpair
            have hheq : h2.hash = hash := congrArg Prod.snd hpair
            exact hnm ⟨hheq, hkeq⟩
        · intro p hp
          rcases List.mem_append.mp hp with hpo | hp1
          · have hpne : p.1 ≠ s.next_id := fun hc =>
              hndom (hc ▸ List.mem_map_of_mem Prod.fst hpo)
            have hcc : (s.client ++ [s.next_id]).count p.1 = s.client.count p.1 := by
              simp [List.count_append, List.count_cons, hpne]
            rw [hcc]
            exact hwf.refs_eq p hpo
          · have hpe : p = (s.next_id, (⟨value, charge, key, hash, 2, true⟩ : LRUHandle)) := by
              simpa using hp1
            rw [hpe]
            show (2 : Nat) = (s.client ++ [s.next_id]).count s.next_id + 1
            have hcc : (s.client ++ [s.next_id]).count s.next_id =
                s.client.count s.next_id + 1 := by
              simp [List.count_append]
            rw [hcc, hcnt0]
        · intro p hp
          rcases List.mem_append.mp hp with hpo | hp1
          · exact hwf.refs_pos p hpo
          · have hpe : p = (s.next_id, (⟨value, charge, key, hash, 2, true⟩ : LRUHandle)) := by
              simpa using hp1
            rw [hpe]
            show 1 ≤ 2
            omega
        · intro p hp hpc
          rcases List.mem_append.mp hp with hpo | hp1
          · have hpne : p.1 ≠ s.next_id := fun hc =>
              hndom (hc ▸ List.mem_map_of_mem Prod.fst hpo)
            have hl := hwf.listed p hpo hpc
            exact ⟨fun hr => hl.1 hr, fun hr => List.mem_append.mpr (Or.inl (hl.2 hr))⟩
          · have hpe : p = (s.next_id, (⟨value, charge, key, hash, 2, true⟩ : LRUHandle)) := by
              simpa using hp1
            rw [hpe]
            constructor
            · intro hr
              exfalso
              have hr2 : (2 : Nat) = 1 := hr
              omega
            · intro _
              exact List.mem_append.mpr (Or.inr (by simp))
        · intro i0 hi0
          rcases List.mem_append.mp hi0 with hic | hi1
          · obtain ⟨h2, hf2⟩ := hwf.client_live i0 hic
            exact ⟨h2, hfind_append_of_some hf2 _⟩
          · have hie : i0 = s.next_id := by simpa using hi1
            subst hie
            exact ⟨_, hfind_snoc_self hfresh _⟩
        · intro p hp
          rcases List.mem_append.mp hp with hpo | hp1
          · exact Nat.lt_succ_of_lt (hwf.id_bound p hpo)
          · have hpe : p = (s.next_id, (⟨value, charge, key, hash, 2, true⟩ : LRUHandle)) := by
              simpa using hp1
            rw [hpe]
            exact Nat.lt_succ_self _
        · intro i0 hi0
          exact Nat.lt_succ_of_lt (hwf.freed_bound i0 hi0)
        · intro i0 hi0lt
          have hlt2 : i0 < s.next_id + 1 := hi0lt
          by_cases hie : i0 = s.next_id
          · subst hie
            constructor
            · intro hc
              exact absurd hc hnfreed
            · intro hc
              rw [hfind_snoc_self hfresh] at hc
              cases hc
          · show i0 ∈ s.freed ↔ hfind (s.handles ++
              [(s.next_id, (⟨value, charge, key, hash, 2, true⟩ : LRUHandle))]) i0 = none
            rw [hfind_snoc_ne _ hie]
            exact hwf.freed_iff i0 (by omega)
        · show s.usage + charge = chargeSum (s.handles ++
            [(s.next_id, (⟨value, charge, key, hash, 2, true⟩ : LRUHandle))])
          rw [chargeSum_snoc, hwf.usage_eq]
          simp
      obtain ⟨hwfr, hpost⟩ := wf_evictLoop s.lru.length _ hwf2
      exact ⟨hwfr, hpost (le_refl _)⟩
    · obtain ⟨hjtbl, hh, hfj, hhash, hkey⟩ := tableFind_some_spec hfnd
      have hjic : hh.in_cache = true := by
        obtain ⟨h2, hf2, hic2⟩ := hwf.tbl_ok j hjtbl
        rw [hfj] at hf2
        cases hf2
        exact hic2
      have hjn : j ≠ s.next_id := htblne j hjtbl
      have htfc2 :
          tableFind (s.handles ++ [(s.next_id, (⟨value, charge, key, hash, 2, true⟩ : LRUHandle))])
            s.table key hash = some j := by
        rw [htfc]
        exact hfnd
      have htins2 :
          (tableInsert (s.handles ++ [(s.next_id, (⟨value, charge, key, hash, 2, true⟩ : LRUHandle))])
            s.table s.next_id key hash).2 = some j := by
        rw [tableInsert_snd, htfc]
        exact hfnd
      have htins1 :
          (tableInsert (s.handles ++ [(s.next_id, (⟨value, charge, key, hash, 2, true⟩ : LRUHandle))])
            s.table s.next_id key hash).1 =
          s.table.map fun x => if x = j then s.next_id else x :=
        tableInsert_some htfc2 hwf.tbl_nd
      have heq : cacheInsert s key hash value charge =
          (evictLoop
            (finishErase
              { s with
                handles := s.handles ++ [(s.next_id, (⟨value, charge, key, hash, 2, true⟩ : LRUHandle))],
                next_id := s.next_id + 1,
                client := s.client ++ [s.next_id],
                in_use := s.in_use ++ [s.next_id],
                usage := s.usage + charge,
                table := s.table.map fun x => if x = j then s.next_id else x } (some j))
            (finishErase
              { s with
                handles := s.handles ++ [(s.next_id, (⟨value, charge, key, hash, 2, true⟩ : LRUHandle))],
                next_id := s.next_id + 1,
                client := s.client ++ [s.next_id],
                in_use := s.in_use ++ [s.next_id],
                usage := s.usage + charge,
                table := s.table.map fun x => if x = j then s.next_id else x } (some j)).lru.length,
            s.next_id) := by
        simp only [cacheInsert, hcap, if_true, hset2, htins1, htins2]
      rw [heq]
      have hpw : PreWF
          { s with
            handles := s.handles ++ [(s.next_id, (⟨value, charge, key, hash, 2, true⟩ : LRUHandle))],
            next_id := s.next_id + 1,
            client := s.client ++ [s.next_id],
            in_use := s.in_use ++ [s.next_id],
            usage := s.usage + charge,
            table := s.table.map fun x => if x = j then s.next_id else x } j := by
        refine ⟨hwf.lru_nd, ?_, ?_, ?_, hwf.freed_nd, ?_, ?_, ?_, ?_, ?_, ?_, ?_, ?_, ?_,
          ?_, ?_, ?_, ?_, ?_, ?_, ?_⟩
        · rw [List.nodup_append]
          exact ⟨hwf.use_nd, by simp, by simpa using hnuse⟩
        · refine List.Nodup.map_on ?_ hwf.tbl_nd
          intro x hx y hy hxy
          by_cases hxj : x = j <;> by_cases hyj : y = j
          · rw [hxj, hyj]
          · exfalso
            rw [if_pos hxj, if_neg hyj] at hxy
            exact htblne y hy hxy.symm
          · exfalso
            rw [if_neg hxj, if_pos hyj] at hxy
            exact htblne x hx hxy
          · rw [if_neg hxj, if_neg hyj] at hxy
            exact hxy
        · show ((s.handles ++
            [(s.next_id, (⟨value, charge, key, hash, 2, true⟩ : LRUHandle))]).map Prod.fst).Nodup
          rw [List.map_append, List.nodup_append]
          exact ⟨hwf.dom_nd, by simp, by simpa using hndom⟩
        · intro i0 hi0
          have hne : i0 ≠ s.next_id := fun hc => hnlru (hc ▸ hi0)
          obtain ⟨h2, hf2, hic2, hrr⟩ := hwf.lru_ok i0 hi0
          exact ⟨h2, by rw [hfind_snoc_ne _ hne]; exact hf2, hic2, hrr⟩
        · intro i0 hi0
          rcases List.mem_append.mp hi0 with hiu | hi1
          · have hne : i0 ≠ s.next_id := fun hc => hnuse (hc ▸ hiu)
            obtain ⟨h2, hf2, hic2, hrr⟩ := hwf.use_ok i0 hiu
            exact ⟨h2, by rw [hfind_snoc_ne _ hne]; exact hf2, hic2, hrr⟩
          · have hie : i0 = s.next_id := by simpa using hi1
            subst hie
            exact ⟨_, hfind_snoc_self hfresh _, rfl, le_refl 2⟩
        · intro i0 hi0 hcon
          rcases List.mem_append.mp hcon with hcu | hc1
          · exact hwf.disj i0 hi0 hcu
          · have hie : i0 = s.next_id := by simpa using hc1
            rw [hie] at hi0
            exact hnlru hi0
        · intro y hy
          obtain ⟨x, hx, hfx⟩ := List.mem_map.mp hy
          by_cases hxj : x = j
          · rw [if_pos hxj] at hfx
            rw [← hfx]
            exact ⟨_, hfind_snoc_self hfresh _, rfl⟩
          · rw [if_neg hxj] at hfx
            rw [← hfx]
            obtain ⟨h2, hf2, hic2⟩ := hwf.tbl_ok x hx
            exact ⟨h2, hfind_append_of_some hf2 _, hic2⟩
        · intro p hp hpc
          rcases List.mem_append.mp hp with hpo | hp1
          · by_cases hpj : p.1 = j
            · exact Or.inr hpj
            · refine Or.inl (List.mem_map.mpr ⟨p.1, hwf.cache_tbl p hpo hpc, ?_⟩)
              dsimp only
              rw [if_neg hpj]
          · have hpe : p = (s.next_id, (⟨value, charge, key, hash, 2, true⟩ : LRUHandle)) := by
              simpa using hp1
            refine Or.inl (List.mem_map.mpr ⟨j, hjtbl, ?_⟩)
            dsimp only
            rw [if_pos rfl, hpe]
        · refine List.pairwise_map.mpr (hwf.tbl_uniq.imp_of_mem ?_)
          intro a b ha hb hne
          dsimp only
          have hka : ∀ x ∈ s.table,
              keyhash (s.handles ++
                  [(s.next_id, (⟨value, charge, key, hash, 2, true⟩ : LRUHandle))])
                (if x = j then s.next_id else x) = keyhash s.handles x := by
            intro x hx
            by_cases hxj : x = j
            · rw [if_pos hxj, hxj]
              simp only [keyhash, hfind_snoc_self hfresh, hfj, Option.map_some']
              simp [hkey, hhash]
            · rw [if_neg hxj]
              simp only [keyhash, hfind_snoc_ne s.handles (htblne x hx)]
          rw [hka a ha, hka b hb]
          exact hne
        · intro p hp
          rcases List.mem_append.mp hp with hpo | hp1
          · have hpne : p.1 ≠ s.next_id := fun hc =>
              hndom (hc ▸ List.mem_map_of_mem Prod.fst hpo)
            have hcc : (s.client ++ [s.next_id]).count p.1 = s.client.count p.1 := by
              simp [List.count_append, List.count_cons, hpne]
            rw [hcc]
            exact hwf.refs_eq p hpo
          · have hpe : p = (s.next_id, (⟨value, charge, key, hash, 2, true⟩ : LRUHandle)) := by
              simpa using hp1
            rw [hpe]
            show (2 : Nat) = (s.client ++ [s.next_id]).count s.next_id + 1
            have hcc : (s.client ++ [s.next_id]).count s.next_id =
                s.client.count s.next_id + 1 := by
              simp [List.count_append]
            rw [hcc, hcnt0]
        · intro p hp
          rcases List.mem_append.mp hp with hpo | hp1
          · exact hwf.refs_pos p hpo
          · have hpe : p = (s.next_id, (⟨value, charge, key, hash, 2, true⟩ : LRUHandle)) := by
              simpa using hp1
            rw [hpe]
            show 1 ≤ 2
            omega
        · intro p hp hpc
          rcases List.mem_append.mp hp with hpo | hp1
          · have hl := hwf.listed p hpo hpc
            exact ⟨fun hr => hl.1 hr, fun hr => List.mem_append.mpr (Or.inl (hl.2 hr))⟩
          · have hpe : p = (s.next_id, (⟨value, charge, key, hash, 2, true⟩ : LRUHandle)) := by
              simpa using hp1
            rw [hpe]
            constructor
            · intro hr
              exfalso
              have hr2 : (2 : Nat) = 1 := hr
              omega
            · intro _
              exact List.mem_append.mpr (Or.inr (by simp))
        · intro i0 hi0
          rcases List.mem_append.mp hi0 with hic | hi1
          · obtain ⟨h2, hf2⟩ := hwf.client_live i0 hic
            exact ⟨h2, hfind_append_of_some hf2 _⟩
          · have hie : i0 = s.next_id := by simpa using hi1
            subst hie
            exact ⟨_, hfind_snoc_self hfresh _⟩
        · intro p hp
          rcases List.mem_append.mp hp with hpo | hp1
          · exact Nat.lt_succ_of_lt (hwf.id_bound p hpo)
          · have hpe : p = (s.next_id, (⟨value, charge, key, hash, 2, true⟩ : LRUHandle)) := by
              simpa using hp1
            rw [hpe]
            exact Nat.lt_succ_self _
        · intro i0 hi0
          exact Nat.lt_succ_of_lt (hwf.freed_bound i0 hi0)
        · intro i0 hi0lt
          have hlt2 : i0 < s.next_id + 1 := hi0lt
          by_cases hie : i0 = s.next_id
          · subst hie
            constructor
            · intro hc
              exact absurd hc hnfreed
            · intro hc
              rw [hfind_snoc_self hfresh] at hc
              cases hc
          · show i0 ∈ s.freed ↔ hfind (s.handles ++
              [(s.next_id, (⟨value, charge, key, hash, 2, true⟩ : LRUHandle))]) i0 = none
            rw [hfind_snoc_ne _ hie]
            exact hwf.freed_iff i0 (by omega)
        · show s.usage + charge = chargeSum (s.handles ++
            [(s.next_id, (⟨value, charge, key, hash, 2, true⟩ : LRUHandle))])
          rw [chargeSum_snoc, hwf.usage_eq]
          simp
        · intro hcon
          obtain ⟨x, hx, hfx⟩ := List.mem_map.mp hcon
          by_cases hxj : x = j
          · rw [if_pos hxj] at hfx
            exact hjn hfx.symm
          · rw [if_neg hxj] at hfx
            exact hxj hfx
        · exact ⟨hh, by rw [hfind_snoc_ne _ hjn]; exact hfj, hjic⟩
      have hwf2 := wf_finishErase_pending _ j hpw
      obtain ⟨hwfr, hpost⟩ := wf_evictLoop _ _ hwf2
      exact ⟨hwfr, hpost (le_refl _)⟩
  · have heq : cacheInsert s key hash value charge =
        (evictLoop
          { s with
            handles := s.handles ++ [(s.next_id, (⟨value, charge, key, hash, 1, false⟩ : LRUHandle))],
            next_id := s.next_id + 1,
            client := s.client ++ [s.next_id] } s.lru.length, s.next_id) := by
      simp only [cacheInsert]
      rw [if_neg hcap]
    rw [heq]
    have hwf2 : CacheWF
        { s with
          handles := s.handles ++ [(s.next_id, (⟨value, charge, key, hash, 1, false⟩ : LRUHandle))],
          next_id := s.next_id + 1,
          client := s.client ++ [s.next_id] } := by
      refine ⟨hwf.lru_nd, hwf.use_nd, hwf.tbl_nd, ?_, hwf.freed_nd, ?_, ?_, hwf.disj, ?_, ?_,
        ?_, ?_, ?_, ?_, ?_, ?_, ?_, ?_, ?_⟩
      · show ((s.handles ++
          [(s.next_id, (⟨value, charge, key, hash, 1, false⟩ : LRUHandle))]).map Prod.fst).Nodup
        rw [List.map_append, List.nodup_append]
        exact ⟨hwf.dom_nd, by simp, by simpa using hndom⟩
      · intro i0 hi0
        have hne : i0 ≠ s.next_id := fun hc => hnlru (hc ▸ hi0)
        obtain ⟨h2, hf2, hic2, hrr⟩ := hwf.lru_ok i0 hi0
        exact ⟨h2, by rw [hfind_snoc_ne _ hne]; exact hf2, hic2, hrr⟩
      · intro i0 hi0
        have hne : i0 ≠ s.next_id := fun hc => hnuse (hc ▸ hi0)
        obtain ⟨h2, hf2, hic2, hrr⟩ := hwf.use_ok i0 hi0
        exact ⟨h2, by rw [hfind_snoc_ne _ hne]; exact hf2, hic2, hrr⟩
      · intro i0 hi0
        have hne : i0 ≠ s.next_id := htblne i0 hi0
        obtain ⟨h2, hf2, hic2⟩ := hwf.tbl_ok i0 hi0
        exact ⟨h2, by rw [hfind_snoc_ne _ hne]; exact hf2, hic2⟩
      · intro p hp hpc
        rcases List.mem_append.mp hp with hpo | hp1
        · exact hwf.cache_tbl p hpo hpc
        · have hpe : p = (s.next_id, (⟨value, charge, key, hash, 1, false⟩ : LRUHandle)) := by
            simpa using hp1
          rw [hpe] at hpc
          simp at hpc
      · refine hwf.tbl_uniq.imp_of_mem ?_
        intro a b ha hb hne
        have hka : keyhash (s.handles ++
            [(s.next_id, (⟨value, charge, key, hash, 1, false⟩ : LRUHandle))]) a =
            keyhash s.handles a := by
          simp only [keyhash, hfind_snoc_ne s.handles (htblne a ha)]
        have hkb : keyhash (s.handles ++
            [(s.next_id, (⟨value, charge, key, hash, 1, false⟩ : LRUHandle))]) b =
            keyhash s.handles b := by
          simp only [keyhash, hfind_snoc_ne s.handles (htblne b hb)]
        rw [hka, hkb]
        exact hne
      · intro p hp
        rcases List.mem_append.mp hp with hpo | hp1
        · have hpne : p.1 ≠ s.next_id := fun hc =>
            hndom (hc ▸ List.mem_map_of_mem Prod.fst hpo)
          have hcc : (s.client ++ [s.next_id]).count p.1 = s.client.count p.1 := by
            simp [List.count_append, List.count_cons, hpne]
          rw [hcc]
          exact hwf.refs_eq p hpo
        · have hpe : p = (s.next_id, (⟨value, charge, key, hash, 1, false⟩ : LRUHandle)) := by
            simpa using hp1
          rw [hpe]
          show (1 : Nat) = (s.client ++ [s.next_id]).count s.next_id + 0
          have hcc : (s.client ++ [s.next_id]).count s.next_id =
              s.client.count s.next_id + 1 := by
            simp [List.count_append]
          rw [hcc, hcnt0]
      · intro p hp
        rcases List.mem_append.mp hp with hpo | hp1
        · exact hwf.refs_pos p hpo
        · have hpe : p = (s.next_id, (⟨value, charge, key, hash, 1, false⟩ : LRUHandle)) := by
            simpa using hp1
          rw [hpe]
      · intro p hp hpc
        rcases List.mem_append.mp hp with hpo | hp1
        · exact hwf.listed p hpo hpc
        · have hpe : p = (s.next_id, (⟨value, charge, key, hash, 1, false⟩ : LRUHandle)) := by
            simpa using hp1
          rw [hpe] at hpc
          simp at hpc
      · intro i0 hi0
        rcases List.mem_append.mp hi0 with hic | hi1
        · obtain ⟨h2, hf2⟩ := hwf.client_live i0 hic
          exact ⟨h2, hfind_append_of_some hf2 _⟩
        · have hie : i0 = s.next_id := by simpa using hi1
          subst hie
          exact ⟨_, hfind_snoc_self hfresh _⟩
      · intro p hp
        rcases List.mem_append.mp hp with hpo | hp1
        · exact Nat.lt_succ_of_lt (hwf.id_bound p hpo)
        · have hpe : p = (s.next_id, (⟨value, charge, key, hash, 1, false⟩ : LRUHandle)) := by
            simpa using hp1
          rw [hpe]
          exact Nat.lt_succ_self _
      · intro i0 hi0
        exact Nat.lt_succ_of_lt (hwf.freed_bound i0 hi0)
      · intro i0 hi0lt
        have hlt2 : i0 < s.next_id + 1 := hi0lt
        by_cases hie : i0 = s.next_id
        · subst hie
          constructor
          · intro hc
            exact absurd hc hnfreed
          · intro hc
            rw [hfind_snoc_self hfresh] at hc
            cases hc
        · show i0 ∈ s.freed ↔ hfind (s.handles ++
            [(s.next_id, (⟨value, charge, key, hash, 1, false⟩ : LRUHandle))]) i0 = none
          rw [hfind_snoc_ne _ hie]
          exact hwf.freed_iff i0 (by omega)
      · show s.usage = chargeSum (s.handles ++
          [(s.next_id, (⟨value, charge, key, hash, 1, false⟩ : LRUHandle))])
        rw [chargeSum_snoc, hwf.usage_eq]
        simp
    obtain ⟨hwfr, hpost⟩ := wf_evictLoop s.lru.length _ hwf2
    exact ⟨hwfr, hpost (le_refl _)⟩

theorem wf_initCache (cap : Nat) : CacheWF (initCache cap) := by
  refine ⟨?_, ?_, ?_, ?_, ?_, ?_, ?_, ?_, ?_, ?_, ?_, ?_, ?_, ?_, ?_, ?_, ?_, ?_, ?_⟩ <;>
    simp [initCache, chargeSum]

theorem wf_cacheStep (s : CacheState) (op : CacheOp) (hwf : CacheWF s) :
    CacheWF (cacheStep s op) := by
  cases op with
  | insert key hash value charge => exact (wf_cacheInsert s key hash value charge hwf).1
  | lookup key hash => exact wf_cacheLookup s key hash hwf
  | release i => exact wf_cacheRelease s i hwf
  | erase key hash => exact wf_cacheErase s key hash hwf
  | prune => exact wf_cachePrune s hwf

theorem wf_foldl (ops : List CacheOp) :
    ∀ s : CacheState, CacheWF s → CacheWF (ops.foldl cacheStep s) := by
  induction ops with
  | nil => exact fun s hs => hs
  | cons op rest ih => exact fun s hs => ih _ (wf_cacheStep s op hs)

theorem wf_cacheRun (cap : Nat) (ops : List CacheOp) : CacheWF (cacheRun cap ops) :=
  wf_foldl ops _ (wf_initCache cap)

theorem cacheErase_idem (s : CacheState) (key : List Nat) (hash : Nat) (hwf : CacheWF s) :
    cacheErase (cacheErase s key hash) key hash = cacheErase s key hash := by
  rcases hfnd : tableFind s.handles s.table key hash with _ | i
  · rw [cacheErase_none hfnd, cacheErase_none hfnd]
  · rw [cacheErase_some hfnd hwf.tbl_nd]
    obtain ⟨hitbl, hh, hfh, hhash, hkey⟩ := tableFind_some_spec hfnd
    have hsym : Symmetric fun a b => keyhash s.handles a ≠ keyhash s.handles b :=
      fun a b hab => Ne.symm hab
    have huq := List.Pairwise.forall hsym hwf.tbl_uniq
    rw [finishErase_spec ({ s with table := s.table.erase i } : CacheState) i hh hfh]
    have hki : keyhash s.handles i = some (key, hash) := by
      simp [keyhash, hfh, hhash, hkey]
    by_cases hz : hh.refs - 1 = 0
    · rw [if_pos hz]
      apply cacheErase_none
      apply tableFind_none_intro
      intro j hj h2 hf2 hmatch
      have hj2 : j ∈ s.table.erase i := hj
      obtain ⟨hne, hjt⟩ := (hwf.tbl_nd.mem_erase_iff).mp hj2
      have hf2b : hfind (hremove s.handles i) j = some h2 := hf2
      rw [hfind_hremove_ne hne] at hf2b
      have hkj : keyhash s.handles j = some (key, hash) := by
        simp [keyhash, hf2b, hmatch.1, hmatch.2]
      exact huq hitbl hjt (fun he => hne he.symm) (hki.trans hkj.symm)
    · rw [if_neg hz]
      apply cacheErase_none
      apply tableFind_none_intro
      intro j hj h2 hf2 hmatch
      have hj2 : j ∈ s.table.erase i := hj
      obtain ⟨hne, hjt⟩ := (hwf.tbl_nd.mem_erase_iff).mp hj2
      have hf2b : hfind (hset s.handles i
          { hh with in_cache := false, refs := hh.refs - 1 }) j = some h2 := hf2
      rw [hfind_hset_ne hne] at hf2b
      have hkj : keyhash s.handles j = some (key, hash) := by
        simp [keyhash, hf2b, hmatch.1, hmatch.2]
      exact huq hitbl hjt (fun he => hne he.symm) (hki.trans hkj.symm)

/-- C6: after any `Insert` returns, on any reachable shard state, either the
shard's usage is within its capacity or the `lru_` list is empty: the
eviction loop at the end of `LRUCache::Insert` removes the oldest entry
from the hash table and finish-erases it while `usage_ > capacity_` and
`lru_` is non-empty. -/
theorem lru_insert_capacity (cap : Nat) (ops : List CacheOp) (key : List Nat)
    (hash value charge : Nat) :
    (cacheInsert (cacheRun cap ops) key hash value charge).1.usage ≤
        (cacheInsert (cacheRun cap ops) key hash value charge).1.capacity ∨
      (cacheInsert (cacheRun cap ops) key hash value charge).1.lru = [] :=
  (wf_cacheInsert _ key hash value charge (wf_cacheRun cap ops)).2

/-- C7: two-list invariant of a shard after any operation sequence: an
in-cache handle has `refs ≥ 1`, is on `in_use_` exactly when `refs ≥ 2`
and on `lru_` exactly when `refs = 1`; a handle that was removed from the
cache but is still referenced (`in_cache = false`) is on neither list. -/
theorem lru_two_list_invariant (cap : Nat) (ops : List CacheOp) :
    (∀ p ∈ (cacheRun cap ops).handles, p.2.in_cache = true →
        1 ≤ p.2.refs ∧
        (p.1 ∈ (cacheRun cap ops).in_use ↔ 2 ≤ p.2.refs) ∧
        (p.1 ∈ (cacheRun cap ops).lru ↔ p.2.refs = 1)) ∧
      (∀ p ∈ (cacheRun cap ops).handles, p.2.in_cache = false →
        p.1 ∉ (cacheRun cap ops).lru ∧ p.1 ∉ (cacheRun cap ops).in_use) := by
  have hwf := wf_cacheRun cap ops
  constructor
  · intro p hp hic
    refine ⟨hwf.refs_pos p hp, ?_, ?_⟩
    · constructor
      · intro hm
        obtain ⟨h2, hf2, _, hr2⟩ := hwf.use_ok _ hm
        have hfp : hfind (cacheRun cap ops).handles p.1 = some p.2 :=
          hfind_of_mem hwf.dom_nd (by simpa using hp)
        rw [hfp] at hf2
        cases hf2
        exact hr2
      · intro hr2
        exact (hwf.listed p hp hic).2 hr2
    · constructor
      · intro hm
        obtain ⟨h2, hf2, _, hr1⟩ := hwf.lru_ok _ hm
        have hfp : hfind (cacheRun cap ops).handles p.1 = some p.2 :=
          hfind_of_mem hwf.dom_nd (by simpa using hp)
        rw [hfp] at hf2
        cases hf2
        exact hr1
      · intro hr1
        exact (hwf.listed p hp hic).1 hr1
  · intro p hp hicf
    have hfp : hfind (cacheRun cap ops).handles p.1 = some p.2 :=
      hfind_of_mem hwf.dom_nd (by simpa using hp)
    constructor
    · intro hm
      obtain ⟨h2, hf2, hic2, _⟩ := hwf.lru_ok _ hm
      rw [hfp] at hf2
      cases hf2
      rw [hicf] at hic2
      cases hic2
    · intro hm
      obtain ⟨h2, hf2, hic2, _⟩ := hwf.use_ok _ hm
      rw [hfp] at hf2
      cases hf2
      rw [hicf] at hic2
      cases hic2

theorem lru_two_list_invariant_witness :
    0 ∈ (cacheRun 10 [CacheOp.insert [1] 7 5 1]).in_use :=
  (((lru_two_list_invariant 10 [CacheOp.insert [1] 7 5 1]).1
      (0, ⟨5, 1, [1], 7, 2, true⟩) (by decide) (by decide)).2.1).mpr (by decide)

/-- C8: the deleter is invoked exactly once per freed handle: after any
operation sequence the list of deleter invocations has no duplicates,
every recorded invocation is for an allocated handle, and an allocated
handle's deleter has been invoked exactly when the handle is no longer
live (it was fully released and evicted or erased). -/
theorem lru_deleter_exactly_once (cap : Nat) (ops : List CacheOp) :
    (cacheRun cap ops).freed.Nodup ∧
      (∀ i ∈ (cacheRun cap ops).freed, i < (cacheRun cap ops).next_id) ∧
      (∀ i, i < (cacheRun cap ops).next_id →
        (i ∈ (cacheRun cap ops).freed ↔ hfind (cacheRun cap ops).handles i = none)) := by
  have hwf := wf_cacheRun cap ops
  exact ⟨hwf.freed_nd, hwf.freed_bound, hwf.freed_iff⟩

theorem lru_deleter_exactly_once_witness :
    0 ∈ (cacheRun 10 [CacheOp.insert [1] 7 5 1, CacheOp.release 0,
      CacheOp.erase [1] 7]).freed :=
  ((lru_deleter_exactly_once 10 [CacheOp.insert [1] 7 5 1, CacheOp.release 0,
      CacheOp.erase [1] 7]).2.2 0 (by decide)).mpr (by decide)

/-- C10: erasing an absent key is a no-op: on any reachable shard state,
if the hash table holds no handle with the given key and hash then
`Erase` returns the state unchanged (no list, usage or deleter effect);
and erasing the same key twice equals erasing it once. -/
theorem lru_erase_absent_noop (cap : Nat) (ops : List CacheOp) (key : List Nat)
    (hash : Nat) :
    (tableFind (cacheRun cap ops).handles (cacheRun cap ops).table key hash = none →
        cacheErase (cacheRun cap ops) key hash = cacheRun cap ops) ∧
      cacheErase (cacheErase (cacheRun cap ops) key hash) key hash =
        cacheErase (cacheRun cap ops) key hash :=
  ⟨fun hn => cacheErase_none hn, cacheErase_idem _ key hash (wf_cacheRun cap ops)⟩

theorem lru_erase_absent_noop_witness :
    cacheErase (cacheRun 10 []) [1] 7 = cacheRun 10 [] :=
  (lru_erase_absent_noop 10 [] [1] 7).1 (by decide)

end LevelDB
